import Mathlib

/-! # Celestia frame hierarchy: timelines and frame trees

A shallow embedding of `celengine/timeline.cpp` and `celengine/frametree.cpp`,
of the unit-scaled getters and the reading functions of `celengine/parser.cpp`,
of the pause state and the observers of `celengine/simulation.cpp` and of the
cache of `CachingOrbit` declared in `celephem/orbit.h`.

Objects live in heaps and are named by pointers, as in the C++ code: a
`TimelinePhasePtr` is compared by address, so a phase is a `PhasePtr` and its
fields are read from the heap of the `World`.  Times are `double`s; the code
only compares them, so a `Double` is modelled by what `<`, `<=`, `==` and `!=`
observe of it.
-/

namespace Celestia

/-! ## Doubles under comparison -/

/-- A C++ `double` as the comparison operators see it: a NaN, one of the two
infinities, or a finite value (both zeros are the value `0`). -/
inductive Double where
  | nan : Double
  | negInf : Double
  | finite (q : ℚ) : Double
  | posInf : Double
  deriving DecidableEq

namespace Double

/-- The operator `a < b` on doubles: false as soon as one side is a NaN. -/
def lt : Double → Double → Bool
  | negInf, finite _ => true
  | negInf, posInf => true
  | finite a, finite b => decide (a < b)
  | finite _, posInf => true
  | _, _ => false

/-- The operator `a == b` on doubles: a NaN is equal to nothing. -/
def eq : Double → Double → Bool
  | nan, _ => false
  | _, nan => false
  | a, b => decide (a = b)

/-- The operator `a != b` on doubles, the negation of `==`. -/
def ne (a b : Double) : Bool := !(eq a b)

/-- The operator `a <= b` on doubles. -/
def le (a b : Double) : Bool := lt a b || eq a b

end Double

/-! ## The heap -/

/-- Address of a `TimelinePhase` object. -/
abbrev PhasePtr := Nat

/-- Address of a `Body` object. -/
abbrev BodyPtr := Nat

/-- Address of a `Timeline` object. -/
abbrev TimelinePtr := Nat

/-- A `TimelinePhase` object of a hierarchy with `n` frame trees.  The class is
declared in `timelinephase.h`; the fields are those reached by the accessors
`startTime()`, `endTime()`, `getFrameTree()`, `body()` and by the reference
counting calls `addRef()` and `release()`; `orbitBoundingRadius` is what
`orbit()->getBoundingRadius()` returns. -/
structure TimelinePhase (n : Nat) where
  startTime : Double
  endTime : Double
  refCount : Int
  destroyed : Bool
  frameTree : Fin n
  body : BodyPtr
  orbitBoundingRadius : Double := .finite 0

/-- A `Timeline` object: the vector `phases`. -/
structure Timeline where
  phases : List PhasePtr

/-- A `Body` object of a hierarchy with `n` frame trees, as far as the frame
hierarchy reads it: its timeline, and what `getRadius()`, `getCullingRadius()`,
`isSecondaryIlluminator()`, `getClassification()` and `getFrameTree()` return
(`none` for a body without a frame tree). -/
structure Body (n : Nat) where
  timeline : Option TimelinePtr
  radius : Double := .finite 0
  cullingRadius : Double := .finite 0
  secondaryIlluminator : Bool := false
  classification : Nat := 0
  frameTree : Option (Fin n) := none

/-- A `FrameTree` object: `bodyParent` (null for the tree of a star), the
vector `children`, the flag `m_changed` and the four aggregates
`m_boundingSphereRadius`, `m_maxChildRadius`, `m_containsSecondaryIlluminators`
and `m_childClassMask`. -/
structure FrameTree where
  bodyParent : Option BodyPtr
  children : List PhasePtr
  changed : Bool
  boundingSphereRadius : Double := .finite 0
  maxChildRadius : Double := .finite 0
  containsSecondaryIlluminators : Bool := false
  childClassMask : Nat := 0

/-- The four aggregates of a frame tree: bounding sphere radius, maximum child
radius, secondary illuminator flag and child class mask. -/
def FrameTree.aggregates (tr : FrameTree) : Double × Double × Bool × Nat :=
  (tr.boundingSphereRadius, tr.maxChildRadius, tr.containsSecondaryIlluminators,
    tr.childClassMask)

/-- The objects of a frame hierarchy with `n` frame trees. -/
structure World (n : Nat) where
  phases : PhasePtr → TimelinePhase n
  timelines : TimelinePtr → Timeline
  bodies : BodyPtr → Body n
  trees : Fin n → FrameTree

variable {n : Nat}

/-- Modelled from the spec: `TimelinePhase::addRef` (declared in
`timelinephase.h`) takes one more shared reference to the phase: the
reference count goes up by one. -/
def TimelinePhase.addRef (p : TimelinePhase n) : TimelinePhase n :=
  { p with refCount := p.refCount + 1 }

/-- Modelled from the spec: `TimelinePhase::release` (declared in
`timelinephase.h`) gives one reference back: the count goes down by one, and a
phase whose reference count drops to zero is destroyed. -/
def TimelinePhase.release (p : TimelinePhase n) : TimelinePhase n :=
  { p with refCount := p.refCount - 1,
           destroyed := p.destroyed || decide (p.refCount - 1 ≤ 0) }

/-- The world after `phase->addRef()`. -/
def World.addRef (w : World n) (phase : PhasePtr) : World n :=
  { w with phases := Function.update w.phases phase (w.phases phase).addRef }

/-- The world after `phase->release()`. -/
def World.release (w : World n) (phase : PhasePtr) : World n :=
  { w with phases := Function.update w.phases phase (w.phases phase).release }

/-- The world after an assignment to the vector `phases` of a timeline. -/
def World.setPhases (w : World n) (tl : TimelinePtr) (ps : List PhasePtr) : World n :=
  { w with timelines := Function.update w.timelines tl { phases := ps } }

/-- The world after an assignment to the vector `children` of a frame tree. -/
def World.setChildren (w : World n) (t : Fin n) (cs : List PhasePtr) : World n :=
  { w with trees := Function.update w.trees t { w.trees t with children := cs } }

/-- The world after an assignment to the flag `m_changed` of a frame tree. -/
def World.setChanged (w : World n) (t : Fin n) (b : Bool) : World n :=
  { w with trees := Function.update w.trees t { w.trees t with changed := b } }

/-! ## `timeline.cpp` -/

/-- Method `Timeline::appendPhase` (timeline.cpp:35): the returned flag and the world
after the call. -/
def Timeline.appendPhase (w : World n) (tl : TimelinePtr) (phase : PhasePtr) :
    Bool × World n :=
  match (w.timelines tl).phases.getLast? with
  | some back =>
    if Double.ne (w.phases phase).startTime (w.phases back).endTime then
      (false, w)
    else
      (true, (w.addRef phase).setPhases tl ((w.timelines tl).phases ++ [phase]))
  | none =>
    (true, (w.addRef phase).setPhases tl ((w.timelines tl).phases ++ [phase]))

/-- Method `Timeline::findPhase` (timeline.cpp:50).  On an empty timeline the code
reads `phases.back()` of an empty vector, which has no defined result:
`none`. -/
def Timeline.findPhase (w : World n) (tl : TimelinePtr) (t : Double) : Option PhasePtr :=
  let phases := (w.timelines tl).phases
  if phases.length = 1 then
    phases.head?
  else
    match phases.find? (fun phase => Double.lt t (w.phases phase).endTime) with
    | some phase => some phase
    | none => phases.getLast?

/-- Method `Timeline::getPhase` (timeline.cpp:70): `phases.at(n)`, which throws
outside the vector. -/
def Timeline.getPhase (w : World n) (tl : TimelinePtr) (i : Nat) : Option PhasePtr :=
  (w.timelines tl).phases[i]?

/-- Method `Timeline::phaseCount` (timeline.cpp:76). -/
def Timeline.phaseCount (w : World n) (tl : TimelinePtr) : Nat :=
  (w.timelines tl).phases.length

/-- Method `Timeline::startTime` (timeline.cpp:80); `phases.front()` has no defined
result on an empty timeline. -/
def Timeline.startTime (w : World n) (tl : TimelinePtr) : Option Double :=
  (w.timelines tl).phases.head?.map (fun p => (w.phases p).startTime)

/-- Method `Timeline::endTime` (timeline.cpp:84); `phases.back()` has no defined
result on an empty timeline. -/
def Timeline.endTime (w : World n) (tl : TimelinePtr) : Option Double :=
  (w.timelines tl).phases.getLast?.map (fun p => (w.phases p).endTime)

/-- Method `Timeline::includes` (timeline.cpp:93). -/
def Timeline.includes (w : World n) (tl : TimelinePtr) (t : Double) : Option Bool :=
  match (w.timelines tl).phases.head?, (w.timelines tl).phases.getLast? with
  | some front, some back =>
    some (Double.le (w.phases front).startTime t && Double.le t (w.phases back).endTime)
  | _, _ => none

/-- Method `Timeline::markChanged` (timeline.cpp:97), given the effect `mc` of
`FrameTree::markChanged` on one tree: the loop over `phases`. -/
def Timeline.markChangedWith (mc : World n → Fin n → Option (World n))
    (w : World n) (tl : TimelinePtr) : Option (World n) :=
  (w.timelines tl).phases.foldlM (fun acc phase => mc acc (acc.phases phase).frameTree) w

/-- Modelled from the spec: `Body::markChanged` (declared in `body.h`) is the
step by which `FrameTree::markChanged` propagates to the frame trees above the
body: a body with a timeline forwards to `Timeline::markChanged`, which
reaches the owning frame tree of every phase of the body. -/
def Body.markChangedWith (mc : World n → Fin n → Option (World n))
    (w : World n) (b : BodyPtr) : Option (World n) :=
  match (w.bodies b).timeline with
  | some tl => Timeline.markChangedWith mc w tl
  | none => some w

/-! ## `frametree.cpp` -/

/-- Method `FrameTree::markChanged` (frametree.cpp:70).  The fuel bounds the depth of
the nested calls; `none` when it is used up. -/
def FrameTree.markChanged : Nat → World n → Fin n → Option (World n)
  | 0, _, _ => none
  | fuel + 1, w, t =>
    if (w.trees t).changed then
      some w
    else
      match (w.trees t).bodyParent with
      | some b => Body.markChangedWith (FrameTree.markChanged fuel) (w.setChanged t true) b
      | none => some (w.setChanged t true)

/-- Method `Timeline::markChanged` (timeline.cpp:97). -/
def Timeline.markChanged (fuel : Nat) (w : World n) (tl : TimelinePtr) : Option (World n) :=
  Timeline.markChangedWith (FrameTree.markChanged fuel) w tl

/-- Method `FrameTree::addChild` (frametree.cpp:127). -/
def FrameTree.addChild (fuel : Nat) (w : World n) (t : Fin n) (phase : PhasePtr) :
    Option (World n) :=
  let w1 := w.addRef phase
  let w2 := w1.setChildren t ((w1.trees t).children ++ [phase])
  FrameTree.markChanged fuel w2 t

/-- Method `FrameTree::removeChild` (frametree.cpp:136): `iter` is the position of the
first child equal to `phase`, the length of `children` standing for
`children.end()`. -/
def FrameTree.removeChild (fuel : Nat) (w : World n) (t : Fin n) (phase : PhasePtr) :
    Option (World n) :=
  let iter := (w.trees t).children.indexOf phase
  match (w.trees t).children[iter]? with
  | some found =>
    let w1 := w.release found
    let w2 := w1.setChildren t ((w1.trees t).children.eraseIdx iter)
    FrameTree.markChanged fuel w2 t
  | none => some w

/-- Method `FrameTree::getChild` (frametree.cpp:146): `children[n]`, which has no
defined result outside the vector. -/
def FrameTree.getChild (w : World n) (t : Fin n) (i : Nat) : Option PhasePtr :=
  (w.trees t).children[i]?

/-- Method `FrameTree::childCount` (frametree.cpp:151). -/
def FrameTree.childCount (w : World n) (t : Fin n) : Nat :=
  (w.trees t).children.length

/-! ## Well-formed timelines -/

/-- Phase `p` ends exactly when phase `q` starts, under `==` on doubles. -/
def abuts (w : World n) (p q : PhasePtr) : Prop :=
  Double.eq (w.phases p).endTime (w.phases q).startTime = true

instance (w : World n) (p q : PhasePtr) : Decidable (abuts w p q) :=
  inferInstanceAs (Decidable (Double.eq (w.phases p).endTime (w.phases q).startTime = true))

/-- Consecutive phases of the list abut. -/
def abutting (w : World n) : List PhasePtr → Bool
  | [] => true
  | [_] => true
  | p :: q :: rest =>
    Double.eq (w.phases p).endTime (w.phases q).startTime && abutting w (q :: rest)

/-- A timeline without gaps and overlaps: consecutive phases abut. -/
def Timeline.GapFree (w : World n) (tl : TimelinePtr) : Prop :=
  abutting w (w.timelines tl).phases = true

instance (w : World n) (tl : TimelinePtr) : Decidable (Timeline.GapFree w tl) :=
  inferInstanceAs (Decidable (abutting w (w.timelines tl).phases = true))

/-- Every phase of the timeline satisfies the invariant `startTime < endTime`
of `TimelinePhase`. -/
def Timeline.PhasesProper (w : World n) (tl : TimelinePtr) : Prop :=
  ∀ p ∈ (w.timelines tl).phases, Double.lt (w.phases p).startTime (w.phases p).endTime = true

instance (w : World n) (tl : TimelinePtr) : Decidable (Timeline.PhasesProper w tl) :=
  inferInstanceAs (Decidable (∀ p ∈ (w.timelines tl).phases,
    Double.lt (w.phases p).startTime (w.phases p).endTime = true))

/-- The world after a sequence of calls of `Timeline::appendPhase`, each with
its timeline and its phase, whatever the calls return. -/
def appendPhases (w : World n) (calls : List (TimelinePtr × PhasePtr)) : World n :=
  calls.foldl (fun acc c => (Timeline.appendPhase acc c.1 c.2).2) w

/-! ## Measures and frames of the dirty flags -/

/-- The number of frame trees whose flag `m_changed` is clear. -/
def World.cleanCount (w : World n) : Nat :=
  (Finset.univ.filter (fun t : Fin n => (w.trees t).changed = false)).card

/-- World `w'` is `w` but for flags `m_changed` that went from clear to set:
phases, timelines, bodies, the parent and the children of every frame tree are
those of `w`, and a flag set in `w` is set in `w'`. -/
structure FlagsGrow (w w' : World n) : Prop where
  phases : w'.phases = w.phases
  timelines : w'.timelines = w.timelines
  bodies : w'.bodies = w.bodies
  bodyParent : ∀ t, (w'.trees t).bodyParent = (w.trees t).bodyParent
  children : ∀ t, (w'.trees t).children = (w.trees t).children
  changed : ∀ t, (w.trees t).changed = true → (w'.trees t).changed = true
  aggregates : ∀ t, (w'.trees t).aggregates = (w.trees t).aggregates

/-! ## Propagation of the dirty flag -/

/-- The frame trees that one step of the propagation of `markChanged` reaches
from tree `t`: the owning frame trees of the phases of the timeline of the body
that `t` belongs to.  The tree of a star has none. -/
def World.parents (w : World n) (t : Fin n) : List (Fin n) :=
  match (w.trees t).bodyParent with
  | some b =>
    match (w.bodies b).timeline with
    | some tl => (w.timelines tl).phases.map (fun phase => (w.phases phase).frameTree)
    | none => []
  | none => []

/-- Tree `a` is `t` itself or an ancestor of `t`: it is reached from `t` by
finitely many steps to a parent tree. -/
def World.Ancestor (w : World n) (t a : Fin n) : Prop :=
  Relation.ReflTransGen (fun x y => y ∈ w.parents x) t a

/-- Method `FrameTree::markChanged` (frametree.cpp:70) with a record of its
assignments: next to the world it returns the trees at which the assignment
`m_changed = true` was executed, in the order of execution. -/
def FrameTree.markChangedLog : Nat → World n → Fin n → Option (World n × List (Fin n))
  | 0, _, _ => none
  | fuel + 1, w, t =>
    if (w.trees t).changed then
      some (w, [])
    else
      match (w.trees t).bodyParent with
      | some b =>
        match ((w.setChanged t true).bodies b).timeline with
        | some tl =>
          ((w.setChanged t true).timelines tl).phases.foldlM
            (fun acc phase =>
              (FrameTree.markChangedLog fuel acc.1 (acc.1.phases phase).frameTree).map
                (fun r => (r.1, acc.2 ++ r.2)))
            (w.setChanged t true, [t])
        | none => some (w.setChanged t true, [t])
      | none => some (w.setChanged t true, [t])

/-! ## Aggregates of a frame tree -/

/-- The call `std::max(a, b)` on doubles: `(a < b) ? b : a`. -/
def Double.stdMax (a b : Double) : Double :=
  if Double.lt a b then b else a

/-- The sum of two doubles where no rounding occurs: the exact sum of finite
values (two integers are added as integers, which gives the same value without
normalising a fraction), and the IEEE results on infinities and NaNs.  It
serves as an instance of the operator `+`, which the definitions below take as
the parameter `fadd`, so that what is proved holds whatever the rounding of
`+` is. -/
def Double.addExact : Double → Double → Double
  | .finite a, .finite b =>
    if a.den = 1 ∧ b.den = 1 then .finite ((a.num + b.num : Int) : ℚ) else .finite (a + b)
  | .nan, _ => .nan
  | _, .nan => .nan
  | .posInf, .negInf => .nan
  | .negInf, .posInf => .nan
  | .posInf, _ => .posInf
  | _, .posInf => .posInf
  | .negInf, _ => .negInf
  | _, .negInf => .negInf

/-- The world after an assignment to members of frame tree `t`. -/
def World.setTree (w : World n) (t : Fin n) (tr : FrameTree) : World n :=
  { w with trees := Function.update w.trees t tr }

/-- The four assignments that open the recomputation (frametree.cpp:99-102). -/
def FrameTree.resetAggregates (tr : FrameTree) : FrameTree :=
  { tr with boundingSphereRadius := .finite 0, maxChildRadius := .finite 0,
            containsSecondaryIlluminators := false, childClassMask := 0 }

/-- The updates of `m_maxChildRadius`, `m_containsSecondaryIlluminators` and
`m_childClassMask` with the radius, the illuminator status and the
classification of a child body (frametree.cpp:107-109). -/
def FrameTree.foldBody (tr : FrameTree) (body : Body n) : FrameTree :=
  { tr with
    maxChildRadius := Double.stdMax tr.maxChildRadius body.radius,
    containsSecondaryIlluminators := tr.containsSecondaryIlluminators || body.secondaryIlluminator,
    childClassMask := tr.childClassMask ||| body.classification }

/-- The updates of `m_maxChildRadius`, `m_containsSecondaryIlluminators` and
`m_childClassMask` with the aggregates of the frame tree of a child body
(frametree.cpp:115-117); the accessors `containsSecondaryIlluminators()` and
`childClassMask()` of `frametree.h` return the members. -/
def FrameTree.foldTree (tr sub : FrameTree) : FrameTree :=
  { tr with
    maxChildRadius := Double.stdMax tr.maxChildRadius sub.maxChildRadius,
    containsSecondaryIlluminators :=
      tr.containsSecondaryIlluminators || sub.containsSecondaryIlluminators,
    childClassMask := tr.childClassMask ||| sub.childClassMask }

/-- The update of `m_boundingSphereRadius` with the radius `r` of a child
(frametree.cpp:120). -/
def FrameTree.foldRadius (tr : FrameTree) (r : Double) : FrameTree :=
  { tr with boundingSphereRadius := Double.stdMax tr.boundingSphereRadius r }

/-- One round of the loop of `FrameTree::recomputeBoundingSphere`
(frametree.cpp:104-121) in tree `t` for the child `phase`, given the operator
`fadd` for `+` on doubles and the effect `recompute` of the nested call. -/
def FrameTree.recomputeChild (fadd : Double → Double → Double)
    (recompute : World n → Fin n → Option (World n)) (t : Fin n)
    (acc : World n) (phase : PhasePtr) : Option (World n) :=
  let body := acc.bodies (acc.phases phase).body
  let r := fadd body.cullingRadius (acc.phases phase).orbitBoundingRadius
  let a₁ := acc.setTree t ((acc.trees t).foldBody body)
  match body.frameTree with
  | some tree =>
    match recompute a₁ tree with
    | some a₂ =>
      let r₂ := fadd r (a₂.trees tree).boundingSphereRadius
      let a₃ := a₂.setTree t ((a₂.trees t).foldTree (a₂.trees tree))
      some (a₃.setTree t ((a₃.trees t).foldRadius r₂))
    | none => none
  | none => some (a₁.setTree t ((a₁.trees t).foldRadius r))

/-- Method `FrameTree::recomputeBoundingSphere` (frametree.cpp:97), given the
operator `fadd` for `+` on doubles.  The fuel bounds the depth of the nested
calls; `none` when it is used up. -/
def FrameTree.recomputeBoundingSphere (fadd : Double → Double → Double) :
    Nat → World n → Fin n → Option (World n)
  | 0, _, _ => none
  | fuel + 1, w, t =>
    if (w.trees t).changed then
      (w.trees t).children.foldlM
        (FrameTree.recomputeChild fadd (FrameTree.recomputeBoundingSphere fadd fuel) t)
        (w.setTree t (w.trees t).resetAggregates)
    else
      some w

/-! ## What a recomputation is to yield -/

/-- The frame tree of the body of a child phase, `phase->body()->getFrameTree()`,
`none` for a body without a frame tree. -/
def World.childTree (w : World n) (phase : PhasePtr) : Option (Fin n) :=
  (w.bodies (w.phases phase).body).frameTree

/-- The radius that a child phase takes around its parent: the culling radius
of the child body plus the bounding radius of the child orbit, plus the
bounding sphere radius of the frame tree of the child body when it has one. -/
def World.childRadius (fadd : Double → Double → Double) (w : World n)
    (phase : PhasePtr) : Double :=
  match w.childTree phase with
  | some tree =>
    fadd (fadd (w.bodies (w.phases phase).body).cullingRadius
      (w.phases phase).orbitBoundingRadius) (w.trees tree).boundingSphereRadius
  | none =>
    fadd (w.bodies (w.phases phase).body).cullingRadius (w.phases phase).orbitBoundingRadius

/-- The object radii that a child phase brings: the plain radius of the child
body, and the maximum child radius of the frame tree of the child body when it
has one. -/
def World.childBodyRadii (w : World n) (phase : PhasePtr) : List Double :=
  match w.childTree phase with
  | some tree => [(w.bodies (w.phases phase).body).radius, (w.trees tree).maxChildRadius]
  | none => [(w.bodies (w.phases phase).body).radius]

/-- The child body of the phase is a secondary illuminator, or its frame tree
contains one. -/
def World.childIlluminates (w : World n) (phase : PhasePtr) : Bool :=
  match w.childTree phase with
  | some tree =>
    (w.bodies (w.phases phase).body).secondaryIlluminator ||
      (w.trees tree).containsSecondaryIlluminators
  | none => (w.bodies (w.phases phase).body).secondaryIlluminator

/-- The classification bits that a child phase brings: those of the child body,
and the class mask of the frame tree of the child body when it has one. -/
def World.childClasses (w : World n) (phase : PhasePtr) : Nat :=
  match w.childTree phase with
  | some tree => (w.bodies (w.phases phase).body).classification ||| (w.trees tree).childClassMask
  | none => (w.bodies (w.phases phase).body).classification

/-- Worlds that differ at most in the aggregates of their frame trees: same
phases, timelines and bodies, and every frame tree with the same parent, the
same children and the same dirty flag. -/
structure SameShape (w w' : World n) : Prop where
  phases : w'.phases = w.phases
  timelines : w'.timelines = w.timelines
  bodies : w'.bodies = w.bodies
  bodyParent : ∀ t, (w'.trees t).bodyParent = (w.trees t).bodyParent
  children : ∀ t, (w'.trees t).children = (w.trees t).children
  changed : ∀ t, (w'.trees t).changed = (w.trees t).changed

/-- The nested calls of the recomputation go down a well-founded hierarchy: the
frame tree of every child body of a dirty tree has a smaller rank than the
tree. -/
def World.Ranked (w : World n) (rank : Fin n → Nat) : Prop :=
  ∀ t, (w.trees t).changed = true → ∀ phase ∈ (w.trees t).children,
    ∀ tree, w.childTree phase = some tree → rank tree < rank t

instance (w : World n) (rank : Fin n → Nat) : Decidable (w.Ranked rank) :=
  inferInstanceAs (Decidable (∀ t, (w.trees t).changed = true → ∀ phase ∈ (w.trees t).children,
    ∀ tree, w.childTree phase = some tree → rank tree < rank t))

/-- What one round of the loop makes of the members `tr` of a tree for the
child `phase`, when `sub` gives the members of the frame trees of the child
bodies after their recomputation. -/
def FrameTree.foldChild (fadd : Double → Double → Double) (w : World n)
    (sub : Fin n → FrameTree) (tr : FrameTree) (phase : PhasePtr) : FrameTree :=
  match w.childTree phase with
  | some tree =>
    ((tr.foldBody (w.bodies (w.phases phase).body)).foldTree (sub tree)).foldRadius
      (fadd (fadd (w.bodies (w.phases phase).body).cullingRadius
        (w.phases phase).orbitBoundingRadius) (sub tree).boundingSphereRadius)
  | none =>
    (tr.foldBody (w.bodies (w.phases phase).body)).foldRadius
      (fadd (w.bodies (w.phases phase).body).cullingRadius (w.phases phase).orbitBoundingRadius)

/-- The members that tree `t` is to hold after a recomputation in world `w`
with nesting depth `k`: those it holds when it is not dirty, and otherwise the
result of the loop over its children, from the reset members. -/
def FrameTree.recomputed (fadd : Double → Double → Double) : Nat → World n → Fin n → FrameTree
  | 0, w, t => w.trees t
  | k + 1, w, t =>
    if (w.trees t).changed then
      (w.trees t).children.foldl (FrameTree.foldChild fadd w (FrameTree.recomputed fadd k w))
        (w.trees t).resetAggregates
    else
      w.trees t

/-- The members that tree `t` is to hold after a recomputation, with the
nesting depth that the rank of the tree asks for. -/
def FrameTree.settled (fadd : Double → Double → Double) (rank : Fin n → Nat) (w : World n)
    (t : Fin n) : FrameTree :=
  FrameTree.recomputed fadd (rank t + 1) w t

/-- What a call `recompute` on tree `x` does, for a recomputation that started
from world `w`.  The call is made in a world `s` of the shape of `w` in which
every tree below `x` holds its members of `w` or its settled members.  It
returns a world of the same shape; it leaves alone every tree that is not below
`x`; every other tree keeps its members or gets its settled ones; and `x`
holds its settled members afterwards, and so do the trees of its child bodies
(nothing changes when `x` is not dirty). -/
def RecomputeSpec (fadd : Double → Double → Double) (rank : Fin n → Nat) (w : World n)
    (recompute : World n → Fin n → Option (World n)) (x : Fin n) : Prop :=
  ∀ s, SameShape w s →
    (∀ y, rank y < rank x → s.trees y = w.trees y ∨ s.trees y = FrameTree.settled fadd rank w y) →
    ∃ s', recompute s x = some s' ∧ SameShape w s' ∧
      (∀ y, y ≠ x → rank x ≤ rank y → s'.trees y = s.trees y) ∧
      (∀ y, y ≠ x → s'.trees y = s.trees y ∨ s'.trees y = FrameTree.settled fadd rank w y) ∧
      ((w.trees x).changed = true → s'.trees x = FrameTree.settled fadd rank w x) ∧
      ((w.trees x).changed = true → ∀ phase ∈ (w.trees x).children, ∀ tree,
        w.childTree phase = some tree → s'.trees tree = FrameTree.settled fadd rank w tree) ∧
      ((w.trees x).changed = false → s' = s)

/-! ## The from-scratch definition of the aggregates -/

/-- The aggregates of tree `t` by the from-scratch recursive definition over
its whole subtree, down to nesting depth `k`: whatever the dirty flags are, the
loop over the children from the reset members, with the from-scratch
aggregates of the frame trees of the child bodies. -/
def FrameTree.fromScratch (fadd : Double → Double → Double) : Nat → World n → Fin n → FrameTree
  | 0, w, t => (w.trees t).resetAggregates
  | k + 1, w, t =>
    (w.trees t).children.foldl (FrameTree.foldChild fadd w (FrameTree.fromScratch fadd k w))
      (w.trees t).resetAggregates

/-- An acyclic hierarchy: the frame tree of every child body of a tree has a
smaller rank than the tree. -/
def World.Acyclic (w : World n) (rank : Fin n → Nat) : Prop :=
  ∀ t, ∀ phase ∈ (w.trees t).children, ∀ tree, w.childTree phase = some tree →
    rank tree < rank t

instance (w : World n) (rank : Fin n → Nat) : Decidable (w.Acyclic rank) :=
  inferInstanceAs (Decidable (∀ t, ∀ phase ∈ (w.trees t).children,
    ∀ tree, w.childTree phase = some tree → rank tree < rank t))

/-- The world with the dirty flag of every frame tree set, in which a
recomputation is unconditional and of full depth. -/
def World.allDirty (w : World n) : World n :=
  { w with trees := fun t => { w.trees t with changed := true } }

/-- The frame trees of the child bodies of tree `t`. -/
def World.childTrees (w : World n) (t : Fin n) : List (Fin n) :=
  (w.trees t).children.filterMap w.childTree

/-- Tree `y` is reached from the dirty tree `t` through dirty trees: `t` is
dirty, and `y` is `t` or comes from `t` by steps from a tree to the dirty frame
tree of one of its child bodies. -/
def World.DirtyReach (w : World n) (t y : Fin n) : Prop :=
  (w.trees t).changed = true ∧
    Relation.ReflTransGen (fun a b => b ∈ w.childTrees a ∧ (w.trees b).changed = true) t y

/-! ## Clearing the dirty flag -/

/-- Modelled from the spec: `Body::markUpdated` (declared in `body.h`) is the
step by which `FrameTree::markUpdated` descends to a child: a child body that
has a frame tree forwards to `FrameTree::markUpdated` of that tree, and for a
body without a frame tree nothing happens. -/
def Body.markUpdatedWith (mu : World n → Fin n → Option (World n))
    (w : World n) (b : BodyPtr) : Option (World n) :=
  match (w.bodies b).frameTree with
  | some tree => mu w tree
  | none => some w

/-- Method `FrameTree::markUpdated` (frametree.cpp:82).  The fuel bounds the
depth of the nested calls; `none` when it is used up. -/
def FrameTree.markUpdated : Nat → World n → Fin n → Option (World n)
  | 0, _, _ => none
  | fuel + 1, w, t =>
    if (w.trees t).changed then
      (w.trees t).children.foldlM
        (fun acc child =>
          Body.markUpdatedWith (FrameTree.markUpdated fuel) acc (acc.phases child).body)
        (w.setChanged t false)
    else
      some w

/-- The number of frame trees whose flag `m_changed` is set. -/
def World.dirtyCount (w : World n) : Nat :=
  (Finset.univ.filter (fun t : Fin n => (w.trees t).changed = true)).card

/-- World `w'` is `w` but for flags `m_changed` that went from set to clear. -/
structure FlagsShrink (w w' : World n) : Prop where
  phases : w'.phases = w.phases
  timelines : w'.timelines = w.timelines
  bodies : w'.bodies = w.bodies
  bodyParent : ∀ t, (w'.trees t).bodyParent = (w.trees t).bodyParent
  children : ∀ t, (w'.trees t).children = (w.trees t).children
  changed : ∀ t, (w'.trees t).changed = true → (w.trees t).changed = true
  aggregates : ∀ t, (w'.trees t).aggregates = (w.trees t).aggregates

/-- Upward closure of the dirty flag: every dirty frame tree is the tree of a
star (it has no body parent) or has a dirty parent tree. -/
def World.UpClosed (w : World n) : Prop :=
  ∀ y, (w.trees y).changed = true →
    (w.trees y).bodyParent = none ∨ ∃ p ∈ w.parents y, (w.trees p).changed = true

instance (w : World n) : Decidable w.UpClosed :=
  inferInstanceAs (Decidable (∀ y, (w.trees y).changed = true →
    (w.trees y).bodyParent = none ∨ ∃ p ∈ w.parents y, (w.trees p).changed = true))

/-- The links of the hierarchy agree: a tree that is a parent of tree `y`, as
the owner of a phase of the body of `y`, has `y` among the frame trees of its
child bodies; and the tree of a body has at least one parent tree. -/
def World.Linked (w : World n) : Prop :=
  (∀ y, ∀ p ∈ w.parents y, y ∈ w.childTrees p) ∧
    ∀ y, (w.trees y).bodyParent ≠ none → w.parents y ≠ []

instance (w : World n) : Decidable w.Linked :=
  inferInstanceAs (Decidable ((∀ y, ∀ p ∈ w.parents y, y ∈ w.childTrees p) ∧
    ∀ y, (w.trees y).bodyParent ≠ none → w.parents y ≠ []))

/-! ## Destruction of a timeline -/

/-- Destructor `Timeline::~Timeline` (timeline.cpp:27): for every phase of the
timeline, in order, `phase->getFrameTree()->removeChild(phase)` and then
`phase->release()`. -/
def Timeline.destroy (fuel : Nat) (w : World n) (tl : TimelinePtr) : Option (World n) :=
  (w.timelines tl).phases.foldlM
    (fun acc phase =>
      (FrameTree.removeChild fuel acc (acc.phases phase).frameTree phase).map
        (fun acc' => acc'.release phase))
    w

/-! ## Typed properties of a scene file (parser.cpp)

The operators `*` and `/` of doubles are the parameters `fmul` and `fdiv`, the
conversion `(float)` is the parameter `fround` (a float is written as the
double of the same value), and the unit tables `astro::getAngleScale`,
`astro::getLengthScale` and `astro::getTimeScale` of `celastro/astro.h` are
parameters of type `String → Option Double`: `some s` when the function
returns `true` with `scale = s`, `none` when it returns `false`. -/

/-- Class `Value` (parser.cpp:19): a number, a string, an array, a hash or a
boolean, the constructor fixing the `ValueType`. -/
inductive Value where
  | number (d : Double)
  | string (s : String)
  | array (a : List Value)
  | hash (h : String → Option Value)
  | boolean (b : Bool)

/-- Class `AssociativeArray`: the member `assoc` holds at most one value under
a key. -/
structure AssociativeArray where
  assoc : String → Option Value

/-- Method `AssociativeArray::getValue` (parser.cpp:220): the value that
`assoc.find(key)` finds, `none` for `nullptr`. -/
def AssociativeArray.getValue (h : AssociativeArray) (key : String) : Option Value :=
  h.assoc key

/-- Method `AssociativeArray::addValue` (parser.cpp:228): `assoc.insert` stores
the value unless the key is present already. -/
def AssociativeArray.addValue (h : AssociativeArray) (key : String) (val : Value) :
    AssociativeArray :=
  match h.assoc key with
  | some _ => h
  | none => { assoc := fun k => if k = key then some val else h.assoc k }

/-- Method `AssociativeArray::getNumber` (parser.cpp:232), the overload for a
double: the result and `val` after the call. -/
def AssociativeArray.getNumber (h : AssociativeArray) (key : String) (val : Double) :
    Bool × Double :=
  match h.getValue key with
  | some (.number d) => (true, d)
  | _ => (false, val)

/-- Method `AssociativeArray::getString` (parser.cpp:274): the result and `val`
after the call. -/
def AssociativeArray.getString (h : AssociativeArray) (key : String) (val : String) :
    Bool × String :=
  match h.getValue key with
  | some (.string s) => (true, s)
  | _ => (false, val)

/-- Method `AssociativeArray::getAngleScale` (parser.cpp:626), the overload for
a double: `some s` for the result `true` with `scale = s`, `none` for `false`.
The local `unit` starts as the empty string. -/
def AssociativeArray.getAngleScale (angleUnits : String → Option Double)
    (h : AssociativeArray) (key : String) : Option Double :=
  match h.getString (key ++ "%Angle") "" with
  | (false, _) => none
  | (true, unit) => angleUnits unit

/-- Method `AssociativeArray::getLengthScale` (parser.cpp:652), the overload
for a double. -/
def AssociativeArray.getLengthScale (lengthUnits : String → Option Double)
    (h : AssociativeArray) (key : String) : Option Double :=
  match h.getString (key ++ "%Length") "" with
  | (false, _) => none
  | (true, unit) => lengthUnits unit

/-- Method `AssociativeArray::getTimeScale` (parser.cpp:678), the overload for
a double. -/
def AssociativeArray.getTimeScale (timeUnits : String → Option Double)
    (h : AssociativeArray) (key : String) : Option Double :=
  match h.getString (key ++ "%Time") "" with
  | (false, _) => none
  | (true, unit) => timeUnits unit

/-- Method `AssociativeArray::getAngle` (parser.cpp:449), the overload for a
double: the result and `val` after the call. -/
def AssociativeArray.getAngle (fmul fdiv : Double → Double → Double)
    (angleUnits : String → Option Double) (h : AssociativeArray) (key : String)
    (val outputScale defaultScale : Double) : Bool × Double :=
  match h.getNumber key val with
  | (false, val) => (false, val)
  | (true, val) =>
    let angleScale :=
      match h.getAngleScale angleUnits key with
      | some angleScale => fdiv angleScale outputScale
      | none =>
        if Double.eq defaultScale (.finite 0) then .finite 1 else fdiv defaultScale outputScale
    (true, fmul val angleScale)

/-- Method `AssociativeArray::getLength` (parser.cpp:485), the overload for a
double. -/
def AssociativeArray.getLength (fmul fdiv : Double → Double → Double)
    (lengthUnits : String → Option Double) (h : AssociativeArray) (key : String)
    (val outputScale defaultScale : Double) : Bool × Double :=
  match h.getNumber key val with
  | (false, val) => (false, val)
  | (true, val) =>
    let lengthScale :=
      match h.getLengthScale lengthUnits key with
      | some lengthScale => fdiv lengthScale outputScale
      | none =>
        if Double.eq defaultScale (.finite 0) then .finite 1 else fdiv defaultScale outputScale
    (true, fmul val lengthScale)

/-- Method `AssociativeArray::getTime` (parser.cpp:521), the overload for a
double. -/
def AssociativeArray.getTime (fmul fdiv : Double → Double → Double)
    (timeUnits : String → Option Double) (h : AssociativeArray) (key : String)
    (val outputScale defaultScale : Double) : Bool × Double :=
  match h.getNumber key val with
  | (false, val) => (false, val)
  | (true, val) =>
    let timeScale :=
      match h.getTimeScale timeUnits key with
      | some timeScale => fdiv timeScale outputScale
      | none =>
        if Double.eq defaultScale (.finite 0) then .finite 1 else fdiv defaultScale outputScale
    (true, fmul val timeScale)

/-- Method `AssociativeArray::getLength` (parser.cpp:502), the overload for a
float; `dval` is the value that the local of this name starts with. -/
def AssociativeArray.getLengthFloat (fmul fdiv : Double → Double → Double)
    (fround : Double → Double) (lengthUnits : String → Option Double)
    (h : AssociativeArray) (key : String) (val outputScale defaultScale dval : Double) :
    Bool × Double :=
  match h.getLength fmul fdiv lengthUnits key dval outputScale defaultScale with
  | (false, _) => (false, val)
  | (true, dval) => (true, fround dval)

/-- Method `AssociativeArray::getTime` (parser.cpp:538), the overload for a
float: the call in its body is to `getLength`. -/
def AssociativeArray.getTimeFloat (fmul fdiv : Double → Double → Double)
    (fround : Double → Double) (lengthUnits : String → Option Double)
    (h : AssociativeArray) (key : String) (val outputScale defaultScale dval : Double) :
    Bool × Double :=
  match h.getLength fmul fdiv lengthUnits key dval outputScale defaultScale with
  | (false, _) => (false, val)
  | (true, dval) => (true, fround dval)

/-- The float overload of `getTime` as its documentation (copied from the
double overload) has it: the result of the double overload, converted. -/
def AssociativeArray.getTimeFloatSpec (fmul fdiv : Double → Double → Double)
    (fround : Double → Double) (timeUnits : String → Option Double)
    (h : AssociativeArray) (key : String) (val outputScale defaultScale dval : Double) :
    Bool × Double :=
  match h.getTime fmul fdiv timeUnits key dval outputScale defaultScale with
  | (false, _) => (false, val)
  | (true, dval) => (true, fround dval)

/-- The product of two doubles without rounding, with the results of IEEE 754
on infinities and NaNs; an instance of the operator `*`. -/
def Double.mulExact : Double → Double → Double
  | .nan, _ => .nan
  | _, .nan => .nan
  | .finite a, .finite b => .finite (a * b)
  | .finite a, .posInf => if a = 0 then .nan else if 0 < a then .posInf else .negInf
  | .finite a, .negInf => if a = 0 then .nan else if 0 < a then .negInf else .posInf
  | .posInf, .finite b => if b = 0 then .nan else if 0 < b then .posInf else .negInf
  | .negInf, .finite b => if b = 0 then .nan else if 0 < b then .negInf else .posInf
  | .posInf, .posInf => .posInf
  | .negInf, .negInf => .posInf
  | .posInf, .negInf => .negInf
  | .negInf, .posInf => .negInf

/-- The quotient of two doubles without rounding; a zero divisor counts as
`+0`.  An instance of the operator `/`. -/
def Double.divExact : Double → Double → Double
  | .nan, _ => .nan
  | _, .nan => .nan
  | .finite a, .finite b =>
    if b = 0 then (if a = 0 then .nan else if 0 < a then .posInf else .negInf)
    else .finite (a / b)
  | .finite _, .posInf => .finite 0
  | .finite _, .negInf => .finite 0
  | .posInf, .finite b => if 0 ≤ b then .posInf else .negInf
  | .negInf, .finite b => if 0 ≤ b then .negInf else .posInf
  | .posInf, .posInf => .nan
  | .negInf, .negInf => .nan
  | .posInf, .negInf => .nan
  | .negInf, .posInf => .nan

/-! ## The cache of a caching orbit (orbit.h)

The class `CachingOrbit` is declared in `celephem/orbit.h`; its methods are
defined in `orbit.cpp`.  The pure virtual `computePosition` and the virtual
`computeVelocity` are the parameters of these names.  An orbit is a function
of the time it is given, bit for bit, so a time is a double with the sign of
its zero. -/

/-- A `double` with the sign of its zero: the negative zero `-0.0`, or a
`Double`, whose value 0 is then the positive zero `+0.0`. -/
inductive SignedDouble where
  | negZero : SignedDouble
  | value (d : Double) : SignedDouble
  deriving DecidableEq

/-- What the comparison operators see of a double: both zeros are 0. -/
def SignedDouble.toDouble : SignedDouble → Double
  | .negZero => .finite 0
  | .value d => d

/-- The operator `a != b` on doubles: `-0.0 != +0.0` is false. -/
def SignedDouble.ne (a b : SignedDouble) : Bool :=
  Double.ne a.toDouble b.toDouble

/-- The other zero of a zero, and every other double itself: the doubles that
`==` cannot tell from `a`, apart from `a`. -/
def SignedDouble.twin : SignedDouble → SignedDouble
  | .negZero => .value (.finite 0)
  | .value d => if d = .finite 0 then .negZero else .value d

/-- Type `Eigen::Vector3d`: three doubles. -/
abbrev Vector3d := SignedDouble × SignedDouble × SignedDouble

/-- The mutable members of class `CachingOrbit` (orbit.h:114). -/
structure CachingOrbit where
  lastPosition : Vector3d
  lastVelocity : Vector3d
  lastTime : SignedDouble
  positionCacheValid : Bool
  velocityCacheValid : Bool

/-- Modelled from the spec: `CachingOrbit::positionAtTime` (declared at
orbit.h:110) keeps a single-slot memo, in which "a cache slot is valid only for
queries at exactly the cached time; any different time invalidates and
recomputes both slots", the times being compared as doubles, with `!=`.  A
query at a time that is not `lastTime` records the time and computes both
slots; a query at `lastTime` computes the position when its slot is not
valid.  The result is the answer and the orbit after the call. -/
def CachingOrbit.positionAtTime (computePosition computeVelocity : SignedDouble → Vector3d)
    (o : CachingOrbit) (jd : SignedDouble) : Vector3d × CachingOrbit :=
  if SignedDouble.ne jd o.lastTime then
    (computePosition jd,
      { lastPosition := computePosition jd, lastVelocity := computeVelocity jd,
        lastTime := jd, positionCacheValid := true, velocityCacheValid := true })
  else if o.positionCacheValid then (o.lastPosition, o)
  else
    (computePosition jd,
      { o with lastPosition := computePosition jd, positionCacheValid := true })

/-- Modelled from the spec: `CachingOrbit::velocityAtTime` (declared at
orbit.h:111), the same single-slot memo read through the velocity slot. -/
def CachingOrbit.velocityAtTime (computePosition computeVelocity : SignedDouble → Vector3d)
    (o : CachingOrbit) (jd : SignedDouble) : Vector3d × CachingOrbit :=
  if SignedDouble.ne jd o.lastTime then
    (computeVelocity jd,
      { lastPosition := computePosition jd, lastVelocity := computeVelocity jd,
        lastTime := jd, positionCacheValid := true, velocityCacheValid := true })
  else if o.velocityCacheValid then (o.lastVelocity, o)
  else
    (computeVelocity jd,
      { o with lastVelocity := computeVelocity jd, velocityCacheValid := true })

/-- A query to an orbit: the position or the velocity at a time. -/
inductive OrbitQuery where
  | position (jd : SignedDouble)
  | velocity (jd : SignedDouble)
  deriving DecidableEq

/-- The same query at the other zero, when its time is a zero. -/
def OrbitQuery.twin : OrbitQuery → OrbitQuery
  | .position jd => .position jd.twin
  | .velocity jd => .velocity jd.twin

/-- The answer of the same orbit without a cache. -/
def OrbitQuery.uncached (computePosition computeVelocity : SignedDouble → Vector3d) :
    OrbitQuery → Vector3d
  | .position jd => computePosition jd
  | .velocity jd => computeVelocity jd

/-- One query to a caching orbit: the answer and the orbit after the call. -/
def CachingOrbit.query (computePosition computeVelocity : SignedDouble → Vector3d)
    (o : CachingOrbit) : OrbitQuery → Vector3d × CachingOrbit
  | .position jd => o.positionAtTime computePosition computeVelocity jd
  | .velocity jd => o.velocityAtTime computePosition computeVelocity jd

/-- A sequence of queries to a caching orbit: the answers in order and the
orbit after the last call. -/
def CachingOrbit.run (computePosition computeVelocity : SignedDouble → Vector3d) :
    CachingOrbit → List OrbitQuery → List Vector3d × CachingOrbit
  | o, [] => ([], o)
  | o, q :: qs =>
    let r := o.query computePosition computeVelocity q
    let rs := CachingOrbit.run computePosition computeVelocity r.2 qs
    (r.1 :: rs.1, rs.2)

/-- The slots that are marked valid hold what `computePosition` and
`computeVelocity` give at `lastTime` or, when `lastTime` is a zero, at the
other zero. -/
def CachingOrbit.Coherent (computePosition computeVelocity : SignedDouble → Vector3d)
    (o : CachingOrbit) : Prop :=
  (o.positionCacheValid = true →
      o.lastPosition = computePosition o.lastTime ∨
        o.lastPosition = computePosition o.lastTime.twin) ∧
    (o.velocityCacheValid = true →
      o.lastVelocity = computeVelocity o.lastTime ∨
        o.lastVelocity = computeVelocity o.lastTime.twin)

/-! ## The loop of `findPhase` on its own -/

/-- The `else` branch of `Timeline::findPhase` (timeline.cpp:57) taken for every
timeline: the linear scan for the first phase with `t < endTime`, and the last
phase when there is none.  This is `findPhase` with the special case for one
phase removed. -/
def Timeline.findPhaseScan (w : World n) (tl : TimelinePtr) (t : Double) : Option PhasePtr :=
  let phases := (w.timelines tl).phases
  match phases.find? (fun phase => Double.lt t (w.phases phase).endTime) with
  | some phase => some phase
  | none => phases.getLast?

/-! ## The simulation (simulation.cpp) -/

/-- Address of an `Observer` object; a `std::shared_ptr` to an observer is
compared by address. -/
abbrev ObserverPtr := Nat

/-- The members of class `Simulation` that the methods below read or write. -/
structure Simulation where
  observers : List ObserverPtr
  activeObserver : ObserverPtr
  timeScale : Double
  storedTimeScale : Double
  pauseState : Bool

/-- Constructor `Simulation::Simulation` (simulation.cpp:20): `fresh` is the
address that `std::make_shared<Observer>()` returns.  The first values of
`timeScale`, `storedTimeScale` and `pauseState` are set in `simulation.h` and
are parameters here. -/
def Simulation.new (fresh : ObserverPtr) (timeScale storedTimeScale : Double)
    (pauseState : Bool) : Simulation :=
  let observers := ([] : List ObserverPtr) ++ [fresh]
  { observers := observers, activeObserver := fresh, timeScale := timeScale,
    storedTimeScale := storedTimeScale, pauseState := pauseState }

/-- Method `Simulation::addObserver` (simulation.cpp:65): the result is
`observers.back()`, and `fresh` is the address of the new observer. -/
def Simulation.addObserver (s : Simulation) (fresh : ObserverPtr) :
    ObserverPtr × Simulation :=
  (fresh, { s with observers := s.observers ++ [fresh] })

/-- Method `Simulation::setActiveObserver` (simulation.cpp:70). -/
def Simulation.setActiveObserver (s : Simulation) (o : ObserverPtr) : Simulation :=
  if s.observers.indexOf o ≠ s.observers.length then { s with activeObserver := o } else s

/-- Method `Simulation::getTimeScale` (simulation.cpp:225). -/
def Simulation.getTimeScale (s : Simulation) : Double :=
  if s.pauseState then s.storedTimeScale else s.timeScale

/-- Method `Simulation::setTimeScale` (simulation.cpp:229). -/
def Simulation.setTimeScale (s : Simulation) (timeScale : Double) : Simulation :=
  if s.pauseState = true then { s with storedTimeScale := timeScale }
  else { s with timeScale := timeScale }

/-- Method `Simulation::getPauseState` (simulation.cpp:245). -/
def Simulation.getPauseState (s : Simulation) : Bool :=
  s.pauseState

/-- Method `Simulation::setPauseState` (simulation.cpp:249). -/
def Simulation.setPauseState (s : Simulation) (state : Bool) : Simulation :=
  if s.pauseState = state then s
  else if state = true then
    { s with pauseState := state, storedTimeScale := s.timeScale, timeScale := .finite 0 }
  else
    { s with pauseState := state, timeScale := s.storedTimeScale }

/-- A call that adds an observer or chooses the active one. -/
inductive ObserverCall where
  | addObserver (fresh : ObserverPtr)
  | setActiveObserver (o : ObserverPtr)

/-- The simulation after one call. -/
def Simulation.call (s : Simulation) : ObserverCall → Simulation
  | .addObserver fresh => (s.addObserver fresh).2
  | .setActiveObserver o => s.setActiveObserver o

/-- A paused simulation has the time scale 0 in `timeScale`, the member that
`update` passes to the observers. -/
def Simulation.PausedAtZero (s : Simulation) : Prop :=
  s.pauseState = true → s.timeScale = .finite 0

/-! ## Counting the calls of `markChanged` -/

/-- Method `FrameTree::markChanged` (frametree.cpp:70) with a count of its
calls: next to the world it returns how many times `FrameTree::markChanged` was
entered, the first call included. -/
def FrameTree.markChangedCalls : Nat → World n → Fin n → Option (World n × Nat)
  | 0, _, _ => none
  | fuel + 1, w, t =>
    if (w.trees t).changed then
      some (w, 1)
    else
      match (w.trees t).bodyParent with
      | some b =>
        match ((w.setChanged t true).bodies b).timeline with
        | some tl =>
          ((w.setChanged t true).timelines tl).phases.foldlM
            (fun acc phase =>
              (FrameTree.markChangedCalls fuel acc.1 (acc.1.phases phase).frameTree).map
                (fun r => (r.1, acc.2 + r.2)))
            (w.setChanged t true, 1)
        | none => some (w.setChanged t true, 1)
      | none => some (w.setChanged t true, 1)

/-- The calls that the trees of a record make on their parent trees: one call
for each phase of the timeline of the parent body of each tree. -/
def World.parentCalls (w : World n) (log : List (Fin n)) : Nat :=
  (log.map (fun y => (w.parents y).length)).sum

/-! ## Reading values from tokens (parser.cpp)

The class `Tokenizer` is declared in `celengine/tokenizer.h`, which is not
among the sources here.  The functions `astro::isLengthUnit`,
`astro::isTimeUnit` and `astro::isAngleUnit` of `celastro/astro.h` and the
compile-time switch `USE_POSTFIX_UNITS` are the fields of `ParserEnv`. -/

/-- Type `Tokenizer::TokenType`, each token with the value that
`getNameValue()`, `getStringValue()` or `getNumberValue()` gives for it.
`TokenOther` stands for the token types that the parser names nowhere. -/
inductive Token where
  | TokenName (s : String)
  | TokenString (s : String)
  | TokenNumber (d : Double)
  | TokenBeginGroup
  | TokenEndGroup
  | TokenBeginArray
  | TokenEndArray
  | TokenBeginUnits
  | TokenEndUnits
  | TokenOther
  | TokenEnd

/-- Modelled from the spec: a `Tokenizer` over a finite token sequence, which
returns the end token from then on.  `input` holds the tokens not read yet,
`tokenType` the token that `nextToken()` returned last, and `pushedBack` says
that `pushBack()` was called since, so that the next `nextToken()` returns the
same token again. -/
structure Tokenizer where
  input : List Token
  tokenType : Token
  pushedBack : Bool

/-- Modelled from the spec: `Tokenizer::nextToken`, the token returned and the
tokenizer after the call. -/
def Tokenizer.nextToken (tk : Tokenizer) : Token × Tokenizer :=
  if tk.pushedBack then (tk.tokenType, { tk with pushedBack := false })
  else
    match tk.input with
    | [] => (.TokenEnd, { tk with tokenType := .TokenEnd })
    | tok :: rest => (tok, { tk with input := rest, tokenType := tok })

/-- Modelled from the spec: `Tokenizer::pushBack`. -/
def Tokenizer.pushBack (tk : Tokenizer) : Tokenizer :=
  { tk with pushedBack := true }

/-- The number of tokens that a tokenizer can still return before the end
token: those of `input`, and the pushed back one unless it is the end token. -/
def Tokenizer.avail (tk : Tokenizer) : Nat :=
  tk.input.length +
    (match tk.pushedBack, tk.tokenType with
      | true, .TokenEnd => 0
      | true, _ => 1
      | false, _ => 0)

/-- What the parser takes from outside `parser.cpp`: the three tests of
`astro` on a unit name and whether `USE_POSTFIX_UNITS` is defined. -/
structure ParserEnv where
  isLengthUnit : String → Bool
  isTimeUnit : String → Bool
  isAngleUnit : String → Bool
  usePostfixUnits : Bool

/-- The loop of `Parser::readUnits` (parser.cpp:146), entered with the token
`tok` just read: the result, the hash and the tokenizer at the `return`.  The
fuel bounds the number of rounds; `none` when it is used up. -/
def Parser.readUnitsLoop (env : ParserEnv) (propertyName : String) :
    Nat → Tokenizer → Token → AssociativeArray → Option (Bool × AssociativeArray × Tokenizer)
  | 0, _, _, _ => none
  | fuel + 1, tk, tok, hash =>
    match tok with
    | .TokenEndUnits => some (true, hash, tk)
    | .TokenName unit =>
      if env.isLengthUnit unit then
        Parser.readUnitsLoop env propertyName fuel tk.nextToken.2 tk.nextToken.1
          (hash.addValue (propertyName ++ "%Length") (.string unit))
      else if env.isTimeUnit unit then
        Parser.readUnitsLoop env propertyName fuel tk.nextToken.2 tk.nextToken.1
          (hash.addValue (propertyName ++ "%Time") (.string unit))
      else if env.isAngleUnit unit then
        Parser.readUnitsLoop env propertyName fuel tk.nextToken.2 tk.nextToken.1
          (hash.addValue (propertyName ++ "%Angle") (.string unit))
      else some (false, hash, tk)
    | _ => some (false, hash, tk.pushBack)

/-- Method `Parser::readUnits` (parser.cpp:139). -/
def Parser.readUnits (env : ParserEnv) (fuel : Nat) (tk : Tokenizer) (propertyName : String)
    (hash : AssociativeArray) : Option (Bool × AssociativeArray × Tokenizer) :=
  match tk.nextToken.1 with
  | .TokenBeginUnits =>
    Parser.readUnitsLoop env propertyName fuel tk.nextToken.2.nextToken.2
      tk.nextToken.2.nextToken.1 hash
  | _ => some (false, hash, tk.nextToken.2.pushBack)

/-- The loop `while (v)` of `Parser::readArray` (parser.cpp:81) with the call
of `readValue` before its test, given the effect `rv` of `readValue`: the
array and the tokenizer after the loop. -/
def Parser.readArrayLoopWith (rv : Tokenizer → Option (Option Value × Tokenizer)) :
    Nat → Tokenizer → List Value → Option (List Value × Tokenizer)
  | 0, _, _ => none
  | fuel + 1, tk, array =>
    match rv tk with
    | none => none
    | some (none, tk) => some (array, tk)
    | some (some v, tk) => Parser.readArrayLoopWith rv fuel tk (array ++ [v])

/-- Method `Parser::readArray` (parser.cpp:72), given the effect `rv` of
`readValue`: the array, `none` for `nullptr`, and the tokenizer after the
call. -/
def Parser.readArrayWith (rv : Tokenizer → Option (Option Value × Tokenizer)) (fuel : Nat)
    (tk : Tokenizer) : Option (Option (List Value) × Tokenizer) :=
  match tk.nextToken.1 with
  | .TokenBeginArray =>
    match Parser.readArrayLoopWith rv fuel tk.nextToken.2 [] with
    | none => none
    | some (array, tk) =>
      match tk.nextToken.1 with
      | .TokenEndArray => some (some array, tk.nextToken.2)
      | _ => some (none, tk.nextToken.2.pushBack)
  | _ => some (none, tk.nextToken.2.pushBack)

/-- The loop of `Parser::readHash` (parser.cpp:105), entered with the token
`tok` just read, given the effect `rv` of `readValue`. -/
def Parser.readHashLoopWith (env : ParserEnv)
    (rv : Tokenizer → Option (Option Value × Tokenizer)) (unitsFuel : Nat) :
    Nat → Tokenizer → Token → AssociativeArray → Option (Option AssociativeArray × Tokenizer)
  | 0, _, _, _ => none
  | fuel + 1, tk, tok, hash =>
    match tok with
    | .TokenEndGroup => some (some hash, tk)
    | .TokenName name =>
      match (if env.usePostfixUnits then some (false, hash, tk)
          else Parser.readUnits env unitsFuel tk name hash) with
      | none => none
      | some (_, hash, tk) =>
        match rv tk with
        | none => none
        | some (none, tk) => some (none, tk)
        | some (some value, tk) =>
          match (if env.usePostfixUnits then
              Parser.readUnits env unitsFuel tk name (hash.addValue name value)
              else some (false, hash.addValue name value, tk)) with
          | none => none
          | some (_, hash, tk) =>
            Parser.readHashLoopWith env rv unitsFuel fuel tk.nextToken.2 tk.nextToken.1 hash
    | _ => some (none, tk.pushBack)

/-- Method `Parser::readHash` (parser.cpp:96), given the effect `rv` of
`readValue`: the hash, `none` for `nullptr`, and the tokenizer after the
call. -/
def Parser.readHashWith (env : ParserEnv)
    (rv : Tokenizer → Option (Option Value × Tokenizer)) (fuel : Nat) (tk : Tokenizer) :
    Option (Option AssociativeArray × Tokenizer) :=
  match tk.nextToken.1 with
  | .TokenBeginGroup =>
    Parser.readHashLoopWith env rv fuel fuel tk.nextToken.2.nextToken.2
      tk.nextToken.2.nextToken.1 ⟨fun _ => none⟩
  | _ => some (none, tk.nextToken.2.pushBack)

/-- Method `Parser::readValue` (parser.cpp:175): the value, `none` for
`nullptr`, and the tokenizer after the call.  The fuel bounds the depth of the
nested calls and the rounds of the loops; `none` when it is used up. -/
def Parser.readValue (env : ParserEnv) : Nat → Tokenizer → Option (Option Value × Tokenizer)
  | 0, _ => none
  | fuel + 1, tk =>
    match tk.nextToken.1 with
    | .TokenNumber d => some (some (.number d), tk.nextToken.2)
    | .TokenString s => some (some (.string s), tk.nextToken.2)
    | .TokenName s =>
      if s = "false" then some (some (.boolean false), tk.nextToken.2)
      else if s = "true" then some (some (.boolean true), tk.nextToken.2)
      else some (none, tk.nextToken.2.pushBack)
    | .TokenBeginArray =>
      match Parser.readArrayWith (Parser.readValue env fuel) fuel tk.nextToken.2.pushBack with
      | none => none
      | some (none, tk) => some (none, tk)
      | some (some array, tk) => some (some (.array array), tk)
    | .TokenBeginGroup =>
      match Parser.readHashWith env (Parser.readValue env fuel) fuel
          tk.nextToken.2.pushBack with
      | none => none
      | some (none, tk) => some (none, tk)
      | some (some hash, tk) => some (some (.hash hash.assoc), tk)
    | _ => some (none, tk.nextToken.2.pushBack)

/-- Method `Parser::readArray` (parser.cpp:72). -/
def Parser.readArray (env : ParserEnv) (fuel : Nat) (tk : Tokenizer) :
    Option (Option (List Value) × Tokenizer) :=
  Parser.readArrayWith (Parser.readValue env fuel) fuel tk

/-- Method `Parser::readHash` (parser.cpp:96). -/
def Parser.readHash (env : ParserEnv) (fuel : Nat) (tk : Tokenizer) :
    Option (Option AssociativeArray × Tokenizer) :=
  Parser.readHashWith env (Parser.readValue env fuel) fuel tk

/-- A reader returns on every tokenizer with fewer than `bound` tokens left,
gives no token back to the input, and takes at least one token when it gives a
value. -/
def Parser.Reads {α : Type} (rv : Tokenizer → Option (Option α × Tokenizer)) (bound : Nat) :
    Prop :=
  ∀ tk : Tokenizer, tk.avail < bound →
    ∃ r tk', rv tk = some (r, tk') ∧ tk'.avail ≤ tk.avail ∧
      (r.isSome = true → tk'.avail < tk.avail)

/-! ## A small hierarchy for examples -/

/-- Three phases `[0,10)`, `[10,20)`, `[20,30)` at the addresses 1, 2, 3, all
owned by frame tree 0; a phase `[50,60)` at address 5, held by nothing; every
other address holds a phase `[40,50)`. -/
def exPhases : PhasePtr → TimelinePhase 2
  | 1 => { startTime := .finite 0, endTime := .finite 10, refCount := 2,
           destroyed := false, frameTree := 0, body := 0 }
  | 2 => { startTime := .finite 10, endTime := .finite 20, refCount := 2,
           destroyed := false, frameTree := 0, body := 0 }
  | 3 => { startTime := .finite 20, endTime := .finite 30, refCount := 2,
           destroyed := false, frameTree := 0, body := 0 }
  | 5 => { startTime := .finite 50, endTime := .finite 60, refCount := 0,
           destroyed := false, frameTree := 1, body := 1 }
  | _ => { startTime := .finite 40, endTime := .finite 50, refCount := 2,
           destroyed := false, frameTree := 1, body := 1 }

/-- Timeline 0 holds the three phases, timeline 1 holds the phase at address
4 and every other timeline is empty.  Body 0 owns timeline 0 and body 1 owns
timeline 1.  Frame tree 0 is the tree of a star and has the three phases as
children; frame tree 1 is the tree of body 0 and has the phase at address 4 as
its child. -/
def exWorld : World 2 where
  phases := exPhases
  timelines := fun tl => if tl = 0 then { phases := [1, 2, 3] }
    else if tl = 1 then { phases := [4] } else { phases := [] }
  bodies := fun b => if b = 0 then { timeline := some 0 }
    else if b = 1 then { timeline := some 1 } else { timeline := none }
  trees := fun t => if t = 0 then { bodyParent := none, children := [1, 2, 3], changed := false }
    else { bodyParent := some 0, children := [4], changed := false }

/-- Phases of a second hierarchy, for the aggregates: the phases 10 and 12 are
children of frame tree 0, phase 11 of tree 1 and every other phase of tree 3;
the orbit of phase 10 has bounding radius 100, every other orbit has 5. -/
def exOrbits : PhasePtr → TimelinePhase 4
  | 10 => { startTime := .finite 0, endTime := .finite 10, refCount := 2, destroyed := false,
            frameTree := 0, body := 10, orbitBoundingRadius := .finite 100 }
  | 11 => { startTime := .finite 0, endTime := .finite 10, refCount := 2, destroyed := false,
            frameTree := 1, body := 11, orbitBoundingRadius := .finite 5 }
  | 12 => { startTime := .finite 0, endTime := .finite 10, refCount := 2, destroyed := false,
            frameTree := 0, body := 12, orbitBoundingRadius := .finite 5 }
  | _ => { startTime := .finite 0, endTime := .finite 10, refCount := 2, destroyed := false,
           frameTree := 3, body := 13, orbitBoundingRadius := .finite 5 }

/-- Bodies of the second hierarchy.  Body 10 has radius 3, culling radius 4 and
frame tree 1; body 11 has radius and culling radius 2, is a secondary
illuminator and has no frame tree; body 12 has radius 1, culling radius 2 and
frame tree 2; every other body has radius 1, culling radius 2 (a ringed body)
and no frame tree. -/
def exBodies : BodyPtr → Body 4
  | 10 => { timeline := some 10, radius := .finite 3, cullingRadius := .finite 4,
            classification := 1, frameTree := some 1 }
  | 11 => { timeline := some 11, radius := .finite 2, cullingRadius := .finite 2,
            secondaryIlluminator := true, classification := 4 }
  | 12 => { timeline := some 12, radius := .finite 1, cullingRadius := .finite 2,
            classification := 2, frameTree := some 2 }
  | _ => { timeline := some 13, radius := .finite 1, cullingRadius := .finite 2,
           classification := 2 }

/-- Frame trees of the second hierarchy.  Tree 0 belongs to a star, is dirty
and has the children 10 and 12; tree 1 belongs to body 10, is dirty and has the
child 11; tree 2 belongs to body 12, has no child, is not dirty and holds
aggregates of an earlier recomputation; tree 3 belongs to a star, is dirty and
has the one child 13. -/
def exTrees : Fin 4 → FrameTree
  | 0 => { bodyParent := none, children := [10, 12], changed := true }
  | 1 => { bodyParent := some 10, children := [11], changed := true,
           boundingSphereRadius := .finite 1, maxChildRadius := .finite 1 }
  | 2 => { bodyParent := some 12, children := [], changed := false,
           boundingSphereRadius := .finite 9, maxChildRadius := .finite 8,
           containsSecondaryIlluminators := false, childClassMask := 16 }
  | 3 => { bodyParent := none, children := [13], changed := true }

/-- The second hierarchy: timeline `k` holds the one phase `k`. -/
def exSystem : World 4 where
  phases := exOrbits
  timelines := fun tl => { phases := [tl] }
  bodies := exBodies
  trees := exTrees

/-- The rank of the frame trees of the second hierarchy: the tree of the star
above the trees of its bodies. -/
def exRank : Fin 4 → Nat
  | 0 => 1
  | _ => 0

/-- Phases of a third hierarchy, in which a body has two parents over its
lifespan: the phases 20 and 21 are children of frame tree 0, phase 22 is a
child of tree 1 and phase 23 a child of tree 2; the phases 22 and 23 belong to
the same body 22.  Every orbit has bounding radius 4. -/
def exSharedPhases : PhasePtr → TimelinePhase 4
  | 20 => { startTime := .finite 0, endTime := .finite 10, refCount := 2, destroyed := false,
            frameTree := 0, body := 20, orbitBoundingRadius := .finite 4 }
  | 21 => { startTime := .finite 0, endTime := .finite 10, refCount := 2, destroyed := false,
            frameTree := 0, body := 21, orbitBoundingRadius := .finite 4 }
  | 22 => { startTime := .finite 0, endTime := .finite 10, refCount := 2, destroyed := false,
            frameTree := 1, body := 22, orbitBoundingRadius := .finite 4 }
  | _ => { startTime := .finite 10, endTime := .finite 20, refCount := 2, destroyed := false,
           frameTree := 2, body := 22, orbitBoundingRadius := .finite 4 }

/-- Bodies of the third hierarchy, all with radius and culling radius 1: body
20 has frame tree 1, body 21 has frame tree 2 and every other body, body 22
among them, has frame tree 3. -/
def exSharedBodies : BodyPtr → Body 4
  | 20 => { timeline := some 20, radius := .finite 1, cullingRadius := .finite 1,
            classification := 1, frameTree := some 1 }
  | 21 => { timeline := some 21, radius := .finite 1, cullingRadius := .finite 1,
            classification := 1, frameTree := some 2 }
  | _ => { timeline := some 22, radius := .finite 1, cullingRadius := .finite 1,
           classification := 2, frameTree := some 3 }

/-- Frame trees of the third hierarchy.  Tree 0 belongs to a star and is dirty;
tree 1 is not dirty and holds the aggregates of its subtree; tree 2 is dirty;
tree 3, the tree of body 22, lies below tree 1 and below tree 2, has no child,
is dirty and holds a bounding sphere radius 50 from an earlier state. -/
def exSharedTrees : Fin 4 → FrameTree
  | 0 => { bodyParent := none, children := [20, 21], changed := true }
  | 1 => { bodyParent := some 20, children := [22], changed := false,
           boundingSphereRadius := .finite 5, maxChildRadius := .finite 1,
           containsSecondaryIlluminators := false, childClassMask := 2 }
  | 2 => { bodyParent := some 21, children := [23], changed := true }
  | 3 => { bodyParent := some 22, children := [], changed := true,
           boundingSphereRadius := .finite 50 }

/-- The third hierarchy: timeline 22 holds the phases 22 and 23 of body 22,
every other timeline `k` the one phase `k`. -/
def exShared : World 4 where
  phases := exSharedPhases
  timelines := fun tl => if tl = 22 then { phases := [22, 23] } else { phases := [tl] }
  bodies := exSharedBodies
  trees := exSharedTrees

/-- The rank of the frame trees of the third hierarchy. -/
def exSharedRank : Fin 4 → Nat
  | 0 => 2
  | 1 => 1
  | 2 => 1
  | 3 => 0

/-- A hash for the examples: the number 4 under `Period`, the unit `y` under
`Period%Time`, and the string `long` under `Name`. -/
def exHash : AssociativeArray :=
  ((AssociativeArray.addValue ⟨fun _ => none⟩ "Period" (.number (.finite 4))).addValue
    "Period%Time" (.string "y")).addValue "Name" (.string "long")

/-- A table of time units for the examples, in days: `d` is 1 and `y` is
365.25; no other unit is known. -/
def exTimeUnits (unit : String) : Option Double :=
  if unit = "d" then some (.finite 1)
  else if unit = "y" then some (.finite (1461 / 4))
  else none

/-- A table of length units for the examples, in kilometres: `km` is 1 and
`m` is 0.001; no other unit is known. -/
def exLengthUnits (unit : String) : Option Double :=
  if unit = "km" then some (.finite 1)
  else if unit = "m" then some (.finite (1 / 1000))
  else none

/-- An orbit for the examples with nothing cached: both slots are marked not
valid and hold zeros, `lastTime` is -1. -/
def exOrbit : CachingOrbit where
  lastPosition := (.value (.finite 0), .value (.finite 0), .value (.finite 0))
  lastVelocity := (.value (.finite 0), .value (.finite 0), .value (.finite 0))
  lastTime := .value (.finite (-1))
  positionCacheValid := false
  velocityCacheValid := false

/-- A position for the examples: the time on the first axis, 1 elsewhere. -/
def exPosition (jd : SignedDouble) : Vector3d :=
  (jd, .value (.finite 1), .value (.finite 1))

/-- A velocity for the examples: the time on the second axis, 2 elsewhere. -/
def exVelocity (jd : SignedDouble) : Vector3d :=
  (.value (.finite 2), jd, .value (.finite 2))

/-- The call `std::copysign(1.0, jd)`: 1 with the sign of `jd`, which is -1 at
the negative zero and 1 at the positive zero (and at a NaN, taken with a clear
sign bit). -/
def exCopysign : SignedDouble → SignedDouble
  | .negZero => .value (.finite (-1))
  | .value .negInf => .value (.finite (-1))
  | .value (.finite q) => if q < 0 then .value (.finite (-1)) else .value (.finite 1)
  | .value _ => .value (.finite 1)

/-- A position for the examples that reads the sign of the time: `copysign(1.0,
jd)` on the first axis, 0 elsewhere. -/
def exSignPosition (jd : SignedDouble) : Vector3d :=
  (exCopysign jd, .value (.finite 0), .value (.finite 0))

/-- A simulation for the examples: one observer at the address 7, time scale
3, not paused. -/
def exSimulation : Simulation :=
  Simulation.new 7 (.finite 3) (.finite 1) false

/-- A hierarchy with a long timeline: frame tree 0 is the tree of a star, tree
1 is the tree of body 0, and the timeline of body 0 has the four phases 1, 2,
3, 4, all of them children of tree 0.  No tree is dirty. -/
def exLong : World 2 where
  phases := fun _ => { startTime := .finite 0, endTime := .finite 10, refCount := 2,
                       destroyed := false, frameTree := 0, body := 0 }
  timelines := fun tl => if tl = 0 then { phases := [1, 2, 3, 4] } else { phases := [] }
  bodies := fun b => if b = 0 then { timeline := some 0, frameTree := some 1 }
    else { timeline := none }
  trees := fun t => if t = 0 then { bodyParent := none, children := [1, 2, 3, 4], changed := false }
    else { bodyParent := some 0, children := [], changed := false }

/-- A hierarchy whose parent links form a cycle: frame tree 0 belongs to body
1, whose one phase 11 is owned by tree 1, and tree 1 belongs to body 0, whose
one phase 10 is owned by tree 0.  No tree is dirty. -/
def exCycle : World 2 where
  phases := fun p => if p = 10 then
      { startTime := .finite 0, endTime := .finite 10, refCount := 2, destroyed := false,
        frameTree := 0, body := 0 }
    else
      { startTime := .finite 0, endTime := .finite 10, refCount := 2, destroyed := false,
        frameTree := 1, body := 1 }
  timelines := fun tl => if tl = 0 then { phases := [10] } else { phases := [11] }
  bodies := fun b => if b = 0 then { timeline := some 0, frameTree := some 1 }
    else { timeline := some 1, frameTree := some 0 }
  trees := fun t => if t = 0 then { bodyParent := some 1, children := [10], changed := false }
    else { bodyParent := some 0, children := [11], changed := false }

/-- A parser environment for the examples: `km` and `m` are length units, `d`
and `y` are time units, `deg` is an angle unit, and units stand before the
value. -/
def exEnv : ParserEnv where
  isLengthUnit := fun unit => unit = "km" || unit = "m"
  isTimeUnit := fun unit => unit = "d" || unit = "y"
  isAngleUnit := fun unit => unit = "deg"
  usePostfixUnits := false

/-- A tokenizer at the start of a token sequence. -/
def exTokenizer (input : List Token) : Tokenizer :=
  { input := input, tokenType := .TokenOther, pushedBack := false }

/-- The tokens of `{ Period <y> 4 Moons [ "a" true ] }`. -/
def exTokens : List Token :=
  [.TokenBeginGroup, .TokenName "Period", .TokenBeginUnits, .TokenName "y", .TokenEndUnits,
    .TokenNumber (.finite 4), .TokenName "Moons", .TokenBeginArray, .TokenString "a",
    .TokenName "true", .TokenEndArray, .TokenEndGroup]

/-! ## Facts about comparisons of doubles -/

namespace Double

theorem eq_comm (a b : Double) : eq a b = eq b a := by
  cases a <;> cases b <;> simp [eq, Eq.comm]

theorem eq_iff {a b : Double} : eq a b = true ↔ a = b ∧ a ≠ nan := by
  cases a <;> cases b <;> simp [eq]

theorem lt_ne_nan {a b : Double} (h : lt a b = true) : a ≠ nan ∧ b ≠ nan := by
  cases a <;> cases b <;> simp [lt] at h ⊢

theorem le_ne_nan {a b : Double} (h : le a b = true) : a ≠ nan ∧ b ≠ nan := by
  cases a <;> cases b <;> simp [le, lt, eq] at h ⊢

theorem lt_irrefl (a : Double) : lt a a = false := by
  cases a <;> simp [lt]

theorem lt_trans {a b c : Double} (h₁ : lt a b = true) (h₂ : lt b c = true) :
    lt a c = true := by
  cases a <;> cases b <;> cases c <;> simp [lt] at h₁ h₂ ⊢
  exact h₁.trans h₂

theorem le_iff {a b : Double} : le a b = true ↔ lt a b = true ∨ eq a b = true := by
  simp [le]

theorem lt_of_le_of_lt {a b c : Double} (h₁ : le a b = true) (h₂ : lt b c = true) :
    lt a c = true := by
  cases a <;> cases b <;> cases c <;> simp [le, lt, eq] at h₁ h₂ ⊢
  rcases h₁ with h₁ | h₁
  · exact h₁.trans h₂
  · exact h₁ ▸ h₂

theorem lt_of_lt_of_le {a b c : Double} (h₁ : lt a b = true) (h₂ : le b c = true) :
    lt a c = true := by
  cases a <;> cases b <;> cases c <;> simp [le, lt, eq] at h₁ h₂ ⊢
  rcases h₂ with h₂ | h₂
  · exact h₁.trans h₂
  · exact h₂ ▸ h₁

theorem le_trans {a b c : Double} (h₁ : le a b = true) (h₂ : le b c = true) :
    le a c = true := by
  rcases le_iff.mp h₂ with h | h
  · exact le_iff.mpr (Or.inl (lt_of_le_of_lt h₁ h))
  · rw [← (eq_iff.mp h).1]; exact h₁

theorem le_of_not_lt {a b : Double} (ha : a ≠ nan) (hb : b ≠ nan) (h : lt a b = false) :
    le b a = true := by
  cases a <;> cases b <;> simp [le, lt, eq] at ha hb h ⊢
  exact le_iff_lt_or_eq.mp h

theorem not_lt_of_le {a b : Double} (h : le a b = true) : lt b a = false := by
  cases a <;> cases b <;> simp [le, lt, eq] at h ⊢
  rcases h with h | h
  · exact h.le
  · exact h.le

theorem le_of_lt {a b : Double} (h : lt a b = true) : le a b = true :=
  le_iff.mpr (Or.inl h)

theorem le_of_eq {a b : Double} (h : eq a b = true) : le a b = true :=
  le_iff.mpr (Or.inr h)

theorem le_refl {a : Double} (h : a ≠ nan) : le a a = true :=
  le_of_eq (eq_iff.mpr ⟨rfl, h⟩)

end Double

/-! ## `Timeline::appendPhase` -/

/-- C1: on a non-empty timeline, a phase whose start time differs from the end
time of the last phase is refused: `appendPhase` returns false and the world
is the one before the call, so the phase sequence, the phase count and the
reference count of the phase are what they were. -/
theorem appendPhase_mismatch_fails (w : World n) (tl : TimelinePtr) (phase : PhasePtr)
    (hne : (w.timelines tl).phases ≠ [])
    (hgap : Double.ne (w.phases phase).startTime
      (w.phases ((w.timelines tl).phases.getLast hne)).endTime = true) :
    (Timeline.appendPhase w tl phase).1 = false ∧
    (Timeline.appendPhase w tl phase).2 = w ∧
    ((Timeline.appendPhase w tl phase).2.timelines tl).phases = (w.timelines tl).phases ∧
    Timeline.phaseCount (Timeline.appendPhase w tl phase).2 tl = Timeline.phaseCount w tl ∧
    ((Timeline.appendPhase w tl phase).2.phases phase).refCount
      = (w.phases phase).refCount := by
  have hlast : (w.timelines tl).phases.getLast?
      = some ((w.timelines tl).phases.getLast hne) := List.getLast?_eq_getLast _ hne
  have hres : Timeline.appendPhase w tl phase = (false, w) := by
    simp only [Timeline.appendPhase, hlast, hgap, if_true]
  simp [hres]

theorem appendPhase_mismatch_fails_witness :
    (exWorld.timelines 0).phases ≠ [] ∧
    (Timeline.appendPhase exWorld 0 4).1 = false ∧
    (Timeline.appendPhase exWorld 0 4).2 = exWorld ∧
    ((Timeline.appendPhase exWorld 0 4).2.timelines 0).phases = (exWorld.timelines 0).phases ∧
    Timeline.phaseCount (Timeline.appendPhase exWorld 0 4).2 0 = Timeline.phaseCount exWorld 0 ∧
    ((Timeline.appendPhase exWorld 0 4).2.phases 4).refCount = (exWorld.phases 4).refCount :=
  ⟨by decide, appendPhase_mismatch_fails exWorld 0 4 (by decide) (by decide)⟩

/-- C2: on an empty timeline, or when the end time of the last phase equals
the start time of the phase, `appendPhase` returns true; the phase sequence
becomes the old one with the phase at the end, so the earlier phases keep
their positions and the phase count grows by one; the reference count of the
phase grows by exactly one, and nothing else in the world changes. -/
theorem appendPhase_match_appends (w : World n) (tl : TimelinePtr) (phase : PhasePtr)
    (h : (w.timelines tl).phases = [] ∨
      ∃ back, (w.timelines tl).phases.getLast? = some back ∧
        Double.eq (w.phases back).endTime (w.phases phase).startTime = true) :
    (Timeline.appendPhase w tl phase).1 = true ∧
    ((Timeline.appendPhase w tl phase).2.timelines tl).phases
      = (w.timelines tl).phases ++ [phase] ∧
    (∀ i, i < Timeline.phaseCount w tl →
      Timeline.getPhase (Timeline.appendPhase w tl phase).2 tl i = Timeline.getPhase w tl i) ∧
    Timeline.getPhase (Timeline.appendPhase w tl phase).2 tl (Timeline.phaseCount w tl)
      = some phase ∧
    Timeline.phaseCount (Timeline.appendPhase w tl phase).2 tl = Timeline.phaseCount w tl + 1 ∧
    ((Timeline.appendPhase w tl phase).2.phases phase).refCount
      = (w.phases phase).refCount + 1 ∧
    (Timeline.appendPhase w tl phase).2.phases
      = Function.update w.phases phase { w.phases phase with
          refCount := (w.phases phase).refCount + 1 } ∧
    (∀ tl', tl' ≠ tl → (Timeline.appendPhase w tl phase).2.timelines tl' = w.timelines tl') ∧
    (Timeline.appendPhase w tl phase).2.bodies = w.bodies ∧
    (Timeline.appendPhase w tl phase).2.trees = w.trees := by
  have hres : Timeline.appendPhase w tl phase
      = (true, (w.addRef phase).setPhases tl ((w.timelines tl).phases ++ [phase])) := by
    rcases h with h | ⟨back, hback, heq⟩
    · simp [Timeline.appendPhase, h]
    · rw [Double.eq_comm] at heq
      simp [Timeline.appendPhase, hback, Double.ne, heq]
  rw [hres]
  refine ⟨rfl, ?_, ?_, ?_, ?_, ?_, ?_, ?_, rfl, rfl⟩
  · simp [World.setPhases, World.addRef]
  · intro i hi
    simp only [Timeline.phaseCount] at hi
    simp [Timeline.getPhase, World.setPhases, World.addRef, List.getElem?_append_left hi]
  · simp [Timeline.getPhase, Timeline.phaseCount, World.setPhases, World.addRef]
  · simp [Timeline.phaseCount, World.setPhases, World.addRef]
  · simp [World.setPhases, World.addRef, TimelinePhase.addRef]
  · simp [World.setPhases, World.addRef, TimelinePhase.addRef]
  · intro tl' htl
    simp [World.setPhases, World.addRef, Function.update_noteq htl]

theorem appendPhase_match_appends_witness :
    (Timeline.appendPhase exWorld 1 5).1 = true ∧
    ((Timeline.appendPhase exWorld 1 5).2.timelines 1).phases = [4, 5] ∧
    Timeline.phaseCount (Timeline.appendPhase exWorld 1 5).2 1 = 2 ∧
    ((Timeline.appendPhase exWorld 1 5).2.phases 5).refCount = 1 ∧
    (Timeline.appendPhase exWorld 2 5).1 = true ∧
    ((Timeline.appendPhase exWorld 2 5).2.timelines 2).phases = [5] :=
  have h₁ := appendPhase_match_appends exWorld 1 5 (Or.inr ⟨4, by decide, by decide⟩)
  have h₂ := appendPhase_match_appends exWorld 2 5 (Or.inl (by decide))
  ⟨h₁.1, h₁.2.1, h₁.2.2.2.2.1, h₁.2.2.2.2.2.1, h₂.1, h₂.2.1⟩

/-! ## Gap-freedom of timelines built by `appendPhase` -/

theorem appendPhase_times (w : World n) (tl : TimelinePtr) (phase q : PhasePtr) :
    ((Timeline.appendPhase w tl phase).2.phases q).startTime = (w.phases q).startTime ∧
    ((Timeline.appendPhase w tl phase).2.phases q).endTime = (w.phases q).endTime := by
  unfold Timeline.appendPhase
  by_cases hq : q = phase
  · subst hq
    split
    · split <;> simp [World.addRef, World.setPhases, TimelinePhase.addRef]
    · simp [World.addRef, World.setPhases, TimelinePhase.addRef]
  · split
    · split <;> simp [World.addRef, World.setPhases, Function.update_noteq hq]
    · simp [World.addRef, World.setPhases, Function.update_noteq hq]

theorem appendPhase_abuts (w : World n) (tl : TimelinePtr) (phase : PhasePtr) :
    abuts (Timeline.appendPhase w tl phase).2 = abuts w := by
  funext p q
  simp only [abuts, (appendPhase_times w tl phase p).2, (appendPhase_times w tl phase q).1]

theorem abutting_iff_chain (w : World n) (l : List PhasePtr) :
    abutting w l = true ↔ List.Chain' (abuts w) l := by
  induction l with
  | nil => simp [abutting]
  | cons p rest ih =>
    cases rest with
    | nil => simp [abutting]
    | cons q rest => simp [abutting, List.chain'_cons, abuts, ih]

theorem gapFree_iff_chain {w : World n} {tl : TimelinePtr} :
    Timeline.GapFree w tl ↔ List.Chain' (abuts w) (w.timelines tl).phases :=
  abutting_iff_chain w _

theorem appendPhase_gapFree (w : World n) (tl tl' : TimelinePtr) (phase : PhasePtr)
    (h : Timeline.GapFree w tl) : Timeline.GapFree (Timeline.appendPhase w tl' phase).2 tl := by
  rw [gapFree_iff_chain] at h ⊢
  rw [appendPhase_abuts]
  unfold Timeline.appendPhase
  by_cases htl : tl = tl'
  · subst htl
    cases hlast : (w.timelines tl).phases.getLast? with
    | none =>
      have hnil : (w.timelines tl).phases = [] := List.getLast?_eq_none_iff.mp hlast
      simp [World.addRef, World.setPhases, hnil]
    | some back =>
      by_cases hne : Double.ne (w.phases phase).startTime (w.phases back).endTime = true
      · simpa [hne] using h
      · have heq : Double.eq (w.phases back).endTime (w.phases phase).startTime = true := by
          rw [Double.eq_comm]; simpa [Double.ne] using hne
        have hne' : Double.ne (w.phases phase).startTime (w.phases back).endTime = false := by
          simpa using hne
        simp only [hne', Bool.false_eq_true, if_false, World.addRef, World.setPhases,
          Function.update_same]
        refine List.chain'_append.mpr ⟨h, List.chain'_singleton _, ?_⟩
        intro x hx y hy
        simp only [Option.mem_def] at hx
        rw [hlast] at hx
        simp only [List.head?_cons, Option.mem_def, Option.some.injEq] at hy
        cases hx; cases hy
        exact heq
  · split
    · split
      · exact h
      · simpa [World.addRef, World.setPhases, Function.update_noteq htl] using h
    · simpa [World.addRef, World.setPhases, Function.update_noteq htl] using h

theorem appendPhases_gapFree (calls : List (TimelinePtr × PhasePtr)) (w : World n)
    (tl : TimelinePtr) (h : Timeline.GapFree w tl) :
    Timeline.GapFree (appendPhases w calls) tl := by
  induction calls generalizing w with
  | nil => exact h
  | cons c cs ih =>
    simp only [appendPhases, List.foldl_cons]
    exact ih _ (appendPhase_gapFree w tl c.1 c.2 h)

theorem gapFree_index {w : World n} {tl : TimelinePtr} (h : Timeline.GapFree w tl)
    (i : Nat) (p q : PhasePtr) (hp : Timeline.getPhase w tl i = some p)
    (hq : Timeline.getPhase w tl (i + 1) = some q) :
    Double.eq (w.phases p).endTime (w.phases q).startTime = true := by
  unfold Timeline.getPhase at hp hq
  obtain ⟨hi, hpi⟩ := List.getElem?_eq_some.mp hp
  obtain ⟨hj, hqj⟩ := List.getElem?_eq_some.mp hq
  have := List.chain'_iff_get.mp (gapFree_iff_chain.mp h) i (by omega)
  simp only [List.get_eq_getElem, hpi, hqj] at this
  exact this

/-- C3: a timeline that starts empty and then sees any sequence of
`appendPhase` calls, on it or on other timelines, accepted or refused, is
gap-free: the phase at position `i` ends exactly when the phase at position
`i + 1` starts. -/
theorem appendPhase_reachable_gapFree (w : World n) (tl : TimelinePtr)
    (hempty : (w.timelines tl).phases = []) (calls : List (TimelinePtr × PhasePtr))
    (i : Nat) (p q : PhasePtr)
    (hp : Timeline.getPhase (appendPhases w calls) tl i = some p)
    (hq : Timeline.getPhase (appendPhases w calls) tl (i + 1) = some q) :
    Double.eq ((appendPhases w calls).phases p).endTime
      ((appendPhases w calls).phases q).startTime = true := by
  have h0 : Timeline.GapFree w tl :=
    gapFree_iff_chain.mpr (by rw [hempty]; exact List.chain'_nil)
  exact gapFree_index (appendPhases_gapFree calls w tl h0) i p q hp hq

theorem appendPhase_reachable_gapFree_witness :
    ((appendPhases exWorld [(2, 1), (2, 2), (2, 5), (1, 5), (2, 3)]).timelines 2).phases
      = [1, 2, 3] ∧
    Double.eq ((appendPhases exWorld [(2, 1), (2, 2), (2, 5), (1, 5), (2, 3)]).phases 2).endTime
      ((appendPhases exWorld [(2, 1), (2, 2), (2, 5), (1, 5), (2, 3)]).phases 3).startTime
      = true :=
  ⟨by decide, appendPhase_reachable_gapFree exWorld 2 (by decide)
    [(2, 1), (2, 2), (2, 5), (1, 5), (2, 3)] 1 2 3 (by decide) (by decide)⟩

/-! ## `Timeline::findPhase` -/

/-- The special case for one phase gives what the loop gives. -/
theorem findPhase_eq_scan (w : World n) (tl : TimelinePtr) (t : Double) :
    Timeline.findPhase w tl t
      = match (w.timelines tl).phases.find?
          (fun phase => Double.lt t (w.phases phase).endTime) with
        | some phase => some phase
        | none => (w.timelines tl).phases.getLast? := by
  unfold Timeline.findPhase
  by_cases hlen : (w.timelines tl).phases.length = 1
  · obtain ⟨p, hp⟩ := List.length_eq_one.mp hlen
    simp only [hp, List.length_singleton, if_true, List.head?_cons, List.find?_cons,
      List.find?_nil, List.getLast?_singleton]
    cases Double.lt t (w.phases p).endTime <;> rfl
  · simp only [hlen, if_false]

theorem findPhase_of_find_some {w : World n} {tl : TimelinePtr} {t : Double} {p : PhasePtr}
    (h : (w.timelines tl).phases.find? (fun phase => Double.lt t (w.phases phase).endTime)
      = some p) : Timeline.findPhase w tl t = some p := by
  rw [findPhase_eq_scan, h]

theorem findPhase_of_find_none {w : World n} {tl : TimelinePtr} {t : Double}
    (h : (w.timelines tl).phases.find? (fun phase => Double.lt t (w.phases phase).endTime)
      = none) : Timeline.findPhase w tl t = (w.timelines tl).phases.getLast? := by
  rw [findPhase_eq_scan, h]

theorem findPhase_isSome (w : World n) (tl : TimelinePtr) (t : Double)
    (hne : (w.timelines tl).phases ≠ []) : (Timeline.findPhase w tl t).isSome = true := by
  rw [findPhase_eq_scan]
  split
  · rfl
  · rw [List.getLast?_eq_getLast _ hne]; rfl

/-- C4: on a non-empty timeline `findPhase t` returns a phase, and that phase
is either the earliest one in sequence order with `t < endTime` (it satisfies
the test and no phase at an earlier position does), or, when no phase of the
timeline satisfies `t < endTime`, the last phase. -/
theorem findPhase_earliest_or_last (w : World n) (tl : TimelinePtr) (t : Double)
    (hne : (w.timelines tl).phases ≠ []) :
    ∃ p, Timeline.findPhase w tl t = some p ∧
      ((Double.lt t (w.phases p).endTime = true ∧
          ∃ i, Timeline.getPhase w tl i = some p ∧
            ∀ j q, j < i → Timeline.getPhase w tl j = some q →
              Double.lt t (w.phases q).endTime = false) ∨
       ((∀ q ∈ (w.timelines tl).phases, Double.lt t (w.phases q).endTime = false) ∧
          p = (w.timelines tl).phases.getLast hne)) := by
  cases hfind : (w.timelines tl).phases.find?
      (fun phase => Double.lt t (w.phases phase).endTime) with
  | some p =>
    refine ⟨p, findPhase_of_find_some hfind, Or.inl ?_⟩
    obtain ⟨hp, as, bs, hl, hbefore⟩ := List.find?_eq_some.mp hfind
    refine ⟨hp, as.length, ?_, ?_⟩
    · rw [Timeline.getPhase, hl, List.getElem?_append_right (le_refl _)]
      simp
    · intro j q hj hq
      simp only [Timeline.getPhase, hl, List.getElem?_append_left hj] at hq
      have hmem : q ∈ as := List.getElem?_mem hq
      simpa using hbefore q hmem
  | none =>
    refine ⟨(w.timelines tl).phases.getLast hne, ?_, Or.inr ⟨?_, rfl⟩⟩
    · rw [findPhase_of_find_none hfind, List.getLast?_eq_getLast _ hne]
    · intro q hq
      simpa using List.find?_eq_none.mp hfind q hq

theorem findPhase_earliest_or_last_witness :
    Timeline.findPhase exWorld 0 (.finite 5) = some 1 ∧
    Timeline.findPhase exWorld 0 (.finite 10) = some 2 ∧
    Timeline.findPhase exWorld 0 (.finite (299 / 10)) = some 3 ∧
    Timeline.findPhase exWorld 0 (.finite 100) = some 3 ∧
    ∃ p, Timeline.findPhase exWorld 0 (.finite 10) = some p ∧
      ((Double.lt (.finite 10) (exWorld.phases p).endTime = true ∧
          ∃ i, Timeline.getPhase exWorld 0 i = some p ∧
            ∀ j q, j < i → Timeline.getPhase exWorld 0 j = some q →
              Double.lt (.finite 10) (exWorld.phases q).endTime = false) ∨
       ((∀ q ∈ (exWorld.timelines 0).phases,
            Double.lt (.finite 10) (exWorld.phases q).endTime = false) ∧
          p = (exWorld.timelines 0).phases.getLast (by decide))) :=
  ⟨by decide, by decide,
    by simp [Timeline.findPhase, exWorld, exPhases, Double.lt]; norm_num,
    by decide, findPhase_earliest_or_last exWorld 0 (.finite 10) (by decide)⟩

/-! ## Ordered boundaries of a well-formed timeline -/

/-- In a gap-free chain of proper phases, every later phase starts no earlier
than the first one ends. -/
theorem chain_end_le_start (w : World n) (bs : List PhasePtr) (p : PhasePtr)
    (hc : List.Chain' (abuts w) (p :: bs))
    (hpr : ∀ x ∈ p :: bs, Double.lt (w.phases x).startTime (w.phases x).endTime = true) :
    ∀ q ∈ bs, Double.le (w.phases p).endTime (w.phases q).startTime = true := by
  induction bs generalizing p with
  | nil => intro q hq; cases hq
  | cons b bs ih =>
    obtain ⟨hpb, hrest⟩ := List.chain'_cons.mp hc
    intro q hq
    rcases List.mem_cons.mp hq with rfl | hq
    · exact Double.le_of_eq hpb
    · have hb := ih b hrest (fun x hx => hpr x (List.mem_cons_of_mem _ hx)) q hq
      have hbb := hpr b (List.mem_cons_of_mem _ (List.mem_cons_self _ _))
      exact Double.le_trans (Double.le_of_eq hpb) (Double.le_trans (Double.le_of_lt hbb) hb)

/-- In a gap-free chain of proper phases, no phase ends after the last one. -/
theorem chain_end_le_last (w : World n) (l : List PhasePtr) (hne : l ≠ [])
    (hc : List.Chain' (abuts w) l)
    (hpr : ∀ x ∈ l, Double.lt (w.phases x).startTime (w.phases x).endTime = true) :
    ∀ q ∈ l, Double.le (w.phases q).endTime (w.phases (l.getLast hne)).endTime = true := by
  induction l with
  | nil => exact absurd rfl hne
  | cons p rest ih =>
    intro q hq
    by_cases hrest : rest = []
    · subst hrest
      have hqp : q = p := by simpa using hq
      subst hqp
      simpa using Double.le_refl (Double.lt_ne_nan (hpr q hq)).2
    · rw [List.getLast_cons hrest]
      have hprest : ∀ x ∈ rest,
          Double.lt (w.phases x).startTime (w.phases x).endTime = true :=
        fun x hx => hpr x (List.mem_cons_of_mem _ hx)
      rcases List.mem_cons.mp hq with rfl | hq
      · have hlast := List.getLast_mem hrest
        exact Double.le_trans (chain_end_le_start w rest q hc hpr _ hlast)
          (Double.le_of_lt (hprest _ hlast))
      · exact ih hrest (List.Chain'.tail hc) hprest q hq

/-- C5: on a non-empty, gap-free timeline whose phases all have
`startTime < endTime`, and for a time `t` with `startTime() <= t < endTime()`,
`findPhase t` returns a phase of the timeline that is active at `t`
(`phase.startTime <= t < phase.endTime`), and it is the only phase of the
timeline with that property. -/
theorem findPhase_active (w : World n) (tl : TimelinePtr) (t s e : Double)
    (hgap : Timeline.GapFree w tl) (hpr : Timeline.PhasesProper w tl)
    (hs : Timeline.startTime w tl = some s) (he : Timeline.endTime w tl = some e)
    (hst : Double.le s t = true) (hte : Double.lt t e = true) :
    ∃ p, Timeline.findPhase w tl t = some p ∧ p ∈ (w.timelines tl).phases ∧
      Double.le (w.phases p).startTime t = true ∧
      Double.lt t (w.phases p).endTime = true ∧
      ∀ q ∈ (w.timelines tl).phases, Double.le (w.phases q).startTime t = true →
        Double.lt t (w.phases q).endTime = true → q = p := by
  rw [gapFree_iff_chain] at hgap
  unfold Timeline.PhasesProper at hpr
  simp only [Timeline.startTime, Timeline.endTime, Option.map_eq_some'] at hs he
  obtain ⟨first, hfirst, rfl⟩ := hs
  obtain ⟨back, hback, rfl⟩ := he
  have hbackmem : back ∈ (w.timelines tl).phases := List.mem_of_mem_getLast? hback
  cases hfind : (w.timelines tl).phases.find?
      (fun phase => Double.lt t (w.phases phase).endTime) with
  | none =>
    have := List.find?_eq_none.mp hfind back hbackmem
    simp [hte] at this
  | some p =>
    obtain ⟨hp, as, bs, hl, hbefore⟩ := List.find?_eq_some.mp hfind
    have hpmem : p ∈ (w.timelines tl).phases := List.mem_of_find?_eq_some hfind
    rw [hl] at hgap hpr hfirst
    obtain ⟨hleft, hright⟩ := List.chain'_split.mp hgap
    refine ⟨p, findPhase_of_find_some hfind, hpmem, ?_, hp, ?_⟩
    · by_cases has : as = []
      · subst has
        simp only [List.nil_append, List.head?_cons, Option.some.injEq] at hfirst
        rw [hfirst]; exact hst
      · have hamem : as.getLast has ∈ as := List.getLast_mem has
        have hab : abuts w (as.getLast has) p :=
          (List.chain'_append.mp hleft).2.2 _ (List.getLast?_eq_getLast _ has) p rfl
        have hnot : Double.lt t (w.phases (as.getLast has)).endTime = false := by
          simpa using hbefore _ hamem
        have hend : (w.phases (as.getLast has)).endTime ≠ Double.nan :=
          (Double.lt_ne_nan (hpr _ (List.mem_append_left _ hamem))).2
        have hle := Double.le_of_not_lt (Double.le_ne_nan hst).2 hend hnot
        rw [(Double.eq_iff.mp hab).1] at hle
        exact hle
    · intro q hq hqs hqe
      rw [hl] at hq
      rcases List.mem_append.mp hq with hq | hq
      · have : Double.lt t (w.phases q).endTime = false := by simpa using hbefore q hq
        rw [this] at hqe; cases hqe
      · rcases List.mem_cons.mp hq with rfl | hq
        · rfl
        · have hle := chain_end_le_start w bs p hright
            (fun x hx => hpr x (List.mem_append_right _ hx)) q hq
          have hlt := Double.lt_of_lt_of_le hp hle
          rw [Double.not_lt_of_le hqs] at hlt; cases hlt

theorem findPhase_active_witness :
    ∃ p, Timeline.findPhase exWorld 0 (.finite 10) = some p ∧ p ∈ (exWorld.timelines 0).phases ∧
      Double.le (exWorld.phases p).startTime (.finite 10) = true ∧
      Double.lt (.finite 10) (exWorld.phases p).endTime = true ∧
      ∀ q ∈ (exWorld.timelines 0).phases,
        Double.le (exWorld.phases q).startTime (.finite 10) = true →
        Double.lt (.finite 10) (exWorld.phases q).endTime = true → q = p :=
  findPhase_active exWorld 0 (.finite 10) (.finite 0) (.finite 30)
    (by decide) (by decide) (by decide) (by decide) (by decide) (by decide)

/-! ## `Timeline::includes` -/

/-- C6: on a non-empty timeline with start time `s` and end time `e`,
`includes t` is true exactly when `s <= t` and `t <= e`, a closed interval.
On a well-formed timeline (gap-free, every phase with `startTime < endTime`)
`includes e` is therefore true, although no phase passes the half-open test
`e < phase.endTime` that `findPhase` uses. -/
theorem includes_closed_interval (w : World n) (tl : TimelinePtr) (t s e : Double)
    (hs : Timeline.startTime w tl = some s) (he : Timeline.endTime w tl = some e) :
    Timeline.includes w tl t = some (Double.le s t && Double.le t e) ∧
    (Timeline.includes w tl t = some true ↔ Double.le s t = true ∧ Double.le t e = true) ∧
    (Timeline.GapFree w tl → Timeline.PhasesProper w tl →
      Timeline.includes w tl e = some true ∧
      ∀ p ∈ (w.timelines tl).phases, Double.lt e (w.phases p).endTime = false) := by
  simp only [Timeline.startTime, Timeline.endTime, Option.map_eq_some'] at hs he
  obtain ⟨first, hfirst, rfl⟩ := hs
  obtain ⟨back, hback, rfl⟩ := he
  have hincl : ∀ t', Timeline.includes w tl t'
      = some (Double.le (w.phases first).startTime t' && Double.le t' (w.phases back).endTime) := by
    intro t'; simp only [Timeline.includes, hfirst, hback]
  refine ⟨hincl t, ?_, ?_⟩
  · rw [hincl t]; simp
  · intro hgap hpr
    have hne : (w.timelines tl).phases ≠ [] := by
      intro h; rw [h] at hfirst; cases hfirst
    have hlast : (w.timelines tl).phases.getLast hne = back := by
      have := List.getLast?_eq_getLast _ hne
      rw [hback] at this
      exact (Option.some.inj this).symm
    have hle := chain_end_le_last w _ hne (gapFree_iff_chain.mp hgap) hpr
    rw [hlast] at hle
    have hfmem : first ∈ (w.timelines tl).phases := List.mem_of_mem_head? hfirst
    have hbmem : back ∈ (w.timelines tl).phases := List.mem_of_mem_getLast? hback
    refine ⟨?_, fun p hp => Double.not_lt_of_le (hle p hp)⟩
    rw [hincl]
    have h₁ : Double.le (w.phases first).startTime (w.phases back).endTime = true :=
      Double.le_trans (Double.le_of_lt (hpr first hfmem)) (hle first hfmem)
    have h₂ : Double.le (w.phases back).endTime (w.phases back).endTime = true :=
      Double.le_refl (Double.lt_ne_nan (hpr back hbmem)).2
    rw [h₁, h₂]; rfl

theorem includes_closed_interval_witness :
    Timeline.includes exWorld 0 (.finite 30)
      = some (Double.le (.finite 0) (.finite 30) && Double.le (.finite 30) (.finite 30)) ∧
    Timeline.includes exWorld 0 (.finite 30) = some true ∧
    Timeline.includes exWorld 0 (.finite 0) = some true ∧
    Timeline.includes exWorld 0 (.finite 31) = some false ∧
    Timeline.includes exWorld 0 (.finite (-1)) = some false ∧
    Timeline.findPhase exWorld 0 (.finite 30) = some 3 ∧
    ∀ p ∈ (exWorld.timelines 0).phases,
      Double.lt (.finite 30) (exWorld.phases p).endTime = false :=
  have h := includes_closed_interval exWorld 0 (.finite 30) (.finite 0) (.finite 30)
    (by decide) (by decide)
  ⟨h.1, (h.2.2 (by decide) (by decide)).1, by decide, by decide, by decide, by decide,
    (h.2.2 (by decide) (by decide)).2⟩

/-! ## Queries outside the timeline -/

/-- C7: on a non-empty, gap-free timeline whose phases all have
`startTime < endTime`, `findPhase t` always returns a phase: the first phase
for every `t < startTime()` and the last phase for every `t >= endTime()`. -/
theorem findPhase_clamps (w : World n) (tl : TimelinePtr) (t : Double) (first back : PhasePtr)
    (hfirst : (w.timelines tl).phases.head? = some first)
    (hback : (w.timelines tl).phases.getLast? = some back)
    (hgap : Timeline.GapFree w tl) (hpr : Timeline.PhasesProper w tl) :
    (Timeline.findPhase w tl t).isSome = true ∧
    (Double.lt t (w.phases first).startTime = true → Timeline.findPhase w tl t = some first) ∧
    (Double.le (w.phases back).endTime t = true → Timeline.findPhase w tl t = some back) := by
  have hne : (w.timelines tl).phases ≠ [] := by
    intro h; rw [h] at hfirst; cases hfirst
  refine ⟨findPhase_isSome w tl t hne, ?_, ?_⟩
  · intro hlt
    have hfmem : first ∈ (w.timelines tl).phases := List.mem_of_mem_head? hfirst
    have hend : Double.lt t (w.phases first).endTime = true :=
      Double.lt_trans hlt (hpr first hfmem)
    apply findPhase_of_find_some
    cases hl : (w.timelines tl).phases with
    | nil => exact absurd hl hne
    | cons a rest =>
      rw [hl] at hfirst
      simp only [List.head?_cons, Option.some.injEq] at hfirst
      subst hfirst
      simp [List.find?_cons, hend]
  · intro hle
    have hlast : (w.timelines tl).phases.getLast hne = back := by
      have := List.getLast?_eq_getLast _ hne
      rw [hback] at this
      exact (Option.some.inj this).symm
    have hall := chain_end_le_last w _ hne (gapFree_iff_chain.mp hgap) hpr
    rw [hlast] at hall
    have hnone : (w.timelines tl).phases.find?
        (fun phase => Double.lt t (w.phases phase).endTime) = none := by
      apply List.find?_eq_none.mpr
      intro q hq
      have := Double.not_lt_of_le (Double.le_trans (hall q hq) hle)
      simp [this]
    rw [findPhase_of_find_none hnone, hback]

theorem findPhase_clamps_witness :
    (Timeline.findPhase exWorld 0 (.finite (-5))).isSome = true ∧
    Timeline.findPhase exWorld 0 (.finite (-5)) = some 1 ∧
    Timeline.findPhase exWorld 0 (.finite 30) = some 3 ∧
    Timeline.findPhase exWorld 0 .posInf = some 3 ∧
    Timeline.findPhase exWorld 0 .negInf = some 1 :=
  have h₁ := findPhase_clamps exWorld 0 (.finite (-5)) 1 3
    (by decide) (by decide) (by decide) (by decide)
  have h₂ := findPhase_clamps exWorld 0 (.finite 30) 1 3
    (by decide) (by decide) (by decide) (by decide)
  ⟨h₁.1, h₁.2.1 (by decide), h₂.2.2 (by decide), by decide, by decide⟩

/-! ## `FrameTree::markChanged` only sets flags, and returns -/

theorem FlagsGrow.refl (w : World n) : FlagsGrow w w :=
  ⟨rfl, rfl, rfl, fun _ => rfl, fun _ => rfl, fun _ h => h, fun _ => rfl⟩

theorem FlagsGrow.trans {w₁ w₂ w₃ : World n} (h₁ : FlagsGrow w₁ w₂) (h₂ : FlagsGrow w₂ w₃) :
    FlagsGrow w₁ w₃ :=
  ⟨h₂.phases.trans h₁.phases, h₂.timelines.trans h₁.timelines, h₂.bodies.trans h₁.bodies,
    fun t => (h₂.bodyParent t).trans (h₁.bodyParent t),
    fun t => (h₂.children t).trans (h₁.children t),
    fun t h => h₂.changed t (h₁.changed t h),
    fun t => (h₂.aggregates t).trans (h₁.aggregates t)⟩

theorem setChanged_grows (w : World n) (t : Fin n) : FlagsGrow w (w.setChanged t true) := by
  refine ⟨rfl, rfl, rfl, ?_, ?_, ?_, ?_⟩
  · intro t'
    by_cases h : t' = t
    · subst h; simp [World.setChanged]
    · simp [World.setChanged, Function.update_noteq h]
  · intro t'
    by_cases h : t' = t
    · subst h; simp [World.setChanged]
    · simp [World.setChanged, Function.update_noteq h]
  · intro t' ht'
    by_cases h : t' = t
    · subst h; simp [World.setChanged]
    · simpa [World.setChanged, Function.update_noteq h] using ht'
  · intro t'
    by_cases h : t' = t
    · subst h; simp [World.setChanged, FrameTree.aggregates]
    · simp [World.setChanged, Function.update_noteq h]

theorem setChanged_changed (w : World n) (t : Fin n) :
    ((w.setChanged t true).trees t).changed = true := by
  simp [World.setChanged]

theorem cleanCount_le_of_grows {w w' : World n} (h : FlagsGrow w w') :
    w'.cleanCount ≤ w.cleanCount := by
  unfold World.cleanCount
  apply Finset.card_le_card
  intro t ht
  simp only [Finset.mem_filter, Finset.mem_univ, true_and] at ht ⊢
  cases hc : (w.trees t).changed with
  | false => rfl
  | true => rw [h.changed t hc] at ht; cases ht

theorem cleanCount_setChanged_lt (w : World n) (t : Fin n)
    (h : (w.trees t).changed = false) : (w.setChanged t true).cleanCount < w.cleanCount := by
  unfold World.cleanCount
  apply Finset.card_lt_card
  refine Finset.ssubset_iff_of_subset ?_ |>.mpr ⟨t, ?_, ?_⟩
  · intro t' ht'
    simp only [Finset.mem_filter, Finset.mem_univ, true_and] at ht' ⊢
    cases hc : (w.trees t').changed with
    | false => rfl
    | true => rw [(setChanged_grows w t).changed t' hc] at ht'; cases ht'
  · simpa using h
  · simp [setChanged_changed]

theorem cleanCount_le (w : World n) : w.cleanCount ≤ n := by
  unfold World.cleanCount
  calc (Finset.univ.filter (fun t : Fin n => (w.trees t).changed = false)).card
      ≤ (Finset.univ : Finset (Fin n)).card := Finset.card_filter_le _ _
    _ = n := by simp

/-- The loop of `Timeline::markChanged` only sets flags when each call does. -/
theorem foldlM_grows (mc : World n → Fin n → Option (World n))
    (hmc : ∀ w t w', mc w t = some w' → FlagsGrow w w') (l : List PhasePtr)
    (w w' : World n)
    (h : l.foldlM (fun acc phase => mc acc (acc.phases phase).frameTree) w = some w') :
    FlagsGrow w w' := by
  induction l generalizing w with
  | nil =>
    simp only [List.foldlM_nil, Option.pure_def, Option.some.injEq] at h
    subst h; exact FlagsGrow.refl w
  | cons p ps ih =>
    rw [List.foldlM_cons] at h
    cases hstep : mc w (w.phases p).frameTree with
    | none => rw [hstep] at h; cases h
    | some w₁ =>
      rw [hstep] at h
      exact (hmc _ _ _ hstep).trans (ih w₁ h)

/-- The loop of `Timeline::markChanged` returns when each call returns on a
world with fewer than `k` clear flags. -/
theorem foldlM_returns (mc : World n → Fin n → Option (World n)) (k : Nat)
    (hmc : ∀ w t w', mc w t = some w' → FlagsGrow w w')
    (hret : ∀ w t, w.cleanCount < k → ∃ w', mc w t = some w') (l : List PhasePtr)
    (w : World n) (hw : w.cleanCount < k) :
    ∃ w', l.foldlM (fun acc phase => mc acc (acc.phases phase).frameTree) w = some w' := by
  induction l generalizing w with
  | nil => exact ⟨w, rfl⟩
  | cons p ps ih =>
    obtain ⟨w₁, hstep⟩ := hret w (w.phases p).frameTree hw
    have hle := cleanCount_le_of_grows (hmc _ _ _ hstep)
    obtain ⟨w', hw'⟩ := ih w₁ (lt_of_le_of_lt hle hw)
    refine ⟨w', ?_⟩
    rw [List.foldlM_cons, hstep]
    exact hw'

theorem markChanged_grows (fuel : Nat) (w : World n) (t : Fin n) (w' : World n)
    (h : FrameTree.markChanged fuel w t = some w') : FlagsGrow w w' := by
  induction fuel generalizing w t w' with
  | zero => simp [FrameTree.markChanged] at h
  | succ fuel ih =>
    unfold FrameTree.markChanged at h
    split at h
    · cases h; exact FlagsGrow.refl w
    · split at h
      · rename_i b hb
        unfold Body.markChangedWith at h
        split at h
        · exact (setChanged_grows w t).trans (foldlM_grows _ ih _ _ _ h)
        · cases h; exact setChanged_grows w t
      · cases h; exact setChanged_grows w t

/-- After `markChanged` the flag of the tree is set. -/
theorem markChanged_sets (fuel : Nat) (w : World n) (t : Fin n) (w' : World n)
    (h : FrameTree.markChanged fuel w t = some w') : (w'.trees t).changed = true := by
  cases fuel with
  | zero => simp [FrameTree.markChanged] at h
  | succ fuel =>
    unfold FrameTree.markChanged at h
    split at h
    · rename_i hc; cases h; exact hc
    · split at h
      · unfold Body.markChangedWith at h
        split at h
        · exact (foldlM_grows _ (markChanged_grows fuel) _ _ _ h).changed t
            (setChanged_changed w t)
        · cases h; exact setChanged_changed w t
      · cases h; exact setChanged_changed w t

/-- The call `markChanged` returns once the fuel exceeds the number of clear
flags. -/
theorem markChanged_returns (fuel : Nat) (w : World n) (t : Fin n)
    (h : w.cleanCount < fuel) : ∃ w', FrameTree.markChanged fuel w t = some w' := by
  induction fuel generalizing w t with
  | zero => exact absurd h (Nat.not_lt_zero _)
  | succ fuel ih =>
    unfold FrameTree.markChanged
    split
    · exact ⟨w, rfl⟩
    · rename_i hc
      have hlt : (w.setChanged t true).cleanCount < fuel :=
        lt_of_lt_of_le (cleanCount_setChanged_lt w t (by simpa using hc)) (Nat.le_of_lt_succ h)
      split
      · unfold Body.markChangedWith
        split
        · exact foldlM_returns _ fuel (markChanged_grows fuel) ih _ _ hlt
        · exact ⟨_, rfl⟩
      · exact ⟨_, rfl⟩

/-! ## `FrameTree::removeChild` and `FrameTree::addChild` -/

theorem filter_ne_erase (a : PhasePtr) (l : List PhasePtr) :
    (l.erase a).filter (fun c => decide (c ≠ a)) = l.filter (fun c => decide (c ≠ a)) := by
  induction l with
  | nil => rfl
  | cons b bs ih =>
    by_cases hb : b = a
    · subst hb; simp
    · rw [List.erase_cons_tail (by simpa using hb)]
      simpa [List.filter_cons, hb] using ih

/-- C8: `removeChild` of a phase that is not in the child list returns, with
any fuel, and leaves the world as it was: the child list, the reference count
of the phase and the dirty flag of every frame tree (this one and its
ancestors among them) are unchanged, and so a second call changes nothing
either. -/
theorem removeChild_absent_noop (fuel : Nat) (w : World n) (t : Fin n) (phase : PhasePtr)
    (habs : phase ∉ (w.trees t).children) :
    ∃ w', FrameTree.removeChild fuel w t phase = some w' ∧ w' = w ∧
      (w'.trees t).children = (w.trees t).children ∧
      (w'.phases phase).refCount = (w.phases phase).refCount ∧
      (∀ t', (w'.trees t').changed = (w.trees t').changed) ∧
      FrameTree.removeChild fuel w' t phase = some w := by
  have hidx : (w.trees t).children[(w.trees t).children.indexOf phase]? = none := by
    rw [List.indexOf_eq_length.mpr habs]
    exact List.getElem?_eq_none (le_refl _)
  have hres : FrameTree.removeChild fuel w t phase = some w := by
    simp only [FrameTree.removeChild, hidx]
  exact ⟨w, hres, rfl, rfl, rfl, fun _ => rfl, hres⟩

theorem removeChild_absent_noop_witness :
    ∃ w', FrameTree.removeChild 0 exWorld 0 4 = some w' ∧ w' = exWorld ∧
      (w'.trees 0).children = (exWorld.trees 0).children ∧
      (w'.phases 4).refCount = (exWorld.phases 4).refCount ∧
      (∀ t', (w'.trees t').changed = (exWorld.trees t').changed) ∧
      FrameTree.removeChild 0 w' 0 4 = some exWorld :=
  removeChild_absent_noop 0 exWorld 0 4 (by decide)

/-- C9: `removeChild` of a phase that is in the child list returns as soon as
the fuel exceeds the number of frame trees.  It releases exactly one reference
of the phase and touches no other phase; the child list loses the first
occurrence of the phase, so the child count drops by exactly one and the other
children keep their relative order; the child lists of the other trees are
unchanged; and the dirty flag of the tree is set afterwards. -/
theorem removeChild_present (fuel : Nat) (w : World n) (t : Fin n) (phase : PhasePtr)
    (hmem : phase ∈ (w.trees t).children) (hfuel : n < fuel) :
    ∃ w', FrameTree.removeChild fuel w t phase = some w' ∧
      (w'.phases phase).refCount = (w.phases phase).refCount - 1 ∧
      (∀ q, q ≠ phase → w'.phases q = w.phases q) ∧
      (w'.trees t).children = (w.trees t).children.erase phase ∧
      FrameTree.childCount w' t + 1 = FrameTree.childCount w t ∧
      (w'.trees t).children.count phase + 1 = (w.trees t).children.count phase ∧
      (w'.trees t).children.filter (fun c => decide (c ≠ phase))
        = (w.trees t).children.filter (fun c => decide (c ≠ phase)) ∧
      List.Sublist (w'.trees t).children (w.trees t).children ∧
      (∀ t', t' ≠ t → (w'.trees t').children = (w.trees t').children) ∧
      (w'.trees t).changed = true := by
  have hidx : (w.trees t).children[(w.trees t).children.indexOf phase]? = some phase :=
    List.getElem?_indexOf hmem
  have hcall : FrameTree.removeChild fuel w t phase
      = FrameTree.markChanged fuel
          ((w.release phase).setChildren t ((w.trees t).children.erase phase)) t := by
    have htrees : ((w.release phase).trees t).children = (w.trees t).children := rfl
    simp only [FrameTree.removeChild, hidx]
    rw [htrees, List.eraseIdx_indexOf_eq_erase]
  obtain ⟨w', hw'⟩ := markChanged_returns fuel
    ((w.release phase).setChildren t ((w.trees t).children.erase phase)) t
    (lt_of_le_of_lt (cleanCount_le _) hfuel)
  have hgrow := markChanged_grows _ _ _ _ hw'
  have hchild : (w'.trees t).children = (w.trees t).children.erase phase := by
    rw [hgrow.children t]; simp [World.setChildren, World.release]
  refine ⟨w', hcall.trans hw', ?_, ?_, hchild, ?_, ?_, ?_, ?_, ?_,
    markChanged_sets _ _ _ _ hw'⟩
  · rw [hgrow.phases]; simp [World.setChildren, World.release, TimelinePhase.release]
  · intro q hq
    rw [hgrow.phases]; simp [World.setChildren, World.release, Function.update_noteq hq]
  · simp only [FrameTree.childCount, hchild, List.length_erase_of_mem hmem]
    exact Nat.succ_pred_eq_of_pos (List.length_pos_of_mem hmem)
  · rw [hchild, List.count_erase_self]
    exact Nat.succ_pred_eq_of_pos (List.count_pos_iff.mpr hmem)
  · rw [hchild]; exact filter_ne_erase phase _
  · rw [hchild]; exact List.erase_sublist phase _
  · intro t' ht'
    rw [hgrow.children t']
    simp [World.setChildren, World.release, Function.update_noteq ht']

/-- C10: `addChild` returns as soon as the fuel exceeds the number of frame
trees.  It adds exactly one reference to the phase and touches no other phase;
the child list becomes the old one with the phase at the end, so the child
count grows by one and `getChild` at the old count is the phase; the child
lists of the other trees are unchanged; and the dirty flag of the tree is set
afterwards. -/
theorem addChild_appends (fuel : Nat) (w : World n) (t : Fin n) (phase : PhasePtr)
    (hfuel : n < fuel) :
    ∃ w', FrameTree.addChild fuel w t phase = some w' ∧
      (w'.phases phase).refCount = (w.phases phase).refCount + 1 ∧
      (∀ q, q ≠ phase → w'.phases q = w.phases q) ∧
      (w'.trees t).children = (w.trees t).children ++ [phase] ∧
      FrameTree.childCount w' t = FrameTree.childCount w t + 1 ∧
      FrameTree.getChild w' t (FrameTree.childCount w t) = some phase ∧
      (∀ i, i < FrameTree.childCount w t →
        FrameTree.getChild w' t i = FrameTree.getChild w t i) ∧
      (∀ t', t' ≠ t → (w'.trees t').children = (w.trees t').children) ∧
      (w'.trees t).changed = true := by
  have hcall : FrameTree.addChild fuel w t phase
      = FrameTree.markChanged fuel
          ((w.addRef phase).setChildren t ((w.trees t).children ++ [phase])) t := rfl
  obtain ⟨w', hw'⟩ := markChanged_returns fuel
    ((w.addRef phase).setChildren t ((w.trees t).children ++ [phase])) t
    (lt_of_le_of_lt (cleanCount_le _) hfuel)
  have hgrow := markChanged_grows _ _ _ _ hw'
  have hchild : (w'.trees t).children = (w.trees t).children ++ [phase] := by
    rw [hgrow.children t]; simp [World.setChildren, World.addRef]
  refine ⟨w', hcall.trans hw', ?_, ?_, hchild, ?_, ?_, ?_, ?_, markChanged_sets _ _ _ _ hw'⟩
  · rw [hgrow.phases]; simp [World.setChildren, World.addRef, TimelinePhase.addRef]
  · intro q hq
    rw [hgrow.phases]; simp [World.setChildren, World.addRef, Function.update_noteq hq]
  · simp [FrameTree.childCount, hchild]
  · simp [FrameTree.getChild, FrameTree.childCount, hchild]
  · intro i hi
    simp only [FrameTree.childCount] at hi
    simp [FrameTree.getChild, hchild, List.getElem?_append_left hi]
  · intro t' ht'
    rw [hgrow.children t']
    simp [World.setChildren, World.addRef, Function.update_noteq ht']

theorem removeChild_present_witness :
    (FrameTree.removeChild 3 exWorld 1 4).map (fun w' =>
        ((w'.trees 1).children, (w'.phases 4).refCount, (w'.trees 1).changed,
          (w'.trees 0).changed, (w'.trees 0).children))
      = some ([], 1, true, true, [1, 2, 3]) ∧
    ∃ w', FrameTree.removeChild 3 exWorld 1 4 = some w' ∧
      (w'.phases 4).refCount = (exWorld.phases 4).refCount - 1 ∧
      (∀ q, q ≠ 4 → w'.phases q = exWorld.phases q) ∧
      (w'.trees 1).children = (exWorld.trees 1).children.erase 4 ∧
      FrameTree.childCount w' 1 + 1 = FrameTree.childCount exWorld 1 ∧
      (w'.trees 1).children.count 4 + 1 = (exWorld.trees 1).children.count 4 ∧
      (w'.trees 1).children.filter (fun c => decide (c ≠ 4))
        = (exWorld.trees 1).children.filter (fun c => decide (c ≠ 4)) ∧
      List.Sublist (w'.trees 1).children (exWorld.trees 1).children ∧
      (∀ t', t' ≠ 1 → (w'.trees t').children = (exWorld.trees t').children) ∧
      (w'.trees 1).changed = true :=
  ⟨by decide, removeChild_present 3 exWorld 1 4 (by decide) (by decide)⟩

theorem addChild_appends_witness :
    (FrameTree.addChild 3 exWorld 1 5).map (fun w' =>
        ((w'.trees 1).children, (w'.phases 5).refCount, (w'.trees 1).changed,
          (w'.trees 0).changed, FrameTree.getChild w' 1 1))
      = some ([4, 5], 1, true, true, some 5) ∧
    ∃ w', FrameTree.addChild 3 exWorld 1 5 = some w' ∧
      (w'.phases 5).refCount = (exWorld.phases 5).refCount + 1 ∧
      (∀ q, q ≠ 5 → w'.phases q = exWorld.phases q) ∧
      (w'.trees 1).children = (exWorld.trees 1).children ++ [5] ∧
      FrameTree.childCount w' 1 = FrameTree.childCount exWorld 1 + 1 ∧
      FrameTree.getChild w' 1 (FrameTree.childCount exWorld 1) = some 5 ∧
      (∀ i, i < FrameTree.childCount exWorld 1 →
        FrameTree.getChild w' 1 i = FrameTree.getChild exWorld 1 i) ∧
      (∀ t', t' ≠ 1 → (w'.trees t').children = (exWorld.trees t').children) ∧
      (w'.trees 1).changed = true :=
  ⟨by decide, addChild_appends 3 exWorld 1 5 (by decide)⟩

/-! ## `FrameTree::markChanged` reaches the ancestors -/

/-- A property that every round of a loop keeps holds after the loop. -/
theorem foldlM_invariant {α β : Type} (f : β → α → Option β) (Inv : β → Prop)
    (l : List α) (hstep : ∀ b a b', a ∈ l → Inv b → f b a = some b' → Inv b')
    (b b' : β) (hb : Inv b) (h : l.foldlM f b = some b') : Inv b' := by
  induction l generalizing b with
  | nil =>
    simp only [List.foldlM_nil, Option.pure_def, Option.some.injEq] at h
    exact h ▸ hb
  | cons a as ih =>
    rw [List.foldlM_cons] at h
    cases hfa : f b a with
    | none => rw [hfa] at h; cases h
    | some b₁ =>
      rw [hfa] at h
      exact ih (fun b a' b' ha' => hstep b a' b' (List.mem_cons_of_mem _ ha')) b₁
        (hstep b a b₁ (List.mem_cons_self _ _) hb hfa) h

theorem parents_of_grows {w w' : World n} (h : FlagsGrow w w') (t : Fin n) :
    w'.parents t = w.parents t := by
  simp only [World.parents, h.bodyParent t, h.bodies, h.timelines, h.phases]

theorem ancestor_of_grows {w w' : World n} (h : FlagsGrow w w') (t a : Fin n) :
    w'.Ancestor t a ↔ w.Ancestor t a := by
  have hrel : (fun x y => y ∈ w'.parents x) = (fun x y => y ∈ w.parents x) := by
    funext x y; rw [parents_of_grows h]
  simp only [World.Ancestor, hrel]

/-- The run without the record is the run with the record, forgetting it. -/
theorem markChangedLog_fst (fuel : Nat) (w : World n) (t : Fin n) :
    (FrameTree.markChangedLog fuel w t).map Prod.fst = FrameTree.markChanged fuel w t := by
  induction fuel generalizing w t with
  | zero => rfl
  | succ fuel ih =>
    unfold FrameTree.markChangedLog FrameTree.markChanged
    split
    · rfl
    · split
      · unfold Body.markChangedWith
        split
        · unfold Timeline.markChangedWith
          generalize ((w.setChanged t true).timelines _).phases = l
          generalize w.setChanged t true = a
          generalize ([t] : List (Fin n)) = lg
          induction l generalizing a lg with
          | nil => rfl
          | cons p ps ihl =>
            rw [List.foldlM_cons, List.foldlM_cons]
            have := ih a (a.phases p).frameTree
            cases hlog : FrameTree.markChangedLog fuel a (a.phases p).frameTree with
            | none =>
              rw [hlog] at this
              simp only [Option.map_none'] at this
              rw [← this]; rfl
            | some r =>
              rw [hlog] at this
              simp only [Option.map_some'] at this
              rw [← this]
              exact ihl r.1 (lg ++ r.2)
        · rfl
      · rfl

theorem changed_false_of_grows {w w' : World n} (h : FlagsGrow w w') {t : Fin n}
    (ht : (w'.trees t).changed = false) : (w.trees t).changed = false := by
  cases hc : (w.trees t).changed with
  | false => rfl
  | true => rw [h.changed t hc] at ht; cases ht

theorem setChanged_other (w : World n) {t y : Fin n} (h : y ≠ t) :
    (w.setChanged t true).trees y = w.trees y := by
  simp [World.setChanged, Function.update_noteq h]

/-- The record of a run holds, once each, the trees whose flag went from clear
to set. -/
theorem markChangedLog_spec (fuel : Nat) (w : World n) (t : Fin n) (w' : World n)
    (log : List (Fin n)) (h : FrameTree.markChangedLog fuel w t = some (w', log)) :
    FlagsGrow w w' ∧ log.Nodup ∧
      ∀ y, y ∈ log ↔ ((w.trees y).changed = false ∧ (w'.trees y).changed = true) := by
  induction fuel generalizing w t w' log with
  | zero => simp [FrameTree.markChangedLog] at h
  | succ fuel ih =>
    have hone : ∀ hc : (w.trees t).changed = false,
        FlagsGrow w (w.setChanged t true) ∧ ([t] : List (Fin n)).Nodup ∧
        ∀ y, y ∈ ([t] : List (Fin n)) ↔
          ((w.trees y).changed = false ∧ ((w.setChanged t true).trees y).changed = true) := by
      intro hc
      refine ⟨setChanged_grows w t, List.nodup_singleton t, fun y => ?_⟩
      by_cases hy : y = t
      · subst hy; simp [hc, setChanged_changed]
      · rw [setChanged_other w hy]
        simp only [List.mem_singleton, hy, false_iff, not_and]
        intro h₁ h₂; rw [h₁] at h₂; cases h₂
    unfold FrameTree.markChangedLog at h
    split at h
    · rename_i hc
      simp only [Option.some.injEq, Prod.mk.injEq] at h
      obtain ⟨rfl, rfl⟩ := h
      refine ⟨FlagsGrow.refl w, List.nodup_nil, fun y => ?_⟩
      simp only [List.not_mem_nil, false_iff, not_and]
      intro h₁ h₂; rw [h₁] at h₂; cases h₂
    · rename_i hc
      have hc' : (w.trees t).changed = false := by simpa using hc
      split at h
      · split at h
        · have hinv := foldlM_invariant _
            (fun acc : World n × List (Fin n) => FlagsGrow w acc.1 ∧ acc.2.Nodup ∧
              ∀ y, y ∈ acc.2 ↔ ((w.trees y).changed = false ∧ (acc.1.trees y).changed = true))
            _ ?_ _ _ (hone hc') h
          · exact hinv
          · intro acc p acc' _ hacc hstep
            obtain ⟨hg, hnd, hmem⟩ := hacc
            simp only [Option.map_eq_some'] at hstep
            obtain ⟨r, hr, rfl⟩ := hstep
            obtain ⟨hg', hnd', hmem'⟩ := ih _ _ r.1 r.2 hr
            refine ⟨hg.trans hg', ?_, fun y => ?_⟩
            · refine List.Nodup.append hnd hnd' ?_
              intro y hy₁ hy₂
              have h₁ := ((hmem y).mp hy₁).2
              have h₂ := ((hmem' y).mp hy₂).1
              rw [h₁] at h₂; cases h₂
            · rw [List.mem_append, hmem y, hmem' y]
              constructor
              · rintro (⟨h₁, h₂⟩ | ⟨h₁, h₂⟩)
                · exact ⟨h₁, hg'.changed y h₂⟩
                · exact ⟨changed_false_of_grows hg h₁, h₂⟩
              · rintro ⟨h₁, h₂⟩
                cases hacc : (acc.1.trees y).changed with
                | true => exact Or.inl ⟨h₁, rfl⟩
                | false => exact Or.inr ⟨rfl, h₂⟩
        · simp only [Option.some.injEq, Prod.mk.injEq] at h
          obtain ⟨rfl, rfl⟩ := h
          exact hone hc'
      · simp only [Option.some.injEq, Prod.mk.injEq] at h
        obtain ⟨rfl, rfl⟩ := h
        exact hone hc'

/-- After the loop of `Timeline::markChanged` the owning tree of every phase
of the loop is dirty. -/
theorem foldlM_sets (fuel : Nat) (l : List PhasePtr) (w w' : World n)
    (h : l.foldlM (fun acc phase => FrameTree.markChanged fuel acc (acc.phases phase).frameTree) w
      = some w') :
    ∀ p ∈ l, (w'.trees (w.phases p).frameTree).changed = true := by
  induction l generalizing w with
  | nil => intro p hp; cases hp
  | cons q qs ih =>
    rw [List.foldlM_cons] at h
    cases hstep : FrameTree.markChanged fuel w (w.phases q).frameTree with
    | none => rw [hstep] at h; cases h
    | some w₁ =>
      rw [hstep] at h
      have hg₁ := markChanged_grows _ _ _ _ hstep
      have hg₂ := foldlM_grows _ (markChanged_grows fuel) _ _ _ h
      intro p hp
      rcases List.mem_cons.mp hp with rfl | hp
      · exact hg₂.changed _ (markChanged_sets _ _ _ _ hstep)
      · have := ih w₁ h p hp
        rwa [hg₁.phases] at this

/-- When a run sets the flag of a tree, it sets the flags of the parents of the
tree. -/
theorem markChanged_closed (fuel : Nat) (w : World n) (t : Fin n) (w' : World n)
    (h : FrameTree.markChanged fuel w t = some w') :
    ∀ y, (w.trees y).changed = false → (w'.trees y).changed = true →
      ∀ z ∈ w.parents y, (w'.trees z).changed = true := by
  induction fuel generalizing w t w' with
  | zero => simp [FrameTree.markChanged] at h
  | succ fuel ih =>
    unfold FrameTree.markChanged at h
    split at h
    · cases h
      intro y h₁ h₂; rw [h₁] at h₂; cases h₂
    · rename_i hc
      have hnew : ∀ y, (w.trees y).changed = false →
          ((w.setChanged t true).trees y).changed = true → y = t := by
        intro y h₁ h₂
        by_contra hy
        rw [setChanged_other w hy, h₁] at h₂; cases h₂
      split at h
      · rename_i b hb
        unfold Body.markChangedWith at h
        split at h
        · rename_i tl htl
          unfold Timeline.markChangedWith at h
          have hg := foldlM_grows _ (markChanged_grows fuel) _ _ _ h
          have hinv := foldlM_invariant _
            (fun acc : World n => FlagsGrow (w.setChanged t true) acc ∧
              ∀ y, ((w.setChanged t true).trees y).changed = false →
                (acc.trees y).changed = true → ∀ z ∈ w.parents y, (acc.trees z).changed = true)
            _ ?_ _ _ ⟨FlagsGrow.refl _, fun y h₁ h₂ => by rw [h₁] at h₂; cases h₂⟩ h
          · intro y hy₁ hy₂ z hz
            by_cases hyt : y = t
            · subst hyt
              have hsets := foldlM_sets fuel _ _ _ h
              simp only [World.parents, hb] at hz
              have htl' : (w.bodies b).timeline = some tl := htl
              simp only [htl', List.mem_map] at hz
              obtain ⟨p, hp, rfl⟩ := hz
              exact hsets p hp
            · refine hinv.2 y ?_ hy₂ z hz
              rw [setChanged_other w hyt]; exact hy₁
          · intro acc p acc' _ hacc hstep
            obtain ⟨hga, hcl⟩ := hacc
            have hg' := markChanged_grows _ _ _ _ hstep
            refine ⟨hga.trans hg', fun y hy₁ hy₂ z hz => ?_⟩
            cases hay : (acc.trees y).changed with
            | true => exact hg'.changed z (hcl y hy₁ hay z hz)
            | false =>
              refine ih _ _ _ hstep y hay hy₂ z ?_
              rw [parents_of_grows hga, parents_of_grows (setChanged_grows w t)]
              exact hz
        · cases h
          intro y hy₁ hy₂ z hz
          have := hnew y hy₁ hy₂
          subst this
          have htl' : (w.bodies b).timeline = none := by assumption
          simp [World.parents, hb, htl'] at hz
      · rename_i hb
        cases h
        intro y hy₁ hy₂ z hz
        have := hnew y hy₁ hy₂
        subst this
        simp [World.parents, hb] at hz

/-- A run sets flags only at the tree it is called on and at its ancestors. -/
theorem markChanged_within (fuel : Nat) (w : World n) (t : Fin n) (w' : World n)
    (h : FrameTree.markChanged fuel w t = some w') :
    ∀ y, (w'.trees y).changed = true → (w.trees y).changed = true ∨ w.Ancestor t y := by
  induction fuel generalizing w t w' with
  | zero => simp [FrameTree.markChanged] at h
  | succ fuel ih =>
    have hone : ∀ y, ((w.setChanged t true).trees y).changed = true →
        (w.trees y).changed = true ∨ w.Ancestor t y := by
      intro y hy
      by_cases hyt : y = t
      · subst hyt; exact Or.inr Relation.ReflTransGen.refl
      · rw [setChanged_other w hyt] at hy; exact Or.inl hy
    unfold FrameTree.markChanged at h
    split at h
    · cases h; exact fun y hy => Or.inl hy
    · split at h
      · rename_i b hb
        unfold Body.markChangedWith at h
        split at h
        · rename_i tl htl
          unfold Timeline.markChangedWith at h
          have htl' : (w.bodies b).timeline = some tl := htl
          refine foldlM_invariant _
            (fun acc : World n => FlagsGrow (w.setChanged t true) acc ∧
              ∀ y, (acc.trees y).changed = true → (w.trees y).changed = true ∨ w.Ancestor t y)
            _ ?_ _ _ ⟨FlagsGrow.refl _, hone⟩ h |>.2
          intro acc p acc' hp hacc hstep
          obtain ⟨hga, hin⟩ := hacc
          have hg' := markChanged_grows _ _ _ _ hstep
          refine ⟨hga.trans hg', fun y hy => ?_⟩
          rcases ih _ _ _ hstep y hy with hy' | hy'
          · exact hin y hy'
          · right
            have hgw : FlagsGrow w acc := (setChanged_grows w t).trans hga
            rw [ancestor_of_grows hgw] at hy'
            refine Relation.ReflTransGen.head ?_ hy'
            simp only [World.parents, hb, htl', List.mem_map]
            refine ⟨p, hp, ?_⟩
            rw [hgw.phases]
        · cases h; exact hone
      · cases h; exact hone

/-- C11: in a hierarchy in which no frame tree is dirty, `markChanged` on a
tree returns as soon as the fuel exceeds the number of frame trees; afterwards
a frame tree is dirty exactly when it is the tree itself or one of its
ancestors (the propagation ends at a tree without a body parent, which has no
parent tree); the assignment `m_changed = true` is executed exactly at those
trees and once at each; and nothing but flags changes. -/
theorem markChanged_sets_ancestors (fuel : Nat) (w : World n) (t : Fin n)
    (hclean : ∀ y, (w.trees y).changed = false) (hfuel : n < fuel) :
    ∃ w' log, FrameTree.markChangedLog fuel w t = some (w', log) ∧
      FrameTree.markChanged fuel w t = some w' ∧
      (∀ y, (w'.trees y).changed = true ↔ w.Ancestor t y) ∧
      (∀ y, y ∈ log ↔ w.Ancestor t y) ∧ log.Nodup ∧
      (∀ y, (w.trees y).bodyParent = none → w.parents y = []) ∧
      FlagsGrow w w' := by
  obtain ⟨w', hw'⟩ := markChanged_returns fuel w t (lt_of_le_of_lt (cleanCount_le w) hfuel)
  have hfst := markChangedLog_fst fuel w t
  rw [hw'] at hfst
  cases hlog : FrameTree.markChangedLog fuel w t with
  | none => rw [hlog] at hfst; cases hfst
  | some r =>
    rw [hlog] at hfst
    simp only [Option.map_some', Option.some.injEq] at hfst
    obtain ⟨w'', log⟩ := r
    simp only at hfst
    subst hfst
    obtain ⟨hg, hnd, hmem⟩ := markChangedLog_spec _ _ _ _ _ hlog
    have hiff : ∀ y, (w''.trees y).changed = true ↔ w.Ancestor t y := by
      intro y
      constructor
      · intro hy
        rcases markChanged_within _ _ _ _ hw' y hy with h | h
        · rw [hclean y] at h; cases h
        · exact h
      · intro hy
        induction hy with
        | refl => exact markChanged_sets _ _ _ _ hw'
        | tail _ hstep ihy => exact markChanged_closed _ _ _ _ hw' _ (hclean _) ihy _ hstep
    refine ⟨w'', log, rfl, hw', hiff, fun y => ?_, hnd, fun y hy => ?_, hg⟩
    · rw [hmem y, ← hiff y]
      simp [hclean y]
    · simp [World.parents, hy]

theorem markChanged_sets_ancestors_witness :
    (FrameTree.markChangedLog 3 exWorld 1).map (fun r => r.2) = some [1, 0] ∧
    ∃ w' log, FrameTree.markChangedLog 3 exWorld 1 = some (w', log) ∧
      FrameTree.markChanged 3 exWorld 1 = some w' ∧
      (∀ y, (w'.trees y).changed = true ↔ exWorld.Ancestor 1 y) ∧
      (∀ y, y ∈ log ↔ exWorld.Ancestor 1 y) ∧ log.Nodup ∧
      (∀ y, (exWorld.trees y).bodyParent = none → exWorld.parents y = []) ∧
      FlagsGrow exWorld w' :=
  ⟨by decide, markChanged_sets_ancestors 3 exWorld 1 (by decide) (by decide)⟩

/-- C12: `markChanged` is idempotent.  With fuel above the number of frame
trees the call returns, a second call on the same tree returns the world of
the first call unchanged, and a call on a tree that is already dirty returns
the world it was given: no flag changes anywhere. -/
theorem markChanged_idempotent (fuel : Nat) (w : World n) (t : Fin n) (hfuel : n < fuel) :
    ∃ w', FrameTree.markChanged fuel w t = some w' ∧
      FrameTree.markChanged fuel w' t = some w' ∧
      ((w.trees t).changed = true → w' = w) := by
  obtain ⟨w', hw'⟩ := markChanged_returns fuel w t (lt_of_le_of_lt (cleanCount_le w) hfuel)
  have hdirty : ∀ w₀ : World n, (w₀.trees t).changed = true →
      FrameTree.markChanged fuel w₀ t = some w₀ := by
    intro w₀ h₀
    cases fuel with
    | zero => exact absurd hfuel (Nat.not_lt_zero _)
    | succ k => simp [FrameTree.markChanged, h₀]
  refine ⟨w', hw', hdirty w' (markChanged_sets _ _ _ _ hw'), fun hc => ?_⟩
  rw [hdirty w hc] at hw'
  exact (Option.some.inj hw').symm

theorem markChanged_idempotent_witness :
    (FrameTree.markChanged 3 exWorld 1).map (fun w' => ((w'.trees 0).changed, (w'.trees 1).changed))
      = some (true, true) ∧
    ((FrameTree.markChanged 3 exWorld 1).bind (fun w' => FrameTree.markChanged 3 w' 1)).map
        (fun w' => ((w'.trees 0).changed, (w'.trees 1).changed)) = some (true, true) ∧
    ∃ w', FrameTree.markChanged 3 exWorld 1 = some w' ∧
      FrameTree.markChanged 3 w' 1 = some w' ∧
      ((exWorld.trees 1).changed = true → w' = exWorld) :=
  ⟨by decide, by decide, markChanged_idempotent 3 exWorld 1 (by decide)⟩

/-! ## `FrameTree::recomputeBoundingSphere` settles a dirty tree -/

theorem sameShape_refl (w : World n) : SameShape w w :=
  ⟨rfl, rfl, rfl, fun _ => rfl, fun _ => rfl, fun _ => rfl⟩

theorem setTree_same (w : World n) (t : Fin n) (tr : FrameTree) :
    (w.setTree t tr).trees t = tr := by
  simp [World.setTree]

theorem setTree_other (w : World n) {t y : Fin n} (tr : FrameTree) (h : y ≠ t) :
    (w.setTree t tr).trees y = w.trees y := by
  simp [World.setTree, Function.update_noteq h]

/-- An assignment to aggregates of a tree keeps the shape of the world. -/
theorem sameShape_setTree {w a : World n} (h : SameShape w a) (t : Fin n) (tr : FrameTree)
    (hb : tr.bodyParent = (a.trees t).bodyParent) (hc : tr.children = (a.trees t).children)
    (hd : tr.changed = (a.trees t).changed) : SameShape w (a.setTree t tr) := by
  refine ⟨h.phases, h.timelines, h.bodies, fun y => ?_, fun y => ?_, fun y => ?_⟩
  · by_cases hy : y = t
    · subst hy; rw [setTree_same, hb, h.bodyParent]
    · rw [setTree_other a tr hy, h.bodyParent]
  · by_cases hy : y = t
    · subst hy; rw [setTree_same, hc, h.children]
    · rw [setTree_other a tr hy, h.children]
  · by_cases hy : y = t
    · subst hy; rw [setTree_same, hd, h.changed]
    · rw [setTree_other a tr hy, h.changed]

theorem childTree_of_shape {w a : World n} (h : SameShape w a) (phase : PhasePtr) :
    a.childTree phase = w.childTree phase := by
  simp only [World.childTree, h.bodies, h.phases]

/-- Two trees of the same shape have the same reset members. -/
theorem resetAggregates_congr {tr tr' : FrameTree} (hb : tr'.bodyParent = tr.bodyParent)
    (hc : tr'.children = tr.children) (hd : tr'.changed = tr.changed) :
    tr'.resetAggregates = tr.resetAggregates := by
  cases tr; cases tr'
  simp only [FrameTree.resetAggregates] at *
  simp [hb, hc, hd]

theorem recomputed_clean (fadd : Double → Double → Double) (k : Nat) (w : World n) (t : Fin n)
    (h : (w.trees t).changed = false) : FrameTree.recomputed fadd k w t = w.trees t := by
  cases k with
  | zero => rfl
  | succ k => simp [FrameTree.recomputed, h]

/-- The loop depends on the members of the child trees only. -/
theorem foldChild_congr (fadd : Double → Double → Double) (w : World n)
    (sub sub' : Fin n → FrameTree) (tr : FrameTree) (phase : PhasePtr)
    (h : ∀ tree, w.childTree phase = some tree → sub tree = sub' tree) :
    FrameTree.foldChild fadd w sub tr phase = FrameTree.foldChild fadd w sub' tr phase := by
  unfold FrameTree.foldChild
  cases hct : w.childTree phase with
  | none => rfl
  | some tree => simp only [h tree hct]

/-- The settled members do not depend on the nesting depth, once it exceeds the
rank. -/
theorem recomputed_stable (fadd : Double → Double → Double) (rank : Fin n → Nat) (w : World n)
    (hrank : w.Ranked rank) (k k' : Nat) (t : Fin n) (hk : rank t < k) (hk' : rank t < k') :
    FrameTree.recomputed fadd k w t = FrameTree.recomputed fadd k' w t := by
  induction k generalizing k' t with
  | zero => exact absurd hk (Nat.not_lt_zero _)
  | succ k ih =>
    cases k' with
    | zero => exact absurd hk' (Nat.not_lt_zero _)
    | succ k' =>
      unfold FrameTree.recomputed
      by_cases hc : (w.trees t).changed = true
      · simp only [hc, if_true]
        apply List.foldl_ext
        intro tr phase hphase
        apply foldChild_congr
        intro tree htree
        have hlt := hrank t hc phase hphase tree htree
        exact ih k' tree (by omega) (by omega)
      · have hc' : (w.trees t).changed = false := by simpa using hc
        simp [hc']

theorem settled_clean (fadd : Double → Double → Double) (rank : Fin n → Nat) (w : World n)
    (t : Fin n) (h : (w.trees t).changed = false) :
    FrameTree.settled fadd rank w t = w.trees t :=
  recomputed_clean fadd _ w t h

/-- The settled members of a dirty tree come from the settled members of the
trees of its child bodies. -/
theorem settled_dirty (fadd : Double → Double → Double) (rank : Fin n → Nat) (w : World n)
    (hrank : w.Ranked rank) (t : Fin n) (h : (w.trees t).changed = true) :
    FrameTree.settled fadd rank w t
      = (w.trees t).children.foldl (FrameTree.foldChild fadd w (FrameTree.settled fadd rank w))
          (w.trees t).resetAggregates := by
  unfold FrameTree.settled
  rw [FrameTree.recomputed]
  simp only [h, if_true]
  apply List.foldl_ext
  intro tr phase hphase
  apply foldChild_congr
  intro tree htree
  have hlt := hrank t h phase hphase tree htree
  exact recomputed_stable fadd rank w hrank _ _ tree hlt (Nat.lt_succ_self _)

theorem foldBody_shape (tr : FrameTree) (body : Body n) :
    (tr.foldBody body).bodyParent = tr.bodyParent ∧ (tr.foldBody body).children = tr.children ∧
      (tr.foldBody body).changed = tr.changed :=
  ⟨rfl, rfl, rfl⟩

theorem foldTree_shape (tr sub : FrameTree) :
    (tr.foldTree sub).bodyParent = tr.bodyParent ∧ (tr.foldTree sub).children = tr.children ∧
      (tr.foldTree sub).changed = tr.changed :=
  ⟨rfl, rfl, rfl⟩

theorem foldRadius_shape (tr : FrameTree) (r : Double) :
    (tr.foldRadius r).bodyParent = tr.bodyParent ∧ (tr.foldRadius r).children = tr.children ∧
      (tr.foldRadius r).changed = tr.changed :=
  ⟨rfl, rfl, rfl⟩

/-- One round of the loop of the recomputation of a dirty tree `x`, when the
nested call meets its specification on the tree of the child body. -/
theorem recomputeChild_round (fadd : Double → Double → Double) (rank : Fin n → Nat)
    (w : World n) (recompute : World n → Fin n → Option (World n)) (x : Fin n)
    (phase : PhasePtr)
    (hlow : ∀ tree, w.childTree phase = some tree →
      rank tree < rank x ∧ RecomputeSpec fadd rank w recompute tree)
    (a : World n) (ha : SameShape w a)
    (hooi : ∀ y, rank y < rank x →
      a.trees y = w.trees y ∨ a.trees y = FrameTree.settled fadd rank w y) :
    ∃ a', FrameTree.recomputeChild fadd recompute x a phase = some a' ∧ SameShape w a' ∧
      (∀ y, y ≠ x → rank x ≤ rank y → a'.trees y = a.trees y) ∧
      (∀ y, y ≠ x → a'.trees y = a.trees y ∨ a'.trees y = FrameTree.settled fadd rank w y) ∧
      a'.trees x = FrameTree.foldChild fadd w (FrameTree.settled fadd rank w) (a.trees x) phase ∧
      (∀ tree, w.childTree phase = some tree →
        a'.trees tree = FrameTree.settled fadd rank w tree) := by
  have hb : a.bodies = w.bodies := ha.bodies
  have hp : a.phases = w.phases := ha.phases
  have ha₁ : SameShape w (a.setTree x ((a.trees x).foldBody (w.bodies (w.phases phase).body))) :=
    sameShape_setTree ha x _ rfl rfl rfl
  unfold FrameTree.recomputeChild
  simp only [hb, hp]
  cases hct : w.childTree phase with
  | none =>
    have hct' : (w.bodies (w.phases phase).body).frameTree = none := hct
    simp only [hct']
    refine ⟨_, rfl, ?_, ?_, ?_, ?_, ?_⟩
    · exact sameShape_setTree ha₁ x _ rfl rfl rfl
    · intro y hy _
      rw [setTree_other _ _ hy, setTree_other _ _ hy]
    · intro y hy
      left
      rw [setTree_other _ _ hy, setTree_other _ _ hy]
    · rw [setTree_same, setTree_same]
      simp only [FrameTree.foldChild, hct]
    · intro tree htree; cases htree
  | some ct =>
    have hct' : (w.bodies (w.phases phase).body).frameTree = some ct := hct
    obtain ⟨hlt, hspec⟩ := hlow ct hct
    have hne : ct ≠ x := fun h => by rw [h] at hlt; exact Nat.lt_irrefl _ hlt
    have hooi₁ : ∀ y, rank y < rank ct →
        (a.setTree x ((a.trees x).foldBody (w.bodies (w.phases phase).body))).trees y = w.trees y ∨
        (a.setTree x ((a.trees x).foldBody (w.bodies (w.phases phase).body))).trees y
          = FrameTree.settled fadd rank w y := by
      intro y hy
      have hyx : y ≠ x := fun h => by rw [h] at hy; exact Nat.lt_asymm hy hlt
      rw [setTree_other _ _ hyx]
      exact hooi y (Nat.lt_trans hy hlt)
    obtain ⟨a₂, hrec, ha₂, hframe, hstep, hdirty, -, hclean⟩ := hspec _ ha₁ hooi₁
    have hx₂ : a₂.trees x = (a.trees x).foldBody (w.bodies (w.phases phase).body) := by
      rw [hframe x (Ne.symm hne) (Nat.le_of_lt hlt), setTree_same]
    have hct₂ : a₂.trees ct = FrameTree.settled fadd rank w ct := by
      cases hc : (w.trees ct).changed with
      | true => exact hdirty hc
      | false =>
        rw [hclean hc, setTree_other _ _ hne, settled_clean fadd rank w ct hc]
        rcases hooi ct hlt with h | h
        · exact h
        · rw [h, settled_clean fadd rank w ct hc]
    simp only [hct', hrec]
    refine ⟨_, rfl, ?_, ?_, ?_, ?_, ?_⟩
    · exact sameShape_setTree
        (sameShape_setTree ha₂ x ((a₂.trees x).foldTree (a₂.trees ct)) rfl rfl rfl) x _
        rfl rfl rfl
    · intro y hy hle
      rw [setTree_other _ _ hy, setTree_other _ _ hy]
      have hyc : y ≠ ct := fun h => by rw [h] at hle; exact Nat.lt_irrefl _ (Nat.lt_of_lt_of_le hlt hle)
      rw [hframe y hyc (Nat.le_trans (Nat.le_of_lt hlt) hle), setTree_other _ _ hy]
    · intro y hy
      rw [setTree_other _ _ hy, setTree_other _ _ hy]
      by_cases hyc : y = ct
      · right; rw [hyc]; exact hct₂
      · rcases hstep y hyc with h | h
        · left; rw [h, setTree_other _ _ hy]
        · right; exact h
    · rw [setTree_same, setTree_same, hx₂, hct₂]
      simp only [FrameTree.foldChild, hct]
    · intro tree htree
      have : tree = ct := (Option.some.inj htree).symm
      subst this
      rw [setTree_other _ _ hne, setTree_other _ _ hne]
      exact hct₂

/-- The loop of the recomputation of a dirty tree `x` over the children `l`,
when the nested calls meet their specification. -/
theorem recomputeChild_loop (fadd : Double → Double → Double) (rank : Fin n → Nat)
    (w : World n) (recompute : World n → Fin n → Option (World n)) (x : Fin n)
    (l : List PhasePtr)
    (hlow : ∀ phase ∈ l, ∀ tree, w.childTree phase = some tree →
      rank tree < rank x ∧ RecomputeSpec fadd rank w recompute tree)
    (a : World n) (ha : SameShape w a)
    (hooi : ∀ y, rank y < rank x →
      a.trees y = w.trees y ∨ a.trees y = FrameTree.settled fadd rank w y) :
    ∃ a', l.foldlM (FrameTree.recomputeChild fadd recompute x) a = some a' ∧ SameShape w a' ∧
      (∀ y, y ≠ x → rank x ≤ rank y → a'.trees y = a.trees y) ∧
      (∀ y, y ≠ x → a'.trees y = a.trees y ∨ a'.trees y = FrameTree.settled fadd rank w y) ∧
      a'.trees x
        = l.foldl (FrameTree.foldChild fadd w (FrameTree.settled fadd rank w)) (a.trees x) ∧
      (∀ phase ∈ l, ∀ tree, w.childTree phase = some tree →
        a'.trees tree = FrameTree.settled fadd rank w tree) := by
  induction l generalizing a with
  | nil =>
    exact ⟨a, rfl, ha, fun _ _ _ => rfl, fun _ _ => Or.inl rfl, rfl,
      fun _ hp => absurd hp (List.not_mem_nil _)⟩
  | cons p ps ih =>
    obtain ⟨a₁, hround, ha₁, hframe₁, hstep₁, hx₁, hct₁⟩ :=
      recomputeChild_round fadd rank w recompute x p (hlow p (List.mem_cons_self _ _)) a ha hooi
    have hooi₁ : ∀ y, rank y < rank x →
        a₁.trees y = w.trees y ∨ a₁.trees y = FrameTree.settled fadd rank w y := by
      intro y hy
      have hyx : y ≠ x := fun h => by rw [h] at hy; exact Nat.lt_irrefl _ hy
      rcases hstep₁ y hyx with h | h
      · rw [h]; exact hooi y hy
      · exact Or.inr h
    obtain ⟨a', hloop, ha', hframe, hstep, hx, hct⟩ :=
      ih (fun phase hphase => hlow phase (List.mem_cons_of_mem _ hphase)) a₁ ha₁ hooi₁
    refine ⟨a', ?_, ha', ?_, ?_, ?_, ?_⟩
    · rw [List.foldlM_cons, hround]; exact hloop
    · intro y hy hle
      rw [hframe y hy hle, hframe₁ y hy hle]
    · intro y hy
      rcases hstep y hy with h | h
      · rcases hstep₁ y hy with h₁ | h₁
        · left; rw [h, h₁]
        · right; rw [h, h₁]
      · exact Or.inr h
    · rw [hx, hx₁, List.foldl_cons]
    · intro phase hphase tree htree
      rcases List.mem_cons.mp hphase with rfl | hphase
      · have hlt := (hlow phase (List.mem_cons_self _ _) tree htree).1
        have hne : tree ≠ x := fun h => by rw [h] at hlt; exact Nat.lt_irrefl _ hlt
        rcases hstep tree hne with h | h
        · rw [h]; exact hct₁ tree htree
        · exact h
      · exact hct phase hphase tree htree

/-- With fuel above the rank of the tree, `recomputeBoundingSphere` meets its
specification. -/
theorem recompute_meets_spec (fadd : Double → Double → Double) (rank : Fin n → Nat)
    (w : World n) (hrank : w.Ranked rank) (fuel : Nat) (x : Fin n) (hfuel : rank x < fuel) :
    RecomputeSpec fadd rank w (FrameTree.recomputeBoundingSphere fadd fuel) x := by
  induction fuel generalizing x with
  | zero => exact absurd hfuel (Nat.not_lt_zero _)
  | succ fuel ih =>
    intro s hs hooi
    unfold FrameTree.recomputeBoundingSphere
    by_cases hc : (w.trees x).changed = true
    · have hsc : (s.trees x).changed = true := by rw [hs.changed x]; exact hc
      simp only [hsc, if_true]
      rw [hs.children x]
      have hs₀ : SameShape w (s.setTree x (s.trees x).resetAggregates) :=
        sameShape_setTree hs x _ rfl rfl rfl
      have hooi₀ : ∀ y, rank y < rank x →
          (s.setTree x (s.trees x).resetAggregates).trees y = w.trees y ∨
          (s.setTree x (s.trees x).resetAggregates).trees y
            = FrameTree.settled fadd rank w y := by
        intro y hy
        have hyx : y ≠ x := fun h => by rw [h] at hy; exact Nat.lt_irrefl _ hy
        rw [setTree_other _ _ hyx]; exact hooi y hy
      have hlow : ∀ phase ∈ (w.trees x).children, ∀ tree, w.childTree phase = some tree →
          rank tree < rank x ∧
          RecomputeSpec fadd rank w (FrameTree.recomputeBoundingSphere fadd fuel) tree := by
        intro phase hphase tree htree
        have hlt := hrank x hc phase hphase tree htree
        exact ⟨hlt, ih tree (by omega)⟩
      obtain ⟨a', hloop, ha', hframe, hstep, hx, hct⟩ :=
        recomputeChild_loop fadd rank w _ x _ hlow _ hs₀ hooi₀
      refine ⟨a', hloop, ha', ?_, ?_, ?_, ?_, ?_⟩
      · intro y hy hle
        rw [hframe y hy hle, setTree_other _ _ hy]
      · intro y hy
        rcases hstep y hy with h | h
        · left; rw [h, setTree_other _ _ hy]
        · exact Or.inr h
      · intro _
        rw [hx, setTree_same, settled_dirty fadd rank w hrank x hc,
          resetAggregates_congr (hs.bodyParent x) (hs.children x) (hs.changed x)]
      · intro _; exact hct
      · intro hcl; rw [hc] at hcl; cases hcl
    · have hc' : (w.trees x).changed = false := by simpa using hc
      have hsc : (s.trees x).changed = false := by rw [hs.changed x]; exact hc'
      simp only [hsc, Bool.false_eq_true, if_false]
      refine ⟨s, rfl, hs, fun _ _ _ => rfl, fun _ _ => Or.inl rfl, ?_, ?_, fun _ => rfl⟩
      · intro h; rw [hc'] at h; cases h
      · intro h; rw [hc'] at h; cases h

theorem foldChild_of_shape (fadd : Double → Double → Double) {w a : World n}
    (h : SameShape w a) : FrameTree.foldChild fadd a = FrameTree.foldChild fadd w := by
  funext sub tr phase
  simp only [FrameTree.foldChild, World.childTree, h.bodies, h.phases]

/-- The recomputation of a dirty tree of a ranked hierarchy returns once the
fuel exceeds the rank of the tree.  The world it returns has the shape of the
one it was given; the tree holds what the loop over its children yields from
the reset members and from the members that the child trees hold afterwards;
and every tree holds its former or its settled members. -/
theorem recompute_settles (fadd : Double → Double → Double) (rank : Fin n → Nat)
    (w : World n) (hrank : w.Ranked rank) (fuel : Nat) (t : Fin n) (hfuel : rank t < fuel)
    (hdirty : (w.trees t).changed = true) :
    ∃ w', FrameTree.recomputeBoundingSphere fadd fuel w t = some w' ∧ SameShape w w' ∧
      w'.trees t = (w'.trees t).children.foldl
        (FrameTree.foldChild fadd w' (fun y => w'.trees y)) (w'.trees t).resetAggregates ∧
      (∀ y, w'.trees y = w.trees y ∨ w'.trees y = FrameTree.settled fadd rank w y) := by
  obtain ⟨w', hrec, hshape, -, hstep, hx, hct, -⟩ :=
    recompute_meets_spec fadd rank w hrank fuel t hfuel w (sameShape_refl w)
      (fun _ _ => Or.inl rfl)
  refine ⟨w', hrec, hshape, ?_, ?_⟩
  · rw [hshape.children t, foldChild_of_shape fadd hshape,
      resetAggregates_congr (hshape.bodyParent t) (hshape.children t) (hshape.changed t)]
    conv_lhs => rw [hx hdirty, settled_dirty fadd rank w hrank t hdirty]
    apply List.foldl_ext
    intro tr phase hphase
    apply foldChild_congr
    intro tree htree
    exact (hct hdirty phase hphase tree htree).symm
  · intro y
    by_cases hy : y = t
    · subst hy; exact Or.inr (hx hdirty)
    · exact hstep y hy

/-! ## The aggregates as folds over the children -/

theorem foldChild_radius (fadd : Double → Double → Double) (w : World n) (l : List PhasePtr)
    (tr : FrameTree) :
    (l.foldl (FrameTree.foldChild fadd w (fun y => w.trees y)) tr).boundingSphereRadius
      = (l.map (w.childRadius fadd)).foldl Double.stdMax tr.boundingSphereRadius := by
  induction l generalizing tr with
  | nil => rfl
  | cons p ps ih =>
    rw [List.foldl_cons, ih, List.map_cons, List.foldl_cons]
    congr 1
    unfold FrameTree.foldChild World.childRadius
    cases w.childTree p <;> rfl

theorem foldChild_maxChildRadius (fadd : Double → Double → Double) (w : World n)
    (l : List PhasePtr) (tr : FrameTree) :
    (l.foldl (FrameTree.foldChild fadd w (fun y => w.trees y)) tr).maxChildRadius
      = (l.flatMap w.childBodyRadii).foldl Double.stdMax tr.maxChildRadius := by
  induction l generalizing tr with
  | nil => rfl
  | cons p ps ih =>
    rw [List.foldl_cons, ih, List.flatMap_cons, List.foldl_append]
    congr 1
    unfold FrameTree.foldChild World.childBodyRadii
    cases w.childTree p <;> rfl

theorem foldChild_illuminators (fadd : Double → Double → Double) (w : World n)
    (l : List PhasePtr) (tr : FrameTree) :
    (l.foldl (FrameTree.foldChild fadd w (fun y => w.trees y)) tr).containsSecondaryIlluminators
      = (tr.containsSecondaryIlluminators || l.any w.childIlluminates) := by
  induction l generalizing tr with
  | nil => simp
  | cons p ps ih =>
    rw [List.foldl_cons, ih, List.any_cons, ← Bool.or_assoc]
    congr 1
    unfold FrameTree.foldChild World.childIlluminates
    cases w.childTree p
    · rfl
    · simp [FrameTree.foldRadius, FrameTree.foldTree, FrameTree.foldBody, Bool.or_assoc]

theorem foldChild_classMask (fadd : Double → Double → Double) (w : World n)
    (l : List PhasePtr) (tr : FrameTree) :
    (l.foldl (FrameTree.foldChild fadd w (fun y => w.trees y)) tr).childClassMask
      = l.foldl (fun acc phase => acc ||| w.childClasses phase) tr.childClassMask := by
  induction l generalizing tr with
  | nil => rfl
  | cons p ps ih =>
    rw [List.foldl_cons, ih, List.foldl_cons]
    congr 1
    unfold FrameTree.foldChild World.childClasses
    cases w.childTree p
    · rfl
    · simp [FrameTree.foldRadius, FrameTree.foldTree, FrameTree.foldBody, Nat.lor_assoc]

/-- The left fold of `std::max` from a value that is no NaN is a maximum: it is
no NaN, it is at least the start value and at least every value of the list
that is no NaN, and it is the start value or a value of the list. -/
theorem foldl_stdMax_spec (l : List Double) (a : Double) (ha : a ≠ Double.nan) :
    l.foldl Double.stdMax a ≠ Double.nan ∧
    Double.le a (l.foldl Double.stdMax a) = true ∧
    (∀ x ∈ l, x ≠ Double.nan → Double.le x (l.foldl Double.stdMax a) = true) ∧
    (l.foldl Double.stdMax a = a ∨ l.foldl Double.stdMax a ∈ l) := by
  induction l generalizing a with
  | nil =>
    exact ⟨ha, Double.le_refl ha, fun _ hx => absurd hx (List.not_mem_nil _), Or.inl rfl⟩
  | cons b bs ih =>
    rw [List.foldl_cons]
    by_cases hlt : Double.lt a b = true
    · have hmax : Double.stdMax a b = b := by simp [Double.stdMax, hlt]
      rw [hmax]
      obtain ⟨h₁, h₂, h₃, h₄⟩ := ih b (Double.lt_ne_nan hlt).2
      refine ⟨h₁, Double.le_trans (Double.le_of_lt hlt) h₂, ?_, ?_⟩
      · intro x hx hxn
        rcases List.mem_cons.mp hx with rfl | hx
        · exact h₂
        · exact h₃ x hx hxn
      · rcases h₄ with h | h
        · exact Or.inr (by rw [h]; exact List.mem_cons_self _ _)
        · exact Or.inr (List.mem_cons_of_mem _ h)
    · have hlt' : Double.lt a b = false := by simpa using hlt
      have hmax : Double.stdMax a b = a := by simp [Double.stdMax, hlt']
      rw [hmax]
      obtain ⟨h₁, h₂, h₃, h₄⟩ := ih a ha
      refine ⟨h₁, h₂, ?_, ?_⟩
      · intro x hx hxn
        rcases List.mem_cons.mp hx with rfl | hx
        · exact Double.le_trans (Double.le_of_not_lt ha hxn hlt') h₂
        · exact h₃ x hx hxn
      · rcases h₄ with h | h
        · exact Or.inl h
        · exact Or.inr (List.mem_cons_of_mem _ h)

theorem stdMax_nonneg {a r : Double} (h : Double.le (.finite 0) a = true) :
    Double.le (.finite 0) (Double.stdMax a r) = true := by
  unfold Double.stdMax
  by_cases hlt : Double.lt a r = true
  · simp only [hlt, if_true]
    exact Double.le_of_lt (Double.lt_of_le_of_lt h hlt)
  · simp only [hlt, if_false]
    exact h

theorem foldChild_radius_nonneg (fadd : Double → Double → Double) (w : World n)
    (sub : Fin n → FrameTree) (l : List PhasePtr) (tr : FrameTree)
    (h : Double.le (.finite 0) tr.boundingSphereRadius = true) :
    Double.le (.finite 0)
      (l.foldl (FrameTree.foldChild fadd w sub) tr).boundingSphereRadius = true := by
  induction l generalizing tr with
  | nil => exact h
  | cons p ps ih =>
    rw [List.foldl_cons]
    apply ih
    unfold FrameTree.foldChild
    cases w.childTree p <;> exact stdMax_nonneg h

/-- Settled bounding sphere radii are not negative when the stored ones are
not. -/
theorem settled_radius_nonneg (fadd : Double → Double → Double) (rank : Fin n → Nat)
    (w : World n) (hrank : w.Ranked rank)
    (hstored : ∀ y, Double.le (.finite 0) (w.trees y).boundingSphereRadius = true) (y : Fin n) :
    Double.le (.finite 0) (FrameTree.settled fadd rank w y).boundingSphereRadius = true := by
  cases hc : (w.trees y).changed with
  | false => rw [settled_clean fadd rank w y hc]; exact hstored y
  | true =>
    rw [settled_dirty fadd rank w hrank y hc]
    have h₀ : Double.le (.finite 0) (w.trees y).resetAggregates.boundingSphereRadius = true :=
      Double.le_refl (by simp [FrameTree.resetAggregates])
    exact foldChild_radius_nonneg fadd w _ _ _ h₀

/-! ## `FrameTree::recomputeBoundingSphere` -/

/-- C13: on a frame tree whose dirty flag is clear `recomputeBoundingSphere`
returns at once and changes nothing: the world is the one before the call, so
the four aggregates of this tree and of every other tree, the descendants among
them, are what they were, whatever the children are. -/
theorem recompute_clean_noop (fadd : Double → Double → Double) (fuel : Nat) (w : World n)
    (t : Fin n) (hclean : (w.trees t).changed = false) (hfuel : 0 < fuel) :
    ∃ w', FrameTree.recomputeBoundingSphere fadd fuel w t = some w' ∧ w' = w ∧
      ∀ y, (w'.trees y).boundingSphereRadius = (w.trees y).boundingSphereRadius ∧
        (w'.trees y).maxChildRadius = (w.trees y).maxChildRadius ∧
        (w'.trees y).containsSecondaryIlluminators = (w.trees y).containsSecondaryIlluminators ∧
        (w'.trees y).childClassMask = (w.trees y).childClassMask := by
  cases fuel with
  | zero => exact absurd hfuel (Nat.lt_irrefl _)
  | succ k =>
    refine ⟨w, ?_, rfl, fun y => ⟨rfl, rfl, rfl, rfl⟩⟩
    simp [FrameTree.recomputeBoundingSphere, hclean]

theorem recompute_clean_noop_witness :
    (exSystem.trees 2).changed = false ∧
    ∃ w', FrameTree.recomputeBoundingSphere Double.addExact 1 exSystem 2 = some w' ∧
      w' = exSystem ∧
      ∀ y, (w'.trees y).boundingSphereRadius = (exSystem.trees y).boundingSphereRadius ∧
        (w'.trees y).maxChildRadius = (exSystem.trees y).maxChildRadius ∧
        (w'.trees y).containsSecondaryIlluminators
          = (exSystem.trees y).containsSecondaryIlluminators ∧
        (w'.trees y).childClassMask = (exSystem.trees y).childClassMask :=
  ⟨by decide, recompute_clean_noop Double.addExact 1 exSystem 2 (by decide) (by decide)⟩

/-- C14: the recomputation of a dirty frame tree of a ranked hierarchy returns
once the fuel exceeds the rank of the tree, and afterwards its bounding sphere
radius is the fold of `std::max`, from 0, over the radii of its child phases,
the radius of a child being culling radius + orbit bounding radius, plus the
bounding sphere radius of the frame tree of the child body when it has one.
That fold is a maximum: it is at least 0 and at least every child radius that
is no NaN, and it is 0 or the radius of a child.  When `+` does not go below a
non-negative left operand on adding a non-negative value, and the stored radii
are not negative, it is at least culling radius + orbit bounding radius of
every child for which that sum is not negative. -/
theorem recompute_boundingSphereRadius (fadd : Double → Double → Double)
    (rank : Fin n → Nat) (w : World n) (hrank : w.Ranked rank) (fuel : Nat) (t : Fin n)
    (hfuel : rank t < fuel) (hdirty : (w.trees t).changed = true) :
    ∃ w', FrameTree.recomputeBoundingSphere fadd fuel w t = some w' ∧
      (w'.trees t).boundingSphereRadius
        = ((w'.trees t).children.map (w'.childRadius fadd)).foldl Double.stdMax (.finite 0) ∧
      Double.le (.finite 0) (w'.trees t).boundingSphereRadius = true ∧
      (∀ phase ∈ (w'.trees t).children, w'.childRadius fadd phase ≠ Double.nan →
        Double.le (w'.childRadius fadd phase) (w'.trees t).boundingSphereRadius = true) ∧
      ((w'.trees t).boundingSphereRadius = .finite 0 ∨
        ∃ phase ∈ (w'.trees t).children,
          (w'.trees t).boundingSphereRadius = w'.childRadius fadd phase) ∧
      ((∀ x y, Double.le (.finite 0) x = true → Double.le (.finite 0) y = true →
          Double.le x (fadd x y) = true) →
        (∀ y, Double.le (.finite 0) (w.trees y).boundingSphereRadius = true) →
        ∀ phase ∈ (w'.trees t).children,
          Double.le (.finite 0) (fadd (w'.bodies (w'.phases phase).body).cullingRadius
            (w'.phases phase).orbitBoundingRadius) = true →
          Double.le (fadd (w'.bodies (w'.phases phase).body).cullingRadius
            (w'.phases phase).orbitBoundingRadius) (w'.trees t).boundingSphereRadius = true) := by
  obtain ⟨w', hrec, hshape, hlocal, hall⟩ :=
    recompute_settles fadd rank w hrank fuel t hfuel hdirty
  have hfold : (w'.trees t).boundingSphereRadius
      = ((w'.trees t).children.map (w'.childRadius fadd)).foldl Double.stdMax (.finite 0) := by
    conv_lhs => rw [hlocal]
    rw [foldChild_radius]; rfl
  obtain ⟨-, h₂, h₃, h₄⟩ := foldl_stdMax_spec
    ((w'.trees t).children.map (w'.childRadius fadd)) (.finite 0) (by decide)
  rw [← hfold] at h₂ h₃ h₄
  have hchild : ∀ phase ∈ (w'.trees t).children, w'.childRadius fadd phase ≠ Double.nan →
      Double.le (w'.childRadius fadd phase) (w'.trees t).boundingSphereRadius = true :=
    fun phase hphase hn => h₃ _ (List.mem_map_of_mem _ hphase) hn
  refine ⟨w', hrec, hfold, h₂, hchild, ?_, ?_⟩
  · rcases h₄ with h | h
    · exact Or.inl h
    · obtain ⟨phase, hphase, heq⟩ := List.mem_map.mp h
      exact Or.inr ⟨phase, hphase, heq.symm⟩
  · intro hadd hstored phase hphase hsum
    have hnonneg : ∀ y, Double.le (.finite 0) (w'.trees y).boundingSphereRadius = true := by
      intro y
      rcases hall y with h | h
      · rw [h]; exact hstored y
      · rw [h]; exact settled_radius_nonneg fadd rank w hrank hstored y
    have hle : Double.le (fadd (w'.bodies (w'.phases phase).body).cullingRadius
        (w'.phases phase).orbitBoundingRadius) (w'.childRadius fadd phase) = true := by
      unfold World.childRadius
      cases w'.childTree phase with
      | none => exact Double.le_refl (Double.le_ne_nan hsum).2
      | some tree => exact hadd _ _ hsum (hnonneg tree)
    exact Double.le_trans hle (hchild phase hphase (Double.le_ne_nan hle).2)

theorem addExact_finite (a b : ℚ) :
    Double.addExact (.finite a) (.finite b) = .finite (a + b) := by
  simp only [Double.addExact]
  by_cases h : a.den = 1 ∧ b.den = 1
  · have ha : ((a.num : ℤ) : ℚ) = a := Rat.den_eq_one_iff a |>.mp h.1
    have hb : ((b.num : ℤ) : ℚ) = b := Rat.den_eq_one_iff b |>.mp h.2
    rw [if_pos h, Int.cast_add, ha, hb]
  · rw [if_neg h]

/-- The exact sum does not go below a non-negative left operand on adding a
non-negative value. -/
theorem addExact_mono (x y : Double) (hx : Double.le (.finite 0) x = true)
    (hy : Double.le (.finite 0) y = true) : Double.le x (Double.addExact x y) = true := by
  cases x <;> cases y <;> simp [Double.le, Double.lt, Double.eq] at hx hy
  · rw [addExact_finite]
    simp only [Double.le, Double.lt, Double.eq, Bool.or_eq_true, decide_eq_true_eq,
      Double.finite.injEq]
    rename_i a b
    have ha : (0 : ℚ) ≤ a := by rcases hx with h | h; exact h.le; exact h.le
    have hb : (0 : ℚ) ≤ b := by rcases hy with h | h; exact h.le; exact h.le
    rcases hb.lt_or_eq with h | h
    · left; linarith
    · right; rw [← h]; simp
  · simp [Double.addExact, Double.le, Double.lt, Double.eq]
  · simp [Double.addExact, Double.le, Double.lt, Double.eq]
  · simp [Double.addExact, Double.le, Double.lt, Double.eq]

theorem recompute_boundingSphereRadius_witness :
    (FrameTree.recomputeBoundingSphere Double.addExact 2 exSystem 0).map
        (fun w' => ((w'.trees 0).boundingSphereRadius, (w'.trees 1).boundingSphereRadius,
          (w'.trees 2).boundingSphereRadius)) = some (.finite 111, .finite 7, .finite 9) ∧
    ∃ w', FrameTree.recomputeBoundingSphere Double.addExact 2 exSystem 0 = some w' ∧
      (w'.trees 0).boundingSphereRadius
        = ((w'.trees 0).children.map (w'.childRadius Double.addExact)).foldl
            Double.stdMax (.finite 0) ∧
      ∀ phase ∈ (w'.trees 0).children,
        Double.le (.finite 0) (Double.addExact (w'.bodies (w'.phases phase).body).cullingRadius
          (w'.phases phase).orbitBoundingRadius) = true →
        Double.le (Double.addExact (w'.bodies (w'.phases phase).body).cullingRadius
          (w'.phases phase).orbitBoundingRadius) (w'.trees 0).boundingSphereRadius = true :=
  ⟨by decide,
    (recompute_boundingSphereRadius Double.addExact exRank exSystem (by decide) 2 0
      (by decide) (by decide)).imp
      (fun _ h => ⟨h.1, h.2.1, h.2.2.2.2.2 addExact_mono (by decide)⟩)⟩

/-- C16: after the recomputation of a dirty frame tree of a ranked hierarchy
(which returns once the fuel exceeds the rank of the tree) its maximum child
radius is the fold of `std::max`, from 0, over the plain radius of the body of
every child phase (`getRadius()`, not the culling radius, no orbit added) and
the maximum child radius of the frame tree of that body when it has one.  That
fold is a maximum: it is at least 0 and at least every such value that is no
NaN, and it is 0 or one of those values. -/
theorem recompute_maxChildRadius (fadd : Double → Double → Double)
    (rank : Fin n → Nat) (w : World n) (hrank : w.Ranked rank) (fuel : Nat) (t : Fin n)
    (hfuel : rank t < fuel) (hdirty : (w.trees t).changed = true) :
    ∃ w', FrameTree.recomputeBoundingSphere fadd fuel w t = some w' ∧
      (w'.trees t).maxChildRadius
        = ((w'.trees t).children.flatMap w'.childBodyRadii).foldl Double.stdMax (.finite 0) ∧
      Double.le (.finite 0) (w'.trees t).maxChildRadius = true ∧
      (∀ phase ∈ (w'.trees t).children,
        ((w'.bodies (w'.phases phase).body).radius ≠ Double.nan →
          Double.le (w'.bodies (w'.phases phase).body).radius
            (w'.trees t).maxChildRadius = true) ∧
        ∀ tree, w'.childTree phase = some tree →
          (w'.trees tree).maxChildRadius ≠ Double.nan →
          Double.le (w'.trees tree).maxChildRadius (w'.trees t).maxChildRadius = true) ∧
      ((w'.trees t).maxChildRadius = .finite 0 ∨
        ∃ phase ∈ (w'.trees t).children,
          (w'.trees t).maxChildRadius = (w'.bodies (w'.phases phase).body).radius ∨
          ∃ tree, w'.childTree phase = some tree ∧
            (w'.trees t).maxChildRadius = (w'.trees tree).maxChildRadius) := by
  obtain ⟨w', hrec, hshape, hlocal, -⟩ :=
    recompute_settles fadd rank w hrank fuel t hfuel hdirty
  have hfold : (w'.trees t).maxChildRadius
      = ((w'.trees t).children.flatMap w'.childBodyRadii).foldl Double.stdMax (.finite 0) := by
    conv_lhs => rw [hlocal]
    rw [foldChild_maxChildRadius]; rfl
  obtain ⟨-, h₂, h₃, h₄⟩ := foldl_stdMax_spec
    ((w'.trees t).children.flatMap w'.childBodyRadii) (.finite 0) (by decide)
  rw [← hfold] at h₂ h₃ h₄
  refine ⟨w', hrec, hfold, h₂, ?_, ?_⟩
  · intro phase hphase
    constructor
    · intro hn
      refine h₃ _ (List.mem_flatMap.mpr ⟨phase, hphase, ?_⟩) hn
      unfold World.childBodyRadii
      cases w'.childTree phase <;> simp
    · intro tree htree hn
      refine h₃ _ (List.mem_flatMap.mpr ⟨phase, hphase, ?_⟩) hn
      unfold World.childBodyRadii
      rw [htree]; simp
  · rcases h₄ with h | h
    · exact Or.inl h
    · obtain ⟨phase, hphase, hmem⟩ := List.mem_flatMap.mp h
      refine Or.inr ⟨phase, hphase, ?_⟩
      unfold World.childBodyRadii at hmem
      cases hct : w'.childTree phase with
      | none =>
        rw [hct] at hmem
        exact Or.inl (by simpa using hmem)
      | some tree =>
        rw [hct] at hmem
        simp only [List.mem_cons, List.mem_singleton, List.not_mem_nil, or_false] at hmem
        rcases hmem with h | h
        · exact Or.inl h
        · exact Or.inr ⟨tree, rfl, h⟩

theorem recompute_maxChildRadius_witness :
    (FrameTree.recomputeBoundingSphere Double.addExact 2 exSystem 0).map
        (fun w' => ((w'.trees 0).maxChildRadius, (w'.trees 1).maxChildRadius,
          (w'.trees 2).maxChildRadius)) = some (.finite 8, .finite 2, .finite 8) ∧
    ∃ w', FrameTree.recomputeBoundingSphere Double.addExact 2 exSystem 0 = some w' ∧
      (w'.trees 0).maxChildRadius
        = ((w'.trees 0).children.flatMap w'.childBodyRadii).foldl Double.stdMax (.finite 0) ∧
      Double.le (.finite 0) (w'.trees 0).maxChildRadius = true :=
  ⟨by decide,
    (recompute_maxChildRadius Double.addExact exRank exSystem (by decide) 2 0
      (by decide) (by decide)).imp (fun _ h => ⟨h.1, h.2.1, h.2.2.1⟩)⟩

/-- C17: after the recomputation of a dirty frame tree of a ranked hierarchy
(which returns once the fuel exceeds the rank of the tree) its flag
`containsSecondaryIlluminators` is the logical OR, over the child phases, of
the illuminator status of the child body and of the flag of the frame tree of
the child body: it is true exactly when some child body is a secondary
illuminator or the frame tree of some child body holds a set flag. -/
theorem recompute_containsSecondaryIlluminators (fadd : Double → Double → Double)
    (rank : Fin n → Nat) (w : World n) (hrank : w.Ranked rank) (fuel : Nat) (t : Fin n)
    (hfuel : rank t < fuel) (hdirty : (w.trees t).changed = true) :
    ∃ w', FrameTree.recomputeBoundingSphere fadd fuel w t = some w' ∧
      (w'.trees t).containsSecondaryIlluminators
        = (w'.trees t).children.any w'.childIlluminates ∧
      ((w'.trees t).containsSecondaryIlluminators = true ↔
        ∃ phase ∈ (w'.trees t).children,
          (w'.bodies (w'.phases phase).body).secondaryIlluminator = true ∨
          ∃ tree, w'.childTree phase = some tree ∧
            (w'.trees tree).containsSecondaryIlluminators = true) := by
  obtain ⟨w', hrec, hshape, hlocal, -⟩ :=
    recompute_settles fadd rank w hrank fuel t hfuel hdirty
  have hfold : (w'.trees t).containsSecondaryIlluminators
      = (w'.trees t).children.any w'.childIlluminates := by
    conv_lhs => rw [hlocal]
    rw [foldChild_illuminators]; simp [FrameTree.resetAggregates]
  refine ⟨w', hrec, hfold, ?_⟩
  rw [hfold, List.any_eq_true]
  constructor
  · rintro ⟨phase, hphase, hill⟩
    refine ⟨phase, hphase, ?_⟩
    unfold World.childIlluminates at hill
    cases hct : w'.childTree phase with
    | none => rw [hct] at hill; exact Or.inl hill
    | some tree =>
      rw [hct] at hill
      rcases Bool.or_eq_true _ _ |>.mp hill with h | h
      · exact Or.inl h
      · exact Or.inr ⟨tree, rfl, h⟩
  · rintro ⟨phase, hphase, hill⟩
    refine ⟨phase, hphase, ?_⟩
    unfold World.childIlluminates
    rcases hill with h | ⟨tree, htree, h⟩
    · cases w'.childTree phase <;> simp [h]
    · rw [htree]; simp [h]

theorem recompute_containsSecondaryIlluminators_witness :
    (FrameTree.recomputeBoundingSphere Double.addExact 2 exSystem 0).map
        (fun w' => ((w'.trees 0).containsSecondaryIlluminators,
          (w'.trees 1).containsSecondaryIlluminators,
          (w'.trees 2).containsSecondaryIlluminators)) = some (true, true, false) ∧
    ∃ w', FrameTree.recomputeBoundingSphere Double.addExact 2 exSystem 0 = some w' ∧
      (w'.trees 0).containsSecondaryIlluminators
        = (w'.trees 0).children.any w'.childIlluminates :=
  ⟨by decide,
    (recompute_containsSecondaryIlluminators Double.addExact exRank exSystem (by decide) 2 0
      (by decide) (by decide)).imp (fun _ h => ⟨h.1, h.2.1⟩)⟩

theorem foldl_lor_testBit (f : PhasePtr → Nat) (l : List PhasePtr) (a i : Nat) :
    (l.foldl (fun acc phase => acc ||| f phase) a).testBit i = true ↔
      a.testBit i = true ∨ ∃ phase ∈ l, (f phase).testBit i = true := by
  induction l generalizing a with
  | nil => simp
  | cons p ps ih =>
    rw [List.foldl_cons, ih, Nat.testBit_or, Bool.or_eq_true]
    simp only [List.mem_cons, exists_eq_or_imp]
    tauto

/-- C18: after the recomputation of a dirty frame tree of a ranked hierarchy
(which returns once the fuel exceeds the rank of the tree) its child class
mask is the bitwise OR, over the child phases, of the classification of the
child body and of the class mask of the frame tree of the child body: a bit is
set in the mask exactly when it is set in the classification of some child body
or in the mask of the frame tree of some child body. -/
theorem recompute_childClassMask (fadd : Double → Double → Double)
    (rank : Fin n → Nat) (w : World n) (hrank : w.Ranked rank) (fuel : Nat) (t : Fin n)
    (hfuel : rank t < fuel) (hdirty : (w.trees t).changed = true) :
    ∃ w', FrameTree.recomputeBoundingSphere fadd fuel w t = some w' ∧
      (w'.trees t).childClassMask
        = (w'.trees t).children.foldl (fun acc phase => acc ||| w'.childClasses phase) 0 ∧
      ∀ i, (w'.trees t).childClassMask.testBit i = true ↔
        ∃ phase ∈ (w'.trees t).children,
          (w'.bodies (w'.phases phase).body).classification.testBit i = true ∨
          ∃ tree, w'.childTree phase = some tree ∧
            (w'.trees tree).childClassMask.testBit i = true := by
  obtain ⟨w', hrec, hshape, hlocal, -⟩ :=
    recompute_settles fadd rank w hrank fuel t hfuel hdirty
  have hfold : (w'.trees t).childClassMask
      = (w'.trees t).children.foldl (fun acc phase => acc ||| w'.childClasses phase) 0 := by
    conv_lhs => rw [hlocal]
    rw [foldChild_classMask]; rfl
  refine ⟨w', hrec, hfold, fun i => ?_⟩
  rw [hfold, foldl_lor_testBit]
  simp only [Nat.zero_testBit, Bool.false_eq_true, false_or]
  constructor
  · rintro ⟨phase, hphase, hbit⟩
    refine ⟨phase, hphase, ?_⟩
    unfold World.childClasses at hbit
    cases hct : w'.childTree phase with
    | none => rw [hct] at hbit; exact Or.inl hbit
    | some tree =>
      rw [hct] at hbit
      simp only [Nat.testBit_or, Bool.or_eq_true] at hbit
      rcases hbit with h | h
      · exact Or.inl h
      · exact Or.inr ⟨tree, rfl, h⟩
  · rintro ⟨phase, hphase, hbit⟩
    refine ⟨phase, hphase, ?_⟩
    unfold World.childClasses
    rcases hbit with h | ⟨tree, htree, h⟩
    · cases w'.childTree phase <;> simp [h]
    · rw [htree]; simp [h]

theorem recompute_childClassMask_witness :
    (FrameTree.recomputeBoundingSphere Double.addExact 2 exSystem 0).map
        (fun w' => ((w'.trees 0).childClassMask, (w'.trees 1).childClassMask,
          (w'.trees 2).childClassMask)) = some (23, 4, 16) ∧
    ∃ w', FrameTree.recomputeBoundingSphere Double.addExact 2 exSystem 0 = some w' ∧
      (w'.trees 0).childClassMask
        = (w'.trees 0).children.foldl (fun acc phase => acc ||| w'.childClasses phase) 0 :=
  ⟨by decide,
    (recompute_childClassMask Double.addExact exRank exSystem (by decide) 2 0
      (by decide) (by decide)).imp (fun _ h => ⟨h.1, h.2.1⟩)⟩

theorem stdMax_zero_eq {r : Double} (h : Double.le (.finite 0) r = true) :
    Double.eq (Double.stdMax (.finite 0) r) r = true := by
  unfold Double.stdMax
  by_cases hlt : Double.lt (.finite 0) r = true
  · simp only [hlt, if_true]
    exact Double.eq_iff.mpr ⟨rfl, (Double.lt_ne_nan hlt).2⟩
  · simp only [hlt, if_false]
    rcases Double.le_iff.mp h with h' | h'
    · exact absurd h' hlt
    · exact h'

/-- C15 refuted as stated: tree 3 of the example has exactly one child, with
orbit bounding radius 5 and body culling radius 2, and the child body has no
frame tree; the recomputation yields the bounding sphere radius 7 but the
maximum child radius 1, the plain radius of the body, which is not `== 2`.
The same tree with a clear dirty flag keeps its stored aggregates, here 0 and
0, so that its bounding sphere radius is not 7. -/
theorem recompute_oneChild_counterexample :
    (exSystem.trees 3).children = [13] ∧
    (exSystem.phases 13).orbitBoundingRadius = .finite 5 ∧
    (exSystem.bodies (exSystem.phases 13).body).cullingRadius = .finite 2 ∧
    exSystem.childTree 13 = none ∧
    (FrameTree.recomputeBoundingSphere Double.addExact 1 exSystem 3).map
        (fun w' => ((w'.trees 3).boundingSphereRadius, (w'.trees 3).maxChildRadius))
      = some (.finite 7, .finite 1) ∧
    (FrameTree.recomputeBoundingSphere Double.addExact 1 exSystem 3).map
        (fun w' => Double.eq (w'.trees 3).maxChildRadius (.finite 2)) = some false ∧
    (FrameTree.recomputeBoundingSphere Double.addExact 1 (exSystem.setChanged 3 false) 3).map
        (fun w' => ((w'.trees 3).boundingSphereRadius, (w'.trees 3).maxChildRadius))
      = some (.finite 0, .finite 0) ∧
    (FrameTree.recomputeBoundingSphere Double.addExact 1 (exSystem.setChanged 3 false) 3).map
        (fun w' => Double.eq (w'.trees 3).boundingSphereRadius (.finite 7)) = some false := by
  decide

/-- C15 as amended: the recomputation of a dirty frame tree with exactly one
child, whose body has no frame tree, returns with any fuel but 0 and yields
the bounding sphere radius `max(0, culling radius + orbit bounding radius)` and
the maximum child radius `max(0, radius)`, with the plain radius of the body.
So the bounding sphere radius is `==` the sum when the sum is not negative, the
maximum child radius is `==` the radius of the body when that is not negative,
and a child with orbit bounding radius 5, culling radius 2 and radius 2 gives
7 and 2 (2 + 5 being 7). -/
theorem recompute_oneChild (fadd : Double → Double → Double) (fuel : Nat) (w : World n)
    (t : Fin n) (phase : PhasePtr) (hdirty : (w.trees t).changed = true)
    (hone : (w.trees t).children = [phase]) (hleaf : w.childTree phase = none)
    (hfuel : 0 < fuel) :
    ∃ w', FrameTree.recomputeBoundingSphere fadd fuel w t = some w' ∧
      (w'.trees t).boundingSphereRadius
        = Double.stdMax (.finite 0) (fadd (w.bodies (w.phases phase).body).cullingRadius
            (w.phases phase).orbitBoundingRadius) ∧
      (w'.trees t).maxChildRadius
        = Double.stdMax (.finite 0) (w.bodies (w.phases phase).body).radius ∧
      (Double.le (.finite 0) (fadd (w.bodies (w.phases phase).body).cullingRadius
          (w.phases phase).orbitBoundingRadius) = true →
        Double.eq (w'.trees t).boundingSphereRadius
          (fadd (w.bodies (w.phases phase).body).cullingRadius
            (w.phases phase).orbitBoundingRadius) = true) ∧
      (Double.le (.finite 0) (w.bodies (w.phases phase).body).radius = true →
        Double.eq (w'.trees t).maxChildRadius (w.bodies (w.phases phase).body).radius = true) ∧
      ((w.phases phase).orbitBoundingRadius = .finite 5 →
        (w.bodies (w.phases phase).body).cullingRadius = .finite 2 →
        (w.bodies (w.phases phase).body).radius = .finite 2 →
        fadd (.finite 2) (.finite 5) = .finite 7 →
        (w'.trees t).boundingSphereRadius = .finite 7 ∧
        (w'.trees t).maxChildRadius = .finite 2) := by
  cases fuel with
  | zero => exact absurd hfuel (Nat.lt_irrefl _)
  | succ k =>
    have hleaf' : (w.bodies (w.phases phase).body).frameTree = none := hleaf
    have hres : ∃ w', FrameTree.recomputeBoundingSphere fadd (k + 1) w t = some w' ∧
        (w'.trees t).boundingSphereRadius
          = Double.stdMax (.finite 0) (fadd (w.bodies (w.phases phase).body).cullingRadius
              (w.phases phase).orbitBoundingRadius) ∧
        (w'.trees t).maxChildRadius
          = Double.stdMax (.finite 0) (w.bodies (w.phases phase).body).radius := by
      refine ⟨((w.setTree t (w.trees t).resetAggregates).setTree t
          ((w.trees t).resetAggregates.foldBody (w.bodies (w.phases phase).body))).setTree t
          (((w.trees t).resetAggregates.foldBody (w.bodies (w.phases phase).body)).foldRadius
            (fadd (w.bodies (w.phases phase).body).cullingRadius
              (w.phases phase).orbitBoundingRadius)), ?_, ?_, ?_⟩
      · simp only [FrameTree.recomputeBoundingSphere, hdirty, if_true, hone, List.foldlM_cons,
          List.foldlM_nil, FrameTree.recomputeChild]
        have hb : (w.setTree t (w.trees t).resetAggregates).bodies = w.bodies := rfl
        have hp : (w.setTree t (w.trees t).resetAggregates).phases = w.phases := rfl
        simp only [hb, hp, hleaf', setTree_same]
        rfl
      · simp only [setTree_same]; rfl
      · simp only [setTree_same]; rfl
    obtain ⟨w', hrec, hb, hm⟩ := hres
    refine ⟨w', hrec, hb, hm, ?_, ?_, ?_⟩
    · intro h; rw [hb]; exact stdMax_zero_eq h
    · intro h; rw [hm]; exact stdMax_zero_eq h
    · intro ho hc hr hadd
      rw [hb, hm, ho, hc, hr, hadd]
      exact ⟨by decide, by decide⟩

theorem recompute_oneChild_witness :
    ∃ w', FrameTree.recomputeBoundingSphere Double.addExact 1 exSystem 1 = some w' ∧
      (w'.trees 1).boundingSphereRadius = .finite 7 ∧
      (w'.trees 1).maxChildRadius = .finite 2 :=
  (recompute_oneChild Double.addExact 1 exSystem 1 11 (by decide) (by decide) (by decide)
    (by decide)).imp
    (fun _ h => ⟨h.1, h.2.2.2.2.2 (by decide) (by decide) (by decide) (by decide)⟩)

/-- C19 refuted as stated: tree 2 of the example has an empty child list and a
clear dirty flag; the recomputation leaves it the aggregates it stored, the
bounding sphere radius 9, the maximum child radius 8 and the class mask 16, not
`== 0`. -/
theorem recompute_empty_counterexample :
    (exSystem.trees 2).children = [] ∧
    (FrameTree.recomputeBoundingSphere Double.addExact 1 exSystem 2).map
        (fun w' => ((w'.trees 2).boundingSphereRadius, (w'.trees 2).maxChildRadius,
          (w'.trees 2).containsSecondaryIlluminators, (w'.trees 2).childClassMask))
      = some (.finite 9, .finite 8, false, 16) ∧
    (FrameTree.recomputeBoundingSphere Double.addExact 1 exSystem 2).map
        (fun w' => (Double.eq (w'.trees 2).boundingSphereRadius (.finite 0),
          Double.eq (w'.trees 2).maxChildRadius (.finite 0),
          decide ((w'.trees 2).childClassMask = 0)))
      = some (false, false, false) := by
  decide

/-- C19 as amended: the recomputation of a dirty frame tree whose child list is
empty returns with any fuel but 0 and yields the bounding sphere radius 0, the
maximum child radius 0, the illuminator flag false and the class mask 0. -/
theorem recompute_empty (fadd : Double → Double → Double) (fuel : Nat) (w : World n)
    (t : Fin n) (hdirty : (w.trees t).changed = true) (hempty : (w.trees t).children = [])
    (hfuel : 0 < fuel) :
    ∃ w', FrameTree.recomputeBoundingSphere fadd fuel w t = some w' ∧
      (w'.trees t).boundingSphereRadius = .finite 0 ∧
      (w'.trees t).maxChildRadius = .finite 0 ∧
      (w'.trees t).containsSecondaryIlluminators = false ∧
      (w'.trees t).childClassMask = 0 := by
  cases fuel with
  | zero => exact absurd hfuel (Nat.lt_irrefl _)
  | succ k =>
    refine ⟨w.setTree t (w.trees t).resetAggregates, ?_, ?_, ?_, ?_, ?_⟩
    · simp only [FrameTree.recomputeBoundingSphere, hdirty, if_true, hempty, List.foldlM_nil]
      rfl
    all_goals simp only [setTree_same]; rfl

theorem recompute_empty_witness :
    (FrameTree.recomputeBoundingSphere Double.addExact 1 (exSystem.setChanged 2 true) 2).map
        (fun w' => ((w'.trees 2).boundingSphereRadius, (w'.trees 2).maxChildRadius,
          (w'.trees 2).containsSecondaryIlluminators, (w'.trees 2).childClassMask))
      = some (.finite 0, .finite 0, false, 0) ∧
    ∃ w', FrameTree.recomputeBoundingSphere Double.addExact 1 (exSystem.setChanged 2 true) 2
        = some w' ∧
      (w'.trees 2).boundingSphereRadius = .finite 0 ∧
      (w'.trees 2).maxChildRadius = .finite 0 ∧
      (w'.trees 2).containsSecondaryIlluminators = false ∧
      (w'.trees 2).childClassMask = 0 :=
  ⟨by decide,
    recompute_empty Double.addExact 1 (exSystem.setChanged 2 true) 2 (by decide) (by decide)
      (by decide)⟩

/-- C20 refuted as stated: tree 3 of the example is dirty before the call and
still dirty after the call has recomputed its aggregates, and so are the trees
0 and 1 after the recomputation of tree 0. -/
theorem recompute_clears_counterexample :
    (exSystem.trees 3).changed = true ∧
    (FrameTree.recomputeBoundingSphere Double.addExact 1 exSystem 3).map
        (fun w' => ((w'.trees 3).changed, (w'.trees 3).boundingSphereRadius))
      = some (true, .finite 7) ∧
    (FrameTree.recomputeBoundingSphere Double.addExact 2 exSystem 0).map
        (fun w' => ((w'.trees 0).changed, (w'.trees 1).changed, (w'.trees 2).changed))
      = some (true, true, false) := by
  decide

/-- C20 as amended: `recomputeBoundingSphere` does not touch the dirty flag.
The recomputation of a dirty frame tree of a ranked hierarchy returns once the
fuel exceeds the rank of the tree, the tree is still dirty afterwards, and the
flag of every frame tree is what it was before the call. -/
theorem recompute_keeps_flags (fadd : Double → Double → Double) (rank : Fin n → Nat)
    (w : World n) (hrank : w.Ranked rank) (fuel : Nat) (t : Fin n) (hfuel : rank t < fuel)
    (hdirty : (w.trees t).changed = true) :
    ∃ w', FrameTree.recomputeBoundingSphere fadd fuel w t = some w' ∧
      (w'.trees t).changed = true ∧
      ∀ y, (w'.trees y).changed = (w.trees y).changed := by
  obtain ⟨w', hrec, hshape, -, -⟩ := recompute_settles fadd rank w hrank fuel t hfuel hdirty
  exact ⟨w', hrec, by rw [hshape.changed t]; exact hdirty, hshape.changed⟩

theorem recompute_keeps_flags_witness :
    ∃ w', FrameTree.recomputeBoundingSphere Double.addExact 2 exSystem 0 = some w' ∧
      (w'.trees 0).changed = true ∧
      ∀ y, (w'.trees y).changed = (exSystem.trees y).changed :=
  recompute_keeps_flags Double.addExact exRank exSystem (by decide) 2 0 (by decide) (by decide)

/-! ## `Timeline::markChanged` -/

/-- C23: `Timeline::markChanged` returns as soon as the fuel exceeds the number
of frame trees; afterwards the frame tree that `getFrameTree()` of a phase of
the timeline returns is dirty, for every phase of the timeline, and nothing
but dirty flags has changed: the phase sequence of the timeline (of every
timeline), the phases with their reference counts, and the child list and the
aggregates of every frame tree are what they were. -/
theorem timeline_markChanged_marks (fuel : Nat) (w : World n) (tl : TimelinePtr)
    (hfuel : n < fuel) :
    ∃ w', Timeline.markChanged fuel w tl = some w' ∧
      (∀ phase ∈ (w.timelines tl).phases, (w'.trees (w'.phases phase).frameTree).changed = true) ∧
      (w'.timelines tl).phases = (w.timelines tl).phases ∧
      (∀ phase, (w'.phases phase).refCount = (w.phases phase).refCount) ∧
      (∀ t, (w'.trees t).children = (w.trees t).children) ∧
      FlagsGrow w w' := by
  have hret : ∀ a : World n, ∀ t, a.cleanCount < fuel →
      ∃ a', FrameTree.markChanged fuel a t = some a' :=
    fun a t h => markChanged_returns fuel a t h
  obtain ⟨w', hw'⟩ := foldlM_returns _ fuel (markChanged_grows fuel) hret
    (w.timelines tl).phases w (lt_of_le_of_lt (cleanCount_le w) hfuel)
  have hg := foldlM_grows _ (markChanged_grows fuel) _ _ _ hw'
  refine ⟨w', hw', ?_, ?_, ?_, hg.children, hg⟩
  · intro phase hphase
    rw [hg.phases]
    exact foldlM_sets fuel _ _ _ hw' phase hphase
  · rw [hg.timelines]
  · intro phase; rw [hg.phases]

theorem timeline_markChanged_marks_witness :
    (Timeline.markChanged 3 exWorld 1).map
        (fun w' => ((w'.trees 1).changed, (w'.trees 0).changed, (w'.timelines 1).phases,
          (w'.phases 4).refCount)) = some (true, true, [4], 2) ∧
    ∃ w', Timeline.markChanged 3 exWorld 1 = some w' ∧
      (∀ phase ∈ (exWorld.timelines 1).phases,
        (w'.trees (w'.phases phase).frameTree).changed = true) ∧
      (w'.timelines 1).phases = (exWorld.timelines 1).phases ∧
      (∀ phase, (w'.phases phase).refCount = (exWorld.phases phase).refCount) ∧
      (∀ t, (w'.trees t).children = (exWorld.trees t).children) ∧
      FlagsGrow exWorld w' :=
  ⟨by decide, timeline_markChanged_marks 3 exWorld 1 (by decide)⟩

/-! ## Lazy recomputation against the from-scratch definition -/

theorem foldChild_aggregates (fadd : Double → Double → Double) (w : World n)
    (sub sub' : Fin n → FrameTree) (tr tr' : FrameTree) (phase : PhasePtr)
    (htr : tr.aggregates = tr'.aggregates)
    (hsub : ∀ tree, w.childTree phase = some tree →
      (sub tree).aggregates = (sub' tree).aggregates) :
    (FrameTree.foldChild fadd w sub tr phase).aggregates
      = (FrameTree.foldChild fadd w sub' tr' phase).aggregates := by
  simp only [FrameTree.aggregates, Prod.mk.injEq] at htr
  obtain ⟨h₁, h₂, h₃, h₄⟩ := htr
  unfold FrameTree.foldChild
  cases hct : w.childTree phase with
  | none =>
    simp [FrameTree.aggregates, FrameTree.foldRadius, FrameTree.foldBody, h₁, h₂, h₃, h₄]
  | some tree =>
    have hs := hsub tree hct
    simp only [FrameTree.aggregates, Prod.mk.injEq] at hs
    obtain ⟨s₁, s₂, s₃, s₄⟩ := hs
    simp [FrameTree.aggregates, FrameTree.foldRadius, FrameTree.foldTree, FrameTree.foldBody,
      h₁, h₂, h₃, h₄, s₁, s₂, s₃, s₄]

theorem foldl_foldChild_aggregates (fadd : Double → Double → Double) (w : World n)
    (sub sub' : Fin n → FrameTree) (l : List PhasePtr) (tr tr' : FrameTree)
    (htr : tr.aggregates = tr'.aggregates)
    (hsub : ∀ phase ∈ l, ∀ tree, w.childTree phase = some tree →
      (sub tree).aggregates = (sub' tree).aggregates) :
    (l.foldl (FrameTree.foldChild fadd w sub) tr).aggregates
      = (l.foldl (FrameTree.foldChild fadd w sub') tr').aggregates := by
  induction l generalizing tr tr' with
  | nil => exact htr
  | cons p ps ih =>
    rw [List.foldl_cons, List.foldl_cons]
    exact ih _ _ (foldChild_aggregates fadd w sub sub' tr tr' p htr
      (hsub p (List.mem_cons_self _ _)))
      (fun phase hphase => hsub phase (List.mem_cons_of_mem _ hphase))

/-- The from-scratch aggregates do not depend on the nesting depth, once it
exceeds the rank. -/
theorem fromScratch_stable (fadd : Double → Double → Double) (rank : Fin n → Nat) (w : World n)
    (hacyc : w.Acyclic rank) (k k' : Nat) (t : Fin n) (hk : rank t < k) (hk' : rank t < k') :
    FrameTree.fromScratch fadd k w t = FrameTree.fromScratch fadd k' w t := by
  induction k generalizing k' t with
  | zero => exact absurd hk (Nat.not_lt_zero _)
  | succ k ih =>
    cases k' with
    | zero => exact absurd hk' (Nat.not_lt_zero _)
    | succ k' =>
      unfold FrameTree.fromScratch
      apply List.foldl_ext
      intro tr phase hphase
      apply foldChild_congr
      intro tree htree
      have hlt := hacyc t phase hphase tree htree
      exact ih k' tree (by omega) (by omega)

theorem ranked_of_acyclic {w : World n} {rank : Fin n → Nat} (h : w.Acyclic rank) :
    w.Ranked rank :=
  fun t _ phase hphase tree htree => h t phase hphase tree htree

/-- The flags play no part in the from-scratch definition. -/
theorem fromScratch_allDirty (fadd : Double → Double → Double) (k : Nat) (w : World n)
    (t : Fin n) :
    (FrameTree.fromScratch fadd k w.allDirty t).aggregates
      = (FrameTree.fromScratch fadd k w t).aggregates := by
  induction k generalizing t with
  | zero => rfl
  | succ k ih =>
    unfold FrameTree.fromScratch
    have hfold : FrameTree.foldChild fadd w.allDirty = FrameTree.foldChild fadd w := rfl
    have hch : (w.allDirty.trees t).children = (w.trees t).children := rfl
    rw [hfold, hch]
    exact foldl_foldChild_aggregates fadd w _ _ _ _ _ rfl (fun _ _ tree _ => ih tree)

/-- In an acyclic hierarchy whose clean trees hold their from-scratch
aggregates, the settled members of every tree have the from-scratch
aggregates. -/
theorem settled_fromScratch (fadd : Double → Double → Double) (rank : Fin n → Nat)
    (w : World n) (hacyc : w.Acyclic rank)
    (hfresh : ∀ y, (w.trees y).changed = false →
      (w.trees y).aggregates = (FrameTree.fromScratch fadd (rank y + 1) w y).aggregates)
    (k : Nat) (y : Fin n) (hk : rank y < k) :
    (FrameTree.settled fadd rank w y).aggregates
      = (FrameTree.fromScratch fadd (rank y + 1) w y).aggregates := by
  induction k generalizing y with
  | zero => exact absurd hk (Nat.not_lt_zero _)
  | succ k ih =>
    cases hc : (w.trees y).changed with
    | false => rw [settled_clean fadd rank w y hc]; exact hfresh y hc
    | true =>
      rw [settled_dirty fadd rank w (ranked_of_acyclic hacyc) y hc, FrameTree.fromScratch]
      apply foldl_foldChild_aggregates fadd w _ _ _ _ _ rfl
      intro phase hphase tree htree
      have hlt := hacyc y phase hphase tree htree
      rw [ih tree (by omega),
        fromScratch_stable fadd rank w hacyc (rank y) (rank tree + 1) tree hlt
          (Nat.lt_succ_self _)]

/-- C21: lazy recomputation is correct.  In an acyclic hierarchy in which every
frame tree that is not dirty holds the aggregates of the from-scratch recursive
definition over its subtree, `recomputeBoundingSphere` on a tree returns once
the fuel exceeds the rank of the tree, and afterwards the four aggregates of
the tree are those of the from-scratch definition, which are also the ones that
the same call yields in the world with every dirty flag set, the unconditional
recomputation of full depth. -/
theorem recompute_lazy_correct (fadd : Double → Double → Double) (rank : Fin n → Nat)
    (w : World n) (hacyc : w.Acyclic rank)
    (hfresh : ∀ y, (w.trees y).changed = false →
      (w.trees y).aggregates = (FrameTree.fromScratch fadd (rank y + 1) w y).aggregates)
    (fuel : Nat) (t : Fin n) (hfuel : rank t < fuel) :
    ∃ w', FrameTree.recomputeBoundingSphere fadd fuel w t = some w' ∧
      (w'.trees t).aggregates = (FrameTree.fromScratch fadd (rank t + 1) w t).aggregates ∧
      ∃ full, FrameTree.recomputeBoundingSphere fadd fuel w.allDirty t = some full ∧
        (w'.trees t).aggregates = (full.trees t).aggregates := by
  obtain ⟨w', hrec, -, -, -, hdirty, -, hclean⟩ :=
    recompute_meets_spec fadd rank w (ranked_of_acyclic hacyc) fuel t hfuel w
      (sameShape_refl w) (fun _ _ => Or.inl rfl)
  have hlazy : (w'.trees t).aggregates
      = (FrameTree.fromScratch fadd (rank t + 1) w t).aggregates := by
    cases hc : (w.trees t).changed with
    | false => rw [hclean hc]; exact hfresh t hc
    | true =>
      rw [hdirty hc]
      exact settled_fromScratch fadd rank w hacyc hfresh _ t (Nat.lt_succ_self _)
  have hacyc' : w.allDirty.Acyclic rank := hacyc
  obtain ⟨full, hrec', -, -, -, hdirty', -, -⟩ :=
    recompute_meets_spec fadd rank w.allDirty (ranked_of_acyclic hacyc') fuel t hfuel w.allDirty
      (sameShape_refl _) (fun _ _ => Or.inl rfl)
  refine ⟨w', hrec, hlazy, full, hrec', ?_⟩
  rw [hlazy, hdirty' rfl,
    settled_fromScratch fadd rank w.allDirty hacyc' (fun y hy => by cases hy) _ t
      (Nat.lt_succ_self _)]
  exact (fromScratch_allDirty fadd _ w t).symm

theorem recompute_lazy_correct_witness :
    (FrameTree.recomputeBoundingSphere Double.addExact 3 exShared 0).map
        (fun w' => (w'.trees 0).aggregates) = some (.finite 10, .finite 1, false, 3) ∧
    (FrameTree.recomputeBoundingSphere Double.addExact 3 exShared.allDirty 0).map
        (fun w' => (w'.trees 0).aggregates) = some (.finite 10, .finite 1, false, 3) ∧
    ∃ w', FrameTree.recomputeBoundingSphere Double.addExact 3 exShared 0 = some w' ∧
      (w'.trees 0).aggregates
        = (FrameTree.fromScratch Double.addExact (exSharedRank 0 + 1) exShared 0).aggregates ∧
      ∃ full, FrameTree.recomputeBoundingSphere Double.addExact 3 exShared.allDirty 0
          = some full ∧
        (w'.trees 0).aggregates = (full.trees 0).aggregates :=
  ⟨by decide, by decide,
    recompute_lazy_correct Double.addExact exSharedRank exShared (by decide) (by decide) 3 0
      (by decide)⟩

/-! ## What a recomputation touches -/

theorem sameShape_trans {w₁ w₂ w₃ : World n} (h₁ : SameShape w₁ w₂) (h₂ : SameShape w₂ w₃) :
    SameShape w₁ w₃ :=
  ⟨h₂.phases.trans h₁.phases, h₂.timelines.trans h₁.timelines, h₂.bodies.trans h₁.bodies,
    fun t => (h₂.bodyParent t).trans (h₁.bodyParent t),
    fun t => (h₂.children t).trans (h₁.children t),
    fun t => (h₂.changed t).trans (h₁.changed t)⟩

theorem childTrees_of_shape {w a : World n} (h : SameShape w a) (x : Fin n) :
    a.childTrees x = w.childTrees x := by
  have hfun : a.childTree = w.childTree := funext (childTree_of_shape h)
  simp only [World.childTrees, h.children x, hfun]

theorem dirtyReach_of_shape {w a : World n} (h : SameShape w a) (x y : Fin n) :
    a.DirtyReach x y ↔ w.DirtyReach x y := by
  have hrel : (fun p q => q ∈ a.childTrees p ∧ (a.trees q).changed = true)
      = (fun p q => q ∈ w.childTrees p ∧ (w.trees q).changed = true) := by
    funext p q; rw [childTrees_of_shape h, h.changed q]
  simp only [World.DirtyReach, hrel, h.changed x]

theorem dirtyReach_changed {w : World n} {x y : Fin n} (h : w.DirtyReach x y) :
    (w.trees y).changed = true := by
  obtain ⟨hx, hpath⟩ := h
  cases hpath with
  | refl => exact hx
  | tail _ hstep => exact hstep.2

/-- A recomputation that returns keeps the shape of the world and changes
members only of trees that it reaches from its tree through dirty trees. -/
theorem recompute_touches (fadd : Double → Double → Double) (fuel : Nat) (s : World n)
    (x : Fin n) (s' : World n) (h : FrameTree.recomputeBoundingSphere fadd fuel s x = some s') :
    SameShape s s' ∧ ∀ y, s'.trees y ≠ s.trees y → s.DirtyReach x y := by
  induction fuel generalizing s x s' with
  | zero => simp [FrameTree.recomputeBoundingSphere] at h
  | succ fuel ih =>
    unfold FrameTree.recomputeBoundingSphere at h
    split at h
    · rename_i hdirty
      have hself : s.DirtyReach x x := ⟨hdirty, Relation.ReflTransGen.refl⟩
      refine foldlM_invariant _
        (fun a : World n => SameShape s a ∧ ∀ y, a.trees y ≠ s.trees y → s.DirtyReach x y)
        _ ?_ _ _
        ⟨sameShape_setTree (sameShape_refl s) x (s.trees x).resetAggregates rfl rfl rfl, ?_⟩ h
      · intro a phase a' hphase hinv hstep
        obtain ⟨ha, htouch⟩ := hinv
        have hx : ∀ (b : World n) (tr : FrameTree) (y : Fin n),
            (∀ z, b.trees z ≠ s.trees z → s.DirtyReach x z) →
            (b.setTree x tr).trees y ≠ s.trees y → s.DirtyReach x y := by
          intro b tr y hb hy
          by_cases hyx : y = x
          · rw [hyx]; exact hself
          · rw [setTree_other _ _ hyx] at hy; exact hb y hy
        unfold FrameTree.recomputeChild at hstep
        simp only [ha.bodies, ha.phases] at hstep
        cases hct : s.childTree phase with
        | none =>
          have hct' : (s.bodies (s.phases phase).body).frameTree = none := hct
          simp only [hct', Option.some.injEq] at hstep
          subst hstep
          refine ⟨sameShape_setTree (sameShape_setTree ha x
            ((a.trees x).foldBody (s.bodies (s.phases phase).body)) rfl rfl rfl) x _
            rfl rfl rfl, fun y hy => ?_⟩
          exact hx _ _ y (fun z hz => hx a _ z htouch hz) hy
        | some ct =>
          have hct' : (s.bodies (s.phases phase).body).frameTree = some ct := hct
          simp only [hct'] at hstep
          have ha₁ : SameShape s (a.setTree x
              ((a.trees x).foldBody (s.bodies (s.phases phase).body))) :=
            sameShape_setTree ha x _ rfl rfl rfl
          cases hrec : FrameTree.recomputeBoundingSphere fadd fuel
              (a.setTree x ((a.trees x).foldBody (s.bodies (s.phases phase).body))) ct with
          | none => rw [hrec] at hstep; cases hstep
          | some a₂ =>
            rw [hrec] at hstep
            simp only [Option.some.injEq] at hstep
            subst hstep
            obtain ⟨ha₂, htouch₂⟩ := ih _ _ _ hrec
            have hsa₂ : SameShape s a₂ := sameShape_trans ha₁ ha₂
            refine ⟨sameShape_setTree (sameShape_setTree hsa₂ x
              ((a₂.trees x).foldTree (a₂.trees ct)) rfl rfl rfl) x _ rfl rfl rfl,
              fun y hy => ?_⟩
            refine hx _ _ y (fun z hz => hx a₂ _ z ?_ hz) hy
            intro z hz
            by_cases hz₁ : a₂.trees z = (a.setTree x
                ((a.trees x).foldBody (s.bodies (s.phases phase).body))).trees z
            · rw [hz₁] at hz
              exact hx a _ z htouch hz
            · have hreach := (dirtyReach_of_shape ha₁ ct z).mp (htouch₂ z hz₁)
              refine ⟨hdirty, Relation.ReflTransGen.head ⟨?_, hreach.1⟩ hreach.2⟩
              simp only [World.childTrees, List.mem_filterMap]
              exact ⟨phase, hphase, hct⟩
      · intro y hy
        by_cases hyx : y = x
        · rw [hyx]; exact hself
        · rw [setTree_other _ _ hyx] at hy; exact absurd rfl hy
    · cases h
      exact ⟨sameShape_refl s, fun y hy => absurd rfl hy⟩

/-- C29 refuted as stated: in the third example tree 0 is dirty and has the
child 20, whose body has the frame tree 1, which is not dirty; tree 3 lies below
tree 1 (it is the frame tree of the body of child 22 of tree 1) and holds the
bounding sphere radius 50; the recomputation of tree 0 leaves tree 1 alone but
sets the bounding sphere radius of tree 3 to 0, because tree 3 is dirty and
also lies below the dirty tree 2. -/
theorem recompute_cleanChild_counterexample :
    (exShared.trees 0).changed = true ∧ 20 ∈ (exShared.trees 0).children ∧
    exShared.childTree 20 = some 1 ∧ (exShared.trees 1).changed = false ∧
    22 ∈ (exShared.trees 1).children ∧ exShared.childTree 22 = some 3 ∧
    (exShared.trees 3).boundingSphereRadius = .finite 50 ∧
    (FrameTree.recomputeBoundingSphere Double.addExact 3 exShared 0).map
        (fun w' => ((w'.trees 3).boundingSphereRadius, (w'.trees 1).aggregates))
      = some (.finite 0, (.finite 5, .finite 1, false, 2)) ∧
    (FrameTree.recomputeBoundingSphere Double.addExact 3 exShared 0).map
        (fun w' => Double.eq (w'.trees 3).boundingSphereRadius
          (exShared.trees 3).boundingSphereRadius) = some false := by
  decide

/-- C29 as amended: the recomputation of a dirty frame tree of a ranked
hierarchy returns once the fuel exceeds the rank of the tree, and it changes
no frame tree that is not dirty and no frame tree that is not reached from the
tree through dirty trees.  So the frame tree of a child body that is not dirty
keeps its four aggregates, and the round of the loop for that child computes
with the stored members of that tree as they are. -/
theorem recompute_cleanChild (fadd : Double → Double → Double) (rank : Fin n → Nat)
    (w : World n) (hrank : w.Ranked rank) (fuel : Nat) (t : Fin n) (hfuel : rank t < fuel)
    (hdirty : (w.trees t).changed = true) :
    ∃ w', FrameTree.recomputeBoundingSphere fadd fuel w t = some w' ∧
      (∀ y, (w.trees y).changed = false → w'.trees y = w.trees y) ∧
      (∀ y, ¬ w.DirtyReach t y → w'.trees y = w.trees y) ∧
      w'.trees t = (w.trees t).children.foldl
        (FrameTree.foldChild fadd w' (fun y => w'.trees y)) (w.trees t).resetAggregates ∧
      ∀ phase ∈ (w.trees t).children, ∀ tree, w.childTree phase = some tree →
        (w.trees tree).changed = false →
        (w'.trees tree).aggregates = (w.trees tree).aggregates ∧
        ∀ tr, FrameTree.foldChild fadd w' (fun y => w'.trees y) tr phase
          = FrameTree.foldChild fadd w (fun y => w.trees y) tr phase := by
  obtain ⟨w', hrec, hshape, hlocal, -⟩ :=
    recompute_settles fadd rank w hrank fuel t hfuel hdirty
  obtain ⟨-, htouch⟩ := recompute_touches fadd fuel w t w' hrec
  have hfar : ∀ y, ¬ w.DirtyReach t y → w'.trees y = w.trees y := by
    intro y hy
    by_contra hne
    exact hy (htouch y hne)
  have hclean : ∀ y, (w.trees y).changed = false → w'.trees y = w.trees y := by
    intro y hy
    apply hfar
    intro hreach
    rw [dirtyReach_changed hreach] at hy; cases hy
  refine ⟨w', hrec, hclean, hfar, ?_, ?_⟩
  · rw [hshape.children t,
      resetAggregates_congr (hshape.bodyParent t) (hshape.children t) (hshape.changed t)]
      at hlocal
    exact hlocal
  · intro phase _ tree htree hc
    refine ⟨by rw [hclean tree hc], fun tr => ?_⟩
    rw [foldChild_of_shape fadd hshape]
    apply foldChild_congr
    intro tree' htree'
    rw [htree] at htree'
    cases htree'
    exact hclean tree hc

theorem recompute_cleanChild_witness :
    ∃ w', FrameTree.recomputeBoundingSphere Double.addExact 3 exShared 0 = some w' ∧
      (∀ y, (exShared.trees y).changed = false → w'.trees y = exShared.trees y) ∧
      (w'.trees 1).aggregates = (exShared.trees 1).aggregates :=
  (recompute_cleanChild Double.addExact exSharedRank exShared (by decide) 3 0
    (by decide) (by decide)).imp
    (fun _ h => ⟨h.1, h.2.1, (h.2.2.2.2 20 (by decide) 1 (by decide) (by decide)).1⟩)

/-! ## `FrameTree::markUpdated` only clears flags, and returns -/

/-- A loop returns when every round returns and keeps a property. -/
theorem foldlM_total {α β : Type} (f : β → α → Option β) (Inv : β → Prop) (l : List α)
    (hstep : ∀ b a, a ∈ l → Inv b → ∃ b', f b a = some b' ∧ Inv b')
    (b : β) (hb : Inv b) : ∃ b', l.foldlM f b = some b' ∧ Inv b' := by
  induction l generalizing b with
  | nil => exact ⟨b, rfl, hb⟩
  | cons a as ih =>
    obtain ⟨b₁, hfa, hb₁⟩ := hstep b a (List.mem_cons_self _ _) hb
    obtain ⟨b', hfold, hb'⟩ :=
      ih (fun b a' ha' => hstep b a' (List.mem_cons_of_mem _ ha')) b₁ hb₁
    exact ⟨b', by rw [List.foldlM_cons, hfa]; exact hfold, hb'⟩

theorem flagsShrink_refl (w : World n) : FlagsShrink w w :=
  ⟨rfl, rfl, rfl, fun _ => rfl, fun _ => rfl, fun _ h => h, fun _ => rfl⟩

theorem flagsShrink_trans {w₁ w₂ w₃ : World n} (h₁ : FlagsShrink w₁ w₂)
    (h₂ : FlagsShrink w₂ w₃) : FlagsShrink w₁ w₃ :=
  ⟨h₂.phases.trans h₁.phases, h₂.timelines.trans h₁.timelines, h₂.bodies.trans h₁.bodies,
    fun t => (h₂.bodyParent t).trans (h₁.bodyParent t),
    fun t => (h₂.children t).trans (h₁.children t),
    fun t h => h₁.changed t (h₂.changed t h),
    fun t => (h₂.aggregates t).trans (h₁.aggregates t)⟩

theorem setChanged_false_other (w : World n) {t y : Fin n} (h : y ≠ t) :
    (w.setChanged t false).trees y = w.trees y := by
  simp [World.setChanged, Function.update_noteq h]

theorem setChanged_false_changed (w : World n) (t : Fin n) :
    ((w.setChanged t false).trees t).changed = false := by
  simp [World.setChanged]

theorem setChanged_shrinks (w : World n) (t : Fin n) : FlagsShrink w (w.setChanged t false) := by
  refine ⟨rfl, rfl, rfl, ?_, ?_, ?_, ?_⟩
  · intro y
    by_cases h : y = t
    · subst h; simp [World.setChanged]
    · rw [setChanged_false_other w h]
  · intro y
    by_cases h : y = t
    · subst h; simp [World.setChanged]
    · rw [setChanged_false_other w h]
  · intro y hy
    by_cases h : y = t
    · subst h; rw [setChanged_false_changed] at hy; cases hy
    · rwa [setChanged_false_other w h] at hy
  · intro y
    by_cases h : y = t
    · subst h; simp [World.setChanged, FrameTree.aggregates]
    · rw [setChanged_false_other w h]

theorem dirtyCount_le_of_shrinks {w w' : World n} (h : FlagsShrink w w') :
    w'.dirtyCount ≤ w.dirtyCount := by
  unfold World.dirtyCount
  apply Finset.card_le_card
  intro t ht
  simp only [Finset.mem_filter, Finset.mem_univ, true_and] at ht ⊢
  exact h.changed t ht

theorem dirtyCount_setChanged_lt (w : World n) (t : Fin n)
    (h : (w.trees t).changed = true) : (w.setChanged t false).dirtyCount < w.dirtyCount := by
  unfold World.dirtyCount
  apply Finset.card_lt_card
  refine Finset.ssubset_iff_of_subset ?_ |>.mpr ⟨t, ?_, ?_⟩
  · intro y hy
    simp only [Finset.mem_filter, Finset.mem_univ, true_and] at hy ⊢
    exact (setChanged_shrinks w t).changed y hy
  · simpa using h
  · simp [setChanged_false_changed]

theorem dirtyCount_le (w : World n) : w.dirtyCount ≤ n := by
  unfold World.dirtyCount
  calc (Finset.univ.filter (fun t : Fin n => (w.trees t).changed = true)).card
      ≤ (Finset.univ : Finset (Fin n)).card := Finset.card_filter_le _ _
    _ = n := by simp

theorem childTrees_of_shrinks {w w' : World n} (h : FlagsShrink w w') (t : Fin n) :
    w'.childTrees t = w.childTrees t := by
  have hfun : w'.childTree = w.childTree := by
    funext phase; simp only [World.childTree, h.bodies, h.phases]
  simp only [World.childTrees, h.children t, hfun]

/-- A visit of a child in the loop of `markUpdated` is a call on the frame tree
of the child body, or nothing. -/
theorem markUpdated_visit (mu : World n → Fin n → Option (World n)) (acc : World n)
    (child : PhasePtr) :
    Body.markUpdatedWith mu acc (acc.phases child).body
      = match acc.childTree child with
        | some tree => mu acc tree
        | none => some acc := rfl

theorem markUpdated_shrinks (fuel : Nat) (w : World n) (t : Fin n) (w' : World n)
    (h : FrameTree.markUpdated fuel w t = some w') : FlagsShrink w w' := by
  induction fuel generalizing w t w' with
  | zero => simp [FrameTree.markUpdated] at h
  | succ fuel ih =>
    unfold FrameTree.markUpdated at h
    split at h
    · refine foldlM_invariant _ (fun a : World n => FlagsShrink w a) _ ?_ _ _
        (setChanged_shrinks w t) h
      intro acc child acc' _ hacc hstep
      rw [markUpdated_visit] at hstep
      cases hct : acc.childTree child with
      | none => rw [hct] at hstep; cases hstep; exact hacc
      | some tree => rw [hct] at hstep; exact flagsShrink_trans hacc (ih _ _ _ hstep)
    · cases h; exact flagsShrink_refl w

/-- The call `markUpdated` returns once the fuel exceeds the number of set
flags. -/
theorem markUpdated_returns (fuel : Nat) (w : World n) (t : Fin n)
    (h : w.dirtyCount < fuel) : ∃ w', FrameTree.markUpdated fuel w t = some w' := by
  induction fuel generalizing w t with
  | zero => exact absurd h (Nat.not_lt_zero _)
  | succ fuel ih =>
    unfold FrameTree.markUpdated
    split
    · rename_i hc
      have hlt : (w.setChanged t false).dirtyCount < fuel :=
        lt_of_lt_of_le (dirtyCount_setChanged_lt w t hc) (Nat.le_of_lt_succ h)
      have htot : ∀ (acc : World n) (child : PhasePtr), acc.dirtyCount < fuel →
          ∃ acc', Body.markUpdatedWith (FrameTree.markUpdated fuel) acc (acc.phases child).body
            = some acc' ∧ acc'.dirtyCount < fuel := by
        intro acc child hacc
        rw [markUpdated_visit]
        cases hct : acc.childTree child with
        | none => exact ⟨acc, rfl, hacc⟩
        | some tree =>
          obtain ⟨acc', hacc'⟩ := ih acc tree hacc
          exact ⟨acc', hacc', lt_of_le_of_lt
            (dirtyCount_le_of_shrinks (markUpdated_shrinks _ _ _ _ hacc')) hacc⟩
      obtain ⟨w', hw', -⟩ := foldlM_total _ (fun a : World n => a.dirtyCount < fuel)
        (w.trees t).children (fun acc child _ hacc => htot acc child hacc) _ hlt
      exact ⟨w', hw'⟩
    · exact ⟨w, rfl⟩

/-- After `markUpdated` the flag of the tree is clear. -/
theorem markUpdated_clears (fuel : Nat) (w : World n) (t : Fin n) (w' : World n)
    (h : FrameTree.markUpdated fuel w t = some w') : (w'.trees t).changed = false := by
  cases hc : (w'.trees t).changed with
  | false => rfl
  | true =>
    cases fuel with
    | zero => simp [FrameTree.markUpdated] at h
    | succ fuel =>
      unfold FrameTree.markUpdated at h
      split at h
      · have hshrink := foldlM_invariant _
          (fun a : World n => FlagsShrink (w.setChanged t false) a) _ ?_ _ _
          (flagsShrink_refl _) h
        · have := hshrink.changed t hc
          rw [setChanged_false_changed] at this; cases this
        · intro acc child acc' _ hacc hstep
          rw [markUpdated_visit] at hstep
          cases hct : acc.childTree child with
          | none => rw [hct] at hstep; cases hstep; exact hacc
          | some tree =>
            rw [hct] at hstep
            exact flagsShrink_trans hacc (markUpdated_shrinks _ _ _ _ hstep)
      · rename_i hclean
        cases h
        rw [hc] at hclean; exact absurd rfl hclean

theorem changed_false_of_shrinks {w w' : World n} (h : FlagsShrink w w') {t : Fin n}
    (ht : (w.trees t).changed = false) : (w'.trees t).changed = false := by
  cases hc : (w'.trees t).changed with
  | false => rfl
  | true => rw [h.changed t hc] at ht; cases ht

/-- The loop of `markUpdated` only clears flags. -/
theorem visits_shrink (fuel : Nat) (l : List PhasePtr) (a a' : World n)
    (h : l.foldlM (fun acc child =>
      Body.markUpdatedWith (FrameTree.markUpdated fuel) acc (acc.phases child).body) a
      = some a') : FlagsShrink a a' := by
  refine foldlM_invariant _ (fun b : World n => FlagsShrink a b) _ ?_ _ _
    (flagsShrink_refl a) h
  intro acc child acc' _ hacc hstep
  rw [markUpdated_visit] at hstep
  cases hct : acc.childTree child with
  | none => rw [hct] at hstep; cases hstep; exact hacc
  | some tree =>
    rw [hct] at hstep
    exact flagsShrink_trans hacc (markUpdated_shrinks _ _ _ _ hstep)

/-- After the loop of `markUpdated` the frame tree of every child body of the
loop is clean. -/
theorem visits_clear (fuel : Nat) (l : List PhasePtr) (a a' : World n)
    (h : l.foldlM (fun acc child =>
      Body.markUpdatedWith (FrameTree.markUpdated fuel) acc (acc.phases child).body) a
      = some a') :
    ∀ child ∈ l, ∀ tree, a.childTree child = some tree → (a'.trees tree).changed = false := by
  induction l generalizing a with
  | nil => intro child hchild; cases hchild
  | cons c cs ih =>
    rw [List.foldlM_cons] at h
    cases hstep : Body.markUpdatedWith (FrameTree.markUpdated fuel) a (a.phases c).body with
    | none => rw [hstep] at h; cases h
    | some a₁ =>
      rw [hstep] at h
      have hrest := visits_shrink fuel cs a₁ a' h
      have hfirst : FlagsShrink a a₁ := by
        rw [markUpdated_visit] at hstep
        cases hct : a.childTree c with
        | none => rw [hct] at hstep; cases hstep; exact flagsShrink_refl a
        | some tree => rw [hct] at hstep; exact markUpdated_shrinks _ _ _ _ hstep
      intro child hchild tree htree
      rcases List.mem_cons.mp hchild with rfl | hchild
      · rw [markUpdated_visit, htree] at hstep
        exact changed_false_of_shrinks hrest (markUpdated_clears _ _ _ _ hstep)
      · refine ih a₁ h child hchild tree ?_
        simp only [World.childTree, hfirst.bodies, hfirst.phases]
        exact htree

/-- When a run clears the flag of a tree, the frame trees of the child bodies
of that tree are clean afterwards. -/
theorem markUpdated_closed (fuel : Nat) (w : World n) (t : Fin n) (w' : World n)
    (h : FrameTree.markUpdated fuel w t = some w') :
    ∀ y, (w.trees y).changed = true → (w'.trees y).changed = false →
      ∀ z ∈ w.childTrees y, (w'.trees z).changed = false := by
  induction fuel generalizing w t w' with
  | zero => simp [FrameTree.markUpdated] at h
  | succ fuel ih =>
    unfold FrameTree.markUpdated at h
    split at h
    · have hall := visits_clear fuel _ _ _ h
      have hinv := foldlM_invariant _
        (fun a : World n => FlagsShrink (w.setChanged t false) a ∧
          ∀ y, ((w.setChanged t false).trees y).changed = true → (a.trees y).changed = false →
            ∀ z ∈ w.childTrees y, (a.trees z).changed = false)
        _ ?_ _ _ ⟨flagsShrink_refl _, fun y h₁ h₂ => by rw [h₁] at h₂; cases h₂⟩ h
      · intro y hy₁ hy₂ z hz
        by_cases hyt : y = t
        · subst hyt
          simp only [World.childTrees, List.mem_filterMap] at hz
          obtain ⟨child, hchild, hct⟩ := hz
          exact hall child hchild z hct
        · refine hinv.2 y ?_ hy₂ z hz
          rw [setChanged_false_other w hyt]; exact hy₁
      · intro acc child acc' _ hacc hstep
        obtain ⟨hsa, hcl⟩ := hacc
        rw [markUpdated_visit] at hstep
        cases hct : acc.childTree child with
        | none => rw [hct] at hstep; cases hstep; exact ⟨hsa, hcl⟩
        | some tree =>
          rw [hct] at hstep
          have hs' := markUpdated_shrinks _ _ _ _ hstep
          refine ⟨flagsShrink_trans hsa hs', fun y hy₁ hy₂ z hz => ?_⟩
          cases hay : (acc.trees y).changed with
          | false => exact changed_false_of_shrinks hs' (hcl y hy₁ hay z hz)
          | true =>
            refine ih _ _ _ hstep y hay hy₂ z ?_
            rw [childTrees_of_shrinks hsa, childTrees_of_shrinks (setChanged_shrinks w t)]
            exact hz
    · cases h
      intro y h₁ h₂; rw [h₁] at h₂; cases h₂

theorem dirtyReach_of_shrinks {w a : World n} (h : FlagsShrink w a) {x y : Fin n}
    (hr : a.DirtyReach x y) : w.DirtyReach x y := by
  obtain ⟨hx, hpath⟩ := hr
  refine ⟨h.changed x hx, Relation.ReflTransGen.mono ?_ hpath⟩
  intro p q hpq
  rw [childTrees_of_shrinks h] at hpq
  exact ⟨hpq.1, h.changed q hpq.2⟩

/-- A run clears flags only at trees that it reaches from its tree through dirty
trees. -/
theorem markUpdated_within (fuel : Nat) (w : World n) (t : Fin n) (w' : World n)
    (h : FrameTree.markUpdated fuel w t = some w') :
    ∀ y, (w.trees y).changed = true → (w'.trees y).changed = false → w.DirtyReach t y := by
  induction fuel generalizing w t w' with
  | zero => simp [FrameTree.markUpdated] at h
  | succ fuel ih =>
    unfold FrameTree.markUpdated at h
    split at h
    · rename_i hdirty
      refine (foldlM_invariant _
        (fun a : World n => FlagsShrink (w.setChanged t false) a ∧
          ∀ y, (w.trees y).changed = true → (a.trees y).changed = false → w.DirtyReach t y)
        _ ?_ _ _ ⟨flagsShrink_refl _, ?_⟩ h).2
      · intro acc child acc' hchild hacc hstep
        obtain ⟨hsa, hin⟩ := hacc
        rw [markUpdated_visit] at hstep
        have hwa : FlagsShrink w acc := flagsShrink_trans (setChanged_shrinks w t) hsa
        cases hct : acc.childTree child with
        | none => rw [hct] at hstep; cases hstep; exact ⟨hsa, hin⟩
        | some tree =>
          rw [hct] at hstep
          have hs' := markUpdated_shrinks _ _ _ _ hstep
          refine ⟨flagsShrink_trans hsa hs', fun y hy₁ hy₂ => ?_⟩
          cases hay : (acc.trees y).changed with
          | false => exact hin y hy₁ hay
          | true =>
            have hreach := dirtyReach_of_shrinks hwa (ih _ _ _ hstep y hay hy₂)
            refine ⟨hdirty, Relation.ReflTransGen.head ⟨?_, hreach.1⟩ hreach.2⟩
            simp only [World.childTrees, List.mem_filterMap]
            refine ⟨child, hchild, ?_⟩
            simp only [World.childTree, hwa.bodies, hwa.phases] at hct
            exact hct
      · intro y hy₁ hy₂
        by_cases hyt : y = t
        · rw [hyt]; exact ⟨hdirty, Relation.ReflTransGen.refl⟩
        · rw [setChanged_false_other w hyt, hy₁] at hy₂; cases hy₂
    · cases h
      intro y h₁ h₂; rw [h₁] at h₂; cases h₂

/-- C22: `markUpdated` returns as soon as the fuel exceeds the number of frame
trees and changes nothing but dirty flags, which it only clears.  On a tree
that is not dirty it changes nothing at all, whatever lies below.  On a dirty
tree it clears the flag of the tree and goes on in the frame tree of every
child body: afterwards all those child trees are clean, and a tree is dirty
afterwards exactly when it was dirty before and is not reached from the tree
through dirty trees, so that the cleared trees are the tree itself, its dirty
child trees, their dirty child trees and so on. -/
theorem markUpdated_clears_dirty_subtree (fuel : Nat) (w : World n) (t : Fin n)
    (hfuel : n < fuel) :
    ∃ w', FrameTree.markUpdated fuel w t = some w' ∧ FlagsShrink w w' ∧
      ((w.trees t).changed = false → w' = w) ∧
      (w'.trees t).changed = false ∧
      ((w.trees t).changed = true → ∀ z ∈ w.childTrees t, (w'.trees z).changed = false) ∧
      ∀ y, (w'.trees y).changed = true ↔ ((w.trees y).changed = true ∧ ¬ w.DirtyReach t y) := by
  obtain ⟨w', hw'⟩ := markUpdated_returns fuel w t (lt_of_le_of_lt (dirtyCount_le w) hfuel)
  have hs := markUpdated_shrinks _ _ _ _ hw'
  have hclear := markUpdated_clears _ _ _ _ hw'
  have hclosed := markUpdated_closed _ _ _ _ hw'
  refine ⟨w', hw', hs, ?_, hclear, fun hd z hz => hclosed t hd hclear z hz, fun y => ?_⟩
  · intro hc
    cases fuel with
    | zero => exact absurd hfuel (Nat.not_lt_zero _)
    | succ k =>
      simp only [FrameTree.markUpdated, hc, Bool.false_eq_true, if_false,
        Option.some.injEq] at hw'
      exact hw'.symm
  · constructor
    · intro hy
      refine ⟨hs.changed y hy, fun hreach => ?_⟩
      have hcleared : ∀ z, w.DirtyReach t z → (w'.trees z).changed = false := by
        intro z hz
        obtain ⟨hx, hpath⟩ := hz
        induction hpath with
        | refl => exact hclear
        | tail hprev hstep ihz =>
          exact hclosed _ (dirtyReach_changed ⟨hx, hprev⟩) ihz _ hstep.1
      rw [hcleared y hreach] at hy; cases hy
    · rintro ⟨hy, hnot⟩
      cases hc : (w'.trees y).changed with
      | true => rfl
      | false => exact absurd (markUpdated_within _ _ _ _ hw' y hy hc) hnot

theorem markUpdated_clears_dirty_subtree_witness :
    (FrameTree.markUpdated 5 exShared 2).map
        (fun w' => ((w'.trees 0).changed, (w'.trees 1).changed, (w'.trees 2).changed,
          (w'.trees 3).changed)) = some (true, false, false, false) ∧
    (FrameTree.markUpdated 5 exShared 1).map
        (fun w' => ((w'.trees 0).changed, (w'.trees 1).changed, (w'.trees 2).changed,
          (w'.trees 3).changed)) = some (true, false, true, true) ∧
    ∃ w', FrameTree.markUpdated 5 exShared 2 = some w' ∧ FlagsShrink exShared w' ∧
      ((exShared.trees 2).changed = false → w' = exShared) ∧
      (w'.trees 2).changed = false ∧
      ((exShared.trees 2).changed = true →
        ∀ z ∈ exShared.childTrees 2, (w'.trees z).changed = false) ∧
      ∀ y, (w'.trees y).changed = true ↔
        ((exShared.trees y).changed = true ∧ ¬ exShared.DirtyReach 2 y) :=
  ⟨by decide, by decide, markUpdated_clears_dirty_subtree 5 exShared 2 (by decide)⟩

/-! ## Upward closure of the dirty flag -/

theorem parents_of_links {a w : World n} (hb : a.bodies = w.bodies)
    (ht : a.timelines = w.timelines)
    (hp : ∀ q, (a.phases q).frameTree = (w.phases q).frameTree)
    (hbp : ∀ y, (a.trees y).bodyParent = (w.trees y).bodyParent) (y : Fin n) :
    a.parents y = w.parents y := by
  simp only [World.parents, hbp, hb, ht]
  cases (w.trees y).bodyParent with
  | none => rfl
  | some b =>
    dsimp only
    cases (w.bodies b).timeline with
    | none => rfl
    | some tl => exact List.map_congr_left (fun q _ => hp q)

theorem parents_of_shrinks {w w' : World n} (h : FlagsShrink w w') (y : Fin n) :
    w'.parents y = w.parents y :=
  parents_of_links h.bodies h.timelines (fun q => by rw [h.phases]) h.bodyParent y

theorem removeChild_of_mem (fuel : Nat) (w : World n) (t : Fin n) (phase : PhasePtr)
    (hmem : phase ∈ (w.trees t).children) :
    FrameTree.removeChild fuel w t phase
      = FrameTree.markChanged fuel
          ((w.release phase).setChildren t ((w.trees t).children.erase phase)) t := by
  have hidx : (w.trees t).children[(w.trees t).children.indexOf phase]? = some phase :=
    List.getElem?_indexOf hmem
  have htrees : ((w.release phase).trees t).children = (w.trees t).children := rfl
  simp only [FrameTree.removeChild, hidx]
  rw [htrees, List.eraseIdx_indexOf_eq_erase]

theorem removeChild_of_not_mem (fuel : Nat) (w : World n) (t : Fin n) (phase : PhasePtr)
    (habs : phase ∉ (w.trees t).children) : FrameTree.removeChild fuel w t phase = some w := by
  have hidx : (w.trees t).children[(w.trees t).children.indexOf phase]? = none := by
    rw [List.indexOf_eq_length.mpr habs]
    exact List.getElem?_eq_none (le_refl _)
  simp only [FrameTree.removeChild, hidx]

/-- A run of `markChanged` keeps the upward closure, when every tree of a body
has a parent tree. -/
theorem markChanged_upClosed (fuel : Nat) (a : World n) (t : Fin n) (a' : World n)
    (hup : a.UpClosed) (hroots : ∀ y, (a.trees y).bodyParent ≠ none → a.parents y ≠ [])
    (h : FrameTree.markChanged fuel a t = some a') : a'.UpClosed := by
  have hg := markChanged_grows _ _ _ _ h
  intro y hy
  rw [hg.bodyParent y, parents_of_grows hg]
  cases hay : (a.trees y).changed with
  | true =>
    rcases hup y hay with hroot | ⟨p, hp, hpc⟩
    · exact Or.inl hroot
    · exact Or.inr ⟨p, hp, hg.changed p hpc⟩
  | false =>
    cases hbp : (a.trees y).bodyParent with
    | none => exact Or.inl rfl
    | some b =>
      right
      have hne := hroots y (by rw [hbp]; simp)
      obtain ⟨p, hp⟩ := List.exists_mem_of_ne_nil _ hne
      exact ⟨p, hp, markChanged_closed _ _ _ _ h y hay hy p hp⟩

/-- A run of `markUpdated` keeps the upward closure, when every tree lies
below its parent trees. -/
theorem markUpdated_upClosed (fuel : Nat) (w : World n) (t : Fin n) (w' : World n)
    (hup : w.UpClosed) (hlinked : ∀ y, ∀ p ∈ w.parents y, y ∈ w.childTrees p)
    (h : FrameTree.markUpdated fuel w t = some w') : w'.UpClosed := by
  have hs := markUpdated_shrinks _ _ _ _ h
  intro y hy
  rw [hs.bodyParent y, parents_of_shrinks hs]
  rcases hup y (hs.changed y hy) with hroot | ⟨p, hp, hpc⟩
  · exact Or.inl hroot
  · right
    refine ⟨p, hp, ?_⟩
    cases hc : (w'.trees p).changed with
    | true => rfl
    | false =>
      have := markUpdated_closed _ _ _ _ h p hpc hc y (hlinked y p hp)
      rw [this] at hy; cases hy

/-- C30, against the claim as worded: the upward closure alone is not kept.
The third hierarchy is upward closed; `removeChild` of phase 23 from frame tree
2 returns an upward closed state, in which tree 3 still has the parent trees 1
and 2 (through the timeline of body 22) but is no longer reached from tree 2;
`markUpdated` of tree 2 in that state clears tree 2 and leaves tree 3 dirty
with both parent trees clean. -/
theorem upClosed_invariant_counterexample :
    exShared.UpClosed ∧
    (FrameTree.removeChild 5 exShared 2 23).map (fun w1 => decide w1.UpClosed) = some true ∧
    ((FrameTree.removeChild 5 exShared 2 23).bind
        (fun w1 => FrameTree.markUpdated 5 w1 2)).map
      (fun w2 => (decide w2.UpClosed, (w2.trees 3).changed, (w2.trees 3).bodyParent.isSome))
      = some (false, true, true) ∧
    ((FrameTree.removeChild 5 exShared 2 23).bind
        (fun w1 => FrameTree.markUpdated 5 w1 2)).map
      (fun w2 => (w2.parents 3, (w2.trees 1).changed, (w2.trees 2).changed))
      = some ([1, 2], false, false) := by
  refine ⟨by decide, by decide, by decide, by decide⟩

/-- C30 (amended): the upward closure of the dirty flag (every dirty frame tree
is the tree of a star or has a dirty parent tree) is kept by
`FrameTree::markChanged`, `FrameTree::addChild`, `FrameTree::removeChild`,
`Timeline::markChanged` and `FrameTree::markUpdated`, each applied to any frame
tree, phase or timeline of a hierarchy whose links agree (every tree is a child
tree of each of its parent trees, and every tree of a body has a parent tree);
each call returns as soon as the fuel exceeds the number of frame trees. -/
theorem upClosed_invariant (fuel : Nat) (w : World n) (hup : w.UpClosed)
    (hlinked : w.Linked) (hfuel : n < fuel) :
    (∀ t, ∃ w', FrameTree.markChanged fuel w t = some w' ∧ w'.UpClosed) ∧
    (∀ t phase, ∃ w', FrameTree.addChild fuel w t phase = some w' ∧ w'.UpClosed) ∧
    (∀ t phase, ∃ w', FrameTree.removeChild fuel w t phase = some w' ∧ w'.UpClosed) ∧
    (∀ tl, ∃ w', Timeline.markChanged fuel w tl = some w' ∧ w'.UpClosed) ∧
    (∀ t, ∃ w', FrameTree.markUpdated fuel w t = some w' ∧ w'.UpClosed) := by
  obtain ⟨hbelow, hroots⟩ := hlinked
  have hedit : ∀ (a : World n), a.bodies = w.bodies → a.timelines = w.timelines →
      (∀ q, (a.phases q).frameTree = (w.phases q).frameTree) →
      (∀ y, (a.trees y).bodyParent = (w.trees y).bodyParent) →
      (∀ y, (a.trees y).changed = (w.trees y).changed) →
      ∀ t, ∃ w', FrameTree.markChanged fuel a t = some w' ∧ w'.UpClosed := by
    intro a hb ht hp hbp hc t
    have hpar := parents_of_links hb ht hp hbp
    have hupa : a.UpClosed := by
      intro y hy
      rw [hbp y, hpar y]
      rw [hc y] at hy
      rcases hup y hy with hroot | ⟨p, hpm, hpc⟩
      · exact Or.inl hroot
      · exact Or.inr ⟨p, hpm, by rw [hc p]; exact hpc⟩
    have hrootsa : ∀ y, (a.trees y).bodyParent ≠ none → a.parents y ≠ [] := by
      intro y hy
      rw [hpar y]; rw [hbp y] at hy; exact hroots y hy
    obtain ⟨w', hw'⟩ := markChanged_returns fuel a t (lt_of_le_of_lt (cleanCount_le a) hfuel)
    exact ⟨w', hw', markChanged_upClosed fuel a t w' hupa hrootsa hw'⟩
  have hphase : ∀ (a : World n) (phase q : PhasePtr) (f : TimelinePhase n → TimelinePhase n),
      (∀ x, (f x).frameTree = x.frameTree) →
      (Function.update a.phases phase (f (a.phases phase)) q).frameTree
        = (a.phases q).frameTree := by
    intro a phase q f hf
    by_cases hq : q = phase
    · subst hq; simp [hf]
    · simp [Function.update_noteq hq]
  have htree : ∀ (a : World n) (t y : Fin n) (cs : List PhasePtr),
      ((a.setChildren t cs).trees y).bodyParent = (a.trees y).bodyParent ∧
      ((a.setChildren t cs).trees y).changed = (a.trees y).changed := by
    intro a t y cs
    by_cases hy : y = t
    · subst hy; simp [World.setChildren]
    · simp [World.setChildren, Function.update_noteq hy]
  refine ⟨hedit w rfl rfl (fun _ => rfl) (fun _ => rfl) (fun _ => rfl), ?_, ?_, ?_, ?_⟩
  · intro t phase
    exact hedit ((w.addRef phase).setChildren t (((w.addRef phase).trees t).children ++ [phase]))
      rfl rfl (fun q => hphase w phase q TimelinePhase.addRef (fun _ => rfl))
      (fun y => (htree (w.addRef phase) t y _).1) (fun y => (htree (w.addRef phase) t y _).2) t
  · intro t phase
    by_cases hmem : phase ∈ (w.trees t).children
    · rw [removeChild_of_mem fuel w t phase hmem]
      exact hedit ((w.release phase).setChildren t ((w.trees t).children.erase phase))
        rfl rfl (fun q => hphase w phase q TimelinePhase.release (fun _ => rfl))
        (fun y => (htree (w.release phase) t y _).1)
        (fun y => (htree (w.release phase) t y _).2) t
    · rw [removeChild_of_not_mem fuel w t phase hmem]
      exact ⟨w, rfl, hup⟩
  · intro tl
    have hstep : ∀ (b : World n) (phase : PhasePtr), phase ∈ (w.timelines tl).phases →
        (FlagsGrow w b ∧ b.UpClosed) →
        ∃ b', FrameTree.markChanged fuel b (b.phases phase).frameTree = some b' ∧
          (FlagsGrow w b' ∧ b'.UpClosed) := by
      intro b phase _ hb
      obtain ⟨hg, hupb⟩ := hb
      obtain ⟨b', hb'⟩ := markChanged_returns fuel b (b.phases phase).frameTree
        (lt_of_le_of_lt (cleanCount_le b) hfuel)
      refine ⟨b', hb', hg.trans (markChanged_grows _ _ _ _ hb'), ?_⟩
      refine markChanged_upClosed fuel b _ b' hupb ?_ hb'
      intro y hy
      rw [parents_of_grows hg]; rw [hg.bodyParent y] at hy; exact hroots y hy
    obtain ⟨w', hw', -, hup'⟩ := foldlM_total _
      (fun b : World n => FlagsGrow w b ∧ b.UpClosed) (w.timelines tl).phases hstep w
      ⟨FlagsGrow.refl w, hup⟩
    exact ⟨w', hw', hup'⟩
  · intro t
    obtain ⟨w', hw'⟩ := markUpdated_returns fuel w t (lt_of_le_of_lt (dirtyCount_le w) hfuel)
    exact ⟨w', hw', markUpdated_upClosed fuel w t w' hup hbelow hw'⟩

theorem upClosed_invariant_witness :
    exShared.UpClosed ∧ exShared.Linked ∧
    (FrameTree.markUpdated 5 exShared 2).map
        (fun w' => ((w'.trees 0).changed, (w'.trees 1).changed, (w'.trees 2).changed,
          (w'.trees 3).changed)) = some (true, false, false, false) ∧
    (FrameTree.markChanged 5 exShared 1).map
        (fun w' => ((w'.trees 0).changed, (w'.trees 1).changed, (w'.trees 2).changed,
          (w'.trees 3).changed)) = some (true, true, true, true) ∧
    (∀ t, ∃ w', FrameTree.markChanged 5 exShared t = some w' ∧ w'.UpClosed) ∧
    (∀ t phase, ∃ w', FrameTree.addChild 5 exShared t phase = some w' ∧ w'.UpClosed) ∧
    (∀ t phase, ∃ w', FrameTree.removeChild 5 exShared t phase = some w' ∧ w'.UpClosed) ∧
    (∀ tl, ∃ w', Timeline.markChanged 5 exShared tl = some w' ∧ w'.UpClosed) ∧
    (∀ t, ∃ w', FrameTree.markUpdated 5 exShared t = some w' ∧ w'.UpClosed) :=
  ⟨by decide, by decide, by decide, by decide,
    upClosed_invariant 5 exShared (by decide) (by decide) (by decide)⟩

/-! ## Destruction of a timeline -/

/-- One round of the loop of the destructor of a timeline. -/
theorem destroy_step (fuel : Nat) (a : World n) (p : PhasePtr) (hfuel : n < fuel) :
    ∃ a', (FrameTree.removeChild fuel a (a.phases p).frameTree p).map
          (fun x => x.release p) = some a' ∧
      (∀ q, (a'.phases q).frameTree = (a.phases q).frameTree) ∧
      (∀ q, q ≠ p → a'.phases q = a.phases q) ∧
      (a'.phases p).refCount = (a.phases p).refCount -
          (if p ∈ (a.trees (a.phases p).frameTree).children then 2 else 1) ∧
      (∀ T, (a'.trees T).children =
          if T = (a.phases p).frameTree then (a.trees T).children.erase p
          else (a.trees T).children) ∧
      (∀ T, (a.trees T).changed = true → (a'.trees T).changed = true) ∧
      (p ∈ (a.trees (a.phases p).frameTree).children →
        (a'.trees (a.phases p).frameTree).changed = true) := by
  by_cases hmem : p ∈ (a.trees (a.phases p).frameTree).children
  · rw [removeChild_of_mem fuel a _ p hmem]
    obtain ⟨b, hb⟩ := markChanged_returns fuel
      ((a.release p).setChildren (a.phases p).frameTree
        ((a.trees (a.phases p).frameTree).children.erase p)) (a.phases p).frameTree
      (lt_of_le_of_lt (cleanCount_le _) hfuel)
    have hg := markChanged_grows _ _ _ _ hb
    have hs := markChanged_sets _ _ _ _ hb
    have hph : b.phases = Function.update a.phases p (a.phases p).release := hg.phases
    refine ⟨b.release p, by rw [hb]; rfl, ?_, ?_, ?_, ?_, ?_, ?_⟩
    · intro q
      by_cases hq : q = p
      · subst hq; simp [World.release, hph, TimelinePhase.release]
      · simp [World.release, hph, Function.update_noteq hq]
    · intro q hq
      simp [World.release, hph, Function.update_noteq hq]
    · simp [World.release, hph, TimelinePhase.release, hmem]
      omega
    · intro T
      show (b.trees T).children = _
      rw [hg.children T]
      by_cases hT : T = (a.phases p).frameTree
      · subst hT; simp [World.setChildren]
      · simp [World.setChildren, World.release, Function.update_noteq hT, hT]
    · intro T hT
      show (b.trees T).changed = true
      apply hg.changed T
      by_cases hT' : T = (a.phases p).frameTree
      · subst hT'; simpa [World.setChildren, World.release] using hT
      · simpa [World.setChildren, World.release, Function.update_noteq hT'] using hT
    · intro _
      exact hs
  · rw [removeChild_of_not_mem fuel a _ p hmem]
    refine ⟨a.release p, rfl, ?_, ?_, ?_, ?_, ?_, ?_⟩
    · intro q
      by_cases hq : q = p
      · subst hq; simp [World.release, TimelinePhase.release]
      · simp [World.release, Function.update_noteq hq]
    · intro q hq
      simp [World.release, Function.update_noteq hq]
    · simp [World.release, TimelinePhase.release, hmem]
    · intro T
      show (a.trees T).children = _
      by_cases hT : T = (a.phases p).frameTree
      · subst hT; simp [List.erase_of_not_mem hmem]
      · simp [hT]
    · intro T hT
      exact hT
    · intro h
      exact absurd h hmem

/-- The loop of the destructor of a timeline over a list of distinct phases. -/
theorem destroy_loop (fuel : Nat) (hfuel : n < fuel) (l : List PhasePtr) :
    ∀ a : World n, l.Nodup →
      ∃ a', l.foldlM
          (fun acc phase =>
            (FrameTree.removeChild fuel acc (acc.phases phase).frameTree phase).map
              (fun acc' => acc'.release phase)) a = some a' ∧
        (∀ q, (a'.phases q).frameTree = (a.phases q).frameTree) ∧
        (∀ q, q ∉ l → a'.phases q = a.phases q) ∧
        (∀ q ∈ l, (a'.phases q).refCount = (a.phases q).refCount -
            (if q ∈ (a.trees (a.phases q).frameTree).children then 2 else 1)) ∧
        (∀ T q, (a'.trees T).children.count q = (a.trees T).children.count q -
            (if q ∈ l ∧ (a.phases q).frameTree = T then 1 else 0)) ∧
        (∀ T, (a.trees T).changed = true → (a'.trees T).changed = true) ∧
        (∀ q ∈ l, q ∈ (a.trees (a.phases q).frameTree).children →
          (a'.trees (a.phases q).frameTree).changed = true) := by
  induction l with
  | nil =>
    intro a _
    exact ⟨a, rfl, fun _ => rfl, fun _ _ => rfl, fun _ h => absurd h (List.not_mem_nil _),
      fun _ _ => by simp, fun _ h => h, fun _ h => absurd h (List.not_mem_nil _)⟩
  | cons p l ih =>
    intro a hnd
    obtain ⟨hpl, hnd'⟩ := List.nodup_cons.mp hnd
    obtain ⟨a₁, ha₁, hft₁, hoth₁, hrc₁, hch₁, hgr₁, hset₁⟩ := destroy_step fuel a p hfuel
    obtain ⟨a', ha', hft, hoth, hrc, hcnt, hgr, hset⟩ := ih a₁ hnd'
    have hmem₁ : ∀ q, q ≠ p → (q ∈ (a₁.trees (a₁.phases q).frameTree).children ↔
        q ∈ (a.trees (a.phases q).frameTree).children) := by
      intro q hq
      rw [hft₁ q, hch₁]
      split
      · exact List.mem_erase_of_ne hq
      · exact Iff.rfl
    refine ⟨a', ?_, ?_, ?_, ?_, ?_, ?_, ?_⟩
    · rw [List.foldlM_cons, ha₁]
      exact ha'
    · intro q
      rw [hft q, hft₁ q]
    · intro q hq
      have hqp : q ≠ p := fun h => hq (h ▸ List.mem_cons_self _ _)
      have hql : q ∉ l := fun h => hq (List.mem_cons_of_mem _ h)
      rw [hoth q hql, hoth₁ q hqp]
    · intro q hq
      by_cases hqp : q = p
      · subst hqp
        rw [hoth q hpl, hrc₁]
      · have hql : q ∈ l := (List.mem_cons.mp hq).resolve_left hqp
        have h := hrc q hql
        by_cases hc : q ∈ (a.trees (a.phases q).frameTree).children
        · rw [if_pos ((hmem₁ q hqp).mpr hc)] at h
          rw [if_pos hc, h, hoth₁ q hqp]
        · rw [if_neg (fun h => hc ((hmem₁ q hqp).mp h))] at h
          rw [if_neg hc, h, hoth₁ q hqp]
    · intro T q
      rw [hcnt T q, hch₁ T, hft₁ q]
      by_cases hqp : q = p
      · subst hqp
        have hnot : ¬ (q ∈ l ∧ (a.phases q).frameTree = T) := fun h => hpl h.1
        rw [if_neg hnot, Nat.sub_zero]
        by_cases hT : T = (a.phases q).frameTree
        · rw [if_pos hT, if_pos ⟨List.mem_cons_self _ _, hT.symm⟩, List.count_erase_self]
        · rw [if_neg hT, if_neg (fun h => hT h.2.symm), Nat.sub_zero]
      · have hcount : (if T = (a.phases p).frameTree then (a.trees T).children.erase p
            else (a.trees T).children).count q = (a.trees T).children.count q := by
          split
          · exact List.count_erase_of_ne hqp _
          · rfl
        rw [hcount]
        by_cases hc : q ∈ l ∧ (a.phases q).frameTree = T
        · rw [if_pos hc, if_pos ⟨List.mem_cons_of_mem _ hc.1, hc.2⟩]
        · rw [if_neg hc, if_neg (fun h => hc ⟨(List.mem_cons.mp h.1).resolve_left hqp, h.2⟩)]
    · intro T hT
      exact hgr T (hgr₁ T hT)
    · intro q hq hc
      by_cases hqp : q = p
      · subst hqp
        exact hgr _ (hset₁ hc)
      · have hql : q ∈ l := (List.mem_cons.mp hq).resolve_left hqp
        have := hset q hql ((hmem₁ q hqp).mpr hc)
        rw [hft₁ q] at this
        exact this

/-- C24: destroying a timeline whose phases are distinct returns (with fuel
above the number of frame trees) and, for each phase of the timeline with its
frame tree `T`: if the phase is a child of `T`, its reference count drops by
two, `T` is dirty afterwards, and the phase no longer occurs among the children
of `T` when it occurred there once; if the phase is not a child of `T`, its
reference count drops by one.  One occurrence of each such phase is taken out
of the child list of its frame tree and no other child list entry changes; no
other phase changes. -/
theorem timeline_destroy_releases (fuel : Nat) (w : World n) (tl : TimelinePtr)
    (hnodup : (w.timelines tl).phases.Nodup) (hfuel : n < fuel) :
    ∃ w', Timeline.destroy fuel w tl = some w' ∧
      (∀ p ∈ (w.timelines tl).phases,
        (p ∈ (w.trees (w.phases p).frameTree).children →
          (w'.phases p).refCount = (w.phases p).refCount - 2 ∧
          (w'.trees (w.phases p).frameTree).changed = true ∧
          ((w.trees (w.phases p).frameTree).children.count p = 1 →
            p ∉ (w'.trees (w.phases p).frameTree).children)) ∧
        (p ∉ (w.trees (w.phases p).frameTree).children →
          (w'.phases p).refCount = (w.phases p).refCount - 1 ∧
          p ∉ (w'.trees (w.phases p).frameTree).children)) ∧
      (∀ T q, (w'.trees T).children.count q = (w.trees T).children.count q -
        (if q ∈ (w.timelines tl).phases ∧ (w.phases q).frameTree = T then 1 else 0)) ∧
      (∀ q, q ∉ (w.timelines tl).phases → w'.phases q = w.phases q) := by
  obtain ⟨w', hw', -, hoth, hrc, hcnt, -, hset⟩ :=
    destroy_loop fuel hfuel (w.timelines tl).phases w hnodup
  refine ⟨w', hw', ?_, hcnt, hoth⟩
  intro p hp
  constructor
  · intro hc
    refine ⟨by rw [hrc p hp, if_pos hc], hset p hp hc, ?_⟩
    intro hone
    have := hcnt (w.phases p).frameTree p
    rw [if_pos ⟨hp, rfl⟩, hone] at this
    exact List.count_eq_zero.mp this
  · intro hc
    refine ⟨by rw [hrc p hp, if_neg hc], ?_⟩
    have := hcnt (w.phases p).frameTree p
    rw [List.count_eq_zero.mpr hc] at this
    exact List.count_eq_zero.mp (by simpa using this)

theorem timeline_destroy_releases_witness :
    (exWorld.timelines 0).phases.Nodup ∧
    (Timeline.destroy 3 exWorld 0).map
        (fun w' => ((w'.phases 1).refCount, (w'.phases 2).refCount, (w'.phases 3).refCount,
          (w'.trees 0).children, (w'.trees 0).changed)) = some (0, 0, 0, [], true) ∧
    (Timeline.appendPhase exWorld 2 5).1 = true ∧
    (FrameTree.addChild 3 (Timeline.appendPhase exWorld 2 5).2 1 5).map
        (fun w2 => ((w2.phases 5).refCount, (w2.timelines 2).phases, (w2.trees 1).children))
      = some (2, [5], [4, 5]) ∧
    ((FrameTree.addChild 3 (Timeline.appendPhase exWorld 2 5).2 1 5).bind
        (fun w2 => Timeline.destroy 3 w2 2)).map
        (fun w3 => ((w3.phases 5).refCount, (w3.trees 1).children, (w3.trees 1).changed))
      = some ((exWorld.phases 5).refCount, [4], true) ∧
    ∃ w', Timeline.destroy 3 exWorld 0 = some w' ∧
      (∀ p ∈ (exWorld.timelines 0).phases,
        (p ∈ (exWorld.trees (exWorld.phases p).frameTree).children →
          (w'.phases p).refCount = (exWorld.phases p).refCount - 2 ∧
          (w'.trees (exWorld.phases p).frameTree).changed = true ∧
          ((exWorld.trees (exWorld.phases p).frameTree).children.count p = 1 →
            p ∉ (w'.trees (exWorld.phases p).frameTree).children)) ∧
        (p ∉ (exWorld.trees (exWorld.phases p).frameTree).children →
          (w'.phases p).refCount = (exWorld.phases p).refCount - 1 ∧
          p ∉ (w'.trees (exWorld.phases p).frameTree).children)) ∧
      (∀ T q, (w'.trees T).children.count q = (exWorld.trees T).children.count q -
        (if q ∈ (exWorld.timelines 0).phases ∧ (exWorld.phases q).frameTree = T then 1
          else 0)) ∧
      (∀ q, q ∉ (exWorld.timelines 0).phases → w'.phases q = exWorld.phases q) :=
  ⟨by decide, by decide, by decide, by decide, by decide,
    timeline_destroy_releases 3 exWorld 0 (by decide) (by decide)⟩

/-! ## Typed properties of a scene file -/

theorem getNumber_eq (h : AssociativeArray) (key : String) (val : Double) :
    (∃ v, h.getValue key = some (.number v) ∧ h.getNumber key val = (true, v)) ∨
    ((∀ v, h.getValue key ≠ some (.number v)) ∧ h.getNumber key val = (false, val)) := by
  unfold AssociativeArray.getNumber
  cases hv : h.getValue key with
  | none => exact Or.inr ⟨fun v hv' => (by cases hv'), rfl⟩
  | some x =>
    cases x with
    | number d => exact Or.inl ⟨d, rfl, rfl⟩
    | string s => exact Or.inr ⟨fun v hv' => (by cases hv'), rfl⟩
    | array a => exact Or.inr ⟨fun v hv' => (by cases hv'), rfl⟩
    | hash g => exact Or.inr ⟨fun v hv' => (by cases hv'), rfl⟩
    | boolean b => exact Or.inr ⟨fun v hv' => (by cases hv'), rfl⟩

theorem getString_eq (h : AssociativeArray) (key : String) (val : String) :
    (∃ u, h.getValue key = some (.string u) ∧ h.getString key val = (true, u)) ∨
    ((∀ u, h.getValue key ≠ some (.string u)) ∧ h.getString key val = (false, val)) := by
  unfold AssociativeArray.getString
  cases hv : h.getValue key with
  | none => exact Or.inr ⟨fun v hv' => (by cases hv'), rfl⟩
  | some x =>
    cases x with
    | number d => exact Or.inr ⟨fun v hv' => (by cases hv'), rfl⟩
    | string s => exact Or.inl ⟨s, rfl, rfl⟩
    | array a => exact Or.inr ⟨fun v hv' => (by cases hv'), rfl⟩
    | hash g => exact Or.inr ⟨fun v hv' => (by cases hv'), rfl⟩
    | boolean b => exact Or.inr ⟨fun v hv' => (by cases hv'), rfl⟩

/-- The shape shared by the bodies of `getAngle`, `getLength` and `getTime`. -/
theorem scaled_eq (fmul fdiv : Double → Double → Double) (h : AssociativeArray)
    (key : String) (val outputScale defaultScale : Double) (scale : Option Double) :
    (∃ v, h.getValue key = some (.number v) ∧
      (match h.getNumber key val with
        | (false, val) => (false, val)
        | (true, val) =>
          (true, fmul val
            (match scale with
              | some s => fdiv s outputScale
              | none =>
                if Double.eq defaultScale (.finite 0) then .finite 1
                else fdiv defaultScale outputScale)))
        = (true, fmul v
            (match scale with
              | some s => fdiv s outputScale
              | none =>
                if Double.eq defaultScale (.finite 0) then .finite 1
                else fdiv defaultScale outputScale))) ∨
    ((∀ v, h.getValue key ≠ some (.number v)) ∧
      (match h.getNumber key val with
        | (false, val) => (false, val)
        | (true, val) =>
          (true, fmul val
            (match scale with
              | some s => fdiv s outputScale
              | none =>
                if Double.eq defaultScale (.finite 0) then .finite 1
                else fdiv defaultScale outputScale)))
        = (false, val)) := by
  rcases getNumber_eq h key val with ⟨v, hv, hn⟩ | ⟨hv, hn⟩
  · exact Or.inl ⟨v, hv, by rw [hn]⟩
  · exact Or.inr ⟨hv, by rw [hn]⟩

/-- C25, against the claim as worded: the hash of the examples stores a value,
a string, under the key `Name`, and the three getters return false for this
key and leave `val` as it was. -/
theorem getters_nonnumber_counterexample :
    (exHash.getValue "Name").isSome = true ∧
    exHash.getAngle Double.mulExact Double.divExact (fun _ => none) "Name"
        (.finite 7) (.finite 1) (.finite 0) = (false, .finite 7) ∧
    exHash.getLength Double.mulExact Double.divExact exLengthUnits "Name"
        (.finite 7) (.finite 1) (.finite 0) = (false, .finite 7) ∧
    exHash.getTime Double.mulExact Double.divExact exTimeUnits "Name"
        (.finite 7) (.finite 1) (.finite 0) = (false, .finite 7) :=
  ⟨by decide, rfl, rfl, rfl⟩

/-- C25 (amended): each of `getAngle`, `getLength` and `getTime` (the overloads
for a double) returns true if and only if a number is stored under the key, and
a call that returns false leaves `val` as it was. -/
theorem getters_true_iff_number (fmul fdiv : Double → Double → Double)
    (units : String → Option Double) (h : AssociativeArray) (key : String)
    (val outputScale defaultScale : Double) :
    (((h.getAngle fmul fdiv units key val outputScale defaultScale).1 = true ↔
        ∃ v, h.getValue key = some (.number v)) ∧
      ((h.getAngle fmul fdiv units key val outputScale defaultScale).1 = false →
        (h.getAngle fmul fdiv units key val outputScale defaultScale).2 = val)) ∧
    (((h.getLength fmul fdiv units key val outputScale defaultScale).1 = true ↔
        ∃ v, h.getValue key = some (.number v)) ∧
      ((h.getLength fmul fdiv units key val outputScale defaultScale).1 = false →
        (h.getLength fmul fdiv units key val outputScale defaultScale).2 = val)) ∧
    (((h.getTime fmul fdiv units key val outputScale defaultScale).1 = true ↔
        ∃ v, h.getValue key = some (.number v)) ∧
      ((h.getTime fmul fdiv units key val outputScale defaultScale).1 = false →
        (h.getTime fmul fdiv units key val outputScale defaultScale).2 = val)) := by
  have key_fact : ∀ (r : Bool × Double) (x : Double),
      ((∃ v, h.getValue key = some (.number v) ∧ r = (true, x)) ∨
        ((∀ v, h.getValue key ≠ some (.number v)) ∧ r = (false, val))) →
      ((r.1 = true ↔ ∃ v, h.getValue key = some (.number v)) ∧ (r.1 = false → r.2 = val)) := by
    intro r x hr
    rcases hr with ⟨v, hv, hr⟩ | ⟨hv, hr⟩
    · subst hr
      exact ⟨⟨fun _ => ⟨v, hv⟩, fun _ => rfl⟩, fun hf => by cases hf⟩
    · subst hr
      exact ⟨⟨fun hf => (by cases hf), fun ⟨v, hv'⟩ => absurd hv' (hv v)⟩, fun _ => rfl⟩
  refine ⟨?_, ?_, ?_⟩
  · rcases scaled_eq fmul fdiv h key val outputScale defaultScale
      (h.getAngleScale units key) with ⟨v, hv, hr⟩ | ⟨hv, hr⟩
    · exact key_fact _ _ (Or.inl ⟨v, hv, hr⟩)
    · exact key_fact _ (.finite 0) (Or.inr ⟨hv, hr⟩)
  · rcases scaled_eq fmul fdiv h key val outputScale defaultScale
      (h.getLengthScale units key) with ⟨v, hv, hr⟩ | ⟨hv, hr⟩
    · exact key_fact _ _ (Or.inl ⟨v, hv, hr⟩)
    · exact key_fact _ (.finite 0) (Or.inr ⟨hv, hr⟩)
  · rcases scaled_eq fmul fdiv h key val outputScale defaultScale
      (h.getTimeScale units key) with ⟨v, hv, hr⟩ | ⟨hv, hr⟩
    · exact key_fact _ _ (Or.inl ⟨v, hv, hr⟩)
    · exact key_fact _ (.finite 0) (Or.inr ⟨hv, hr⟩)

/-- The value that the bodies of `getAngle`, `getLength` and `getTime` assign
to `val` when the key holds the number `v`. -/
theorem scaled_of_number (fmul fdiv : Double → Double → Double) (h : AssociativeArray)
    (key : String) (v val outputScale defaultScale : Double) (scale : Option Double)
    (hv : h.getValue key = some (.number v)) :
    (match h.getNumber key val with
      | (false, val) => (false, val)
      | (true, val) =>
        (true, fmul val
          (match scale with
            | some s => fdiv s outputScale
            | none =>
              if Double.eq defaultScale (.finite 0) then .finite 1
              else fdiv defaultScale outputScale)))
      = (true, fmul v
          (match scale with
            | some s => fdiv s outputScale
            | none =>
              if Double.eq defaultScale (.finite 0) then .finite 1
              else fdiv defaultScale outputScale)) := by
  have hn : h.getNumber key val = (true, v) := by
    unfold AssociativeArray.getNumber
    rw [hv]
  rw [hn]

/-- A unit scale is found exactly when the key with the suffix holds a string
that the unit table knows. -/
theorem unitScale_eq (units : String → Option Double) (h : AssociativeArray)
    (unitKey : String) (s : Double) :
    (match h.getString unitKey "" with
      | (false, _) => none
      | (true, unit) => units unit) = some s ↔
    ∃ unit, h.getValue unitKey = some (.string unit) ∧ units unit = some s := by
  rcases getString_eq h unitKey "" with ⟨u, hu, hs⟩ | ⟨hu, hs⟩
  · rw [hs]
    constructor
    · intro hsc
      exact ⟨u, hu, hsc⟩
    · rintro ⟨u', hu', hsc⟩
      rw [hu] at hu'
      cases hu'
      exact hsc
  · rw [hs]
    constructor
    · intro hsc
      cases hsc
    · rintro ⟨u', hu', -⟩
      exact absurd hu' (hu u')

/-- C27: when the key holds the number `v`, the overload of `getLength` for a
double returns true and sets `val` to `v * (s / outputScale)` when a unit with
scale `s` is attached to the key (the key with the suffix `%Length` holds a
string that the unit table maps to `s`), to `v * (defaultScale / outputScale)`
when no unit is found and `defaultScale == 0.0` is false, and to `v * 1.0`,
which is `v` for every multiplication with `x * 1.0 = x`, when no unit is
found and `defaultScale == 0.0`; `getAngle` and `getTime` do the same with the
suffixes `%Angle` and `%Time` and their own unit tables. -/
theorem getLength_scales (fmul fdiv : Double → Double → Double)
    (angleUnits lengthUnits timeUnits : String → Option Double) (h : AssociativeArray)
    (key : String) (v val outputScale defaultScale : Double)
    (hv : h.getValue key = some (.number v)) :
    ((∀ s, h.getLengthScale lengthUnits key = some s ↔
        ∃ unit, h.getValue (key ++ "%Length") = some (.string unit) ∧
          lengthUnits unit = some s) ∧
      (∀ s, h.getLengthScale lengthUnits key = some s →
        h.getLength fmul fdiv lengthUnits key val outputScale defaultScale
          = (true, fmul v (fdiv s outputScale))) ∧
      (h.getLengthScale lengthUnits key = none → Double.eq defaultScale (.finite 0) = false →
        h.getLength fmul fdiv lengthUnits key val outputScale defaultScale
          = (true, fmul v (fdiv defaultScale outputScale))) ∧
      (h.getLengthScale lengthUnits key = none → Double.eq defaultScale (.finite 0) = true →
        h.getLength fmul fdiv lengthUnits key val outputScale defaultScale
          = (true, fmul v (.finite 1)) ∧
        ((∀ x, fmul x (.finite 1) = x) →
          h.getLength fmul fdiv lengthUnits key val outputScale defaultScale = (true, v)))) ∧
    ((∀ s, h.getAngleScale angleUnits key = some s ↔
        ∃ unit, h.getValue (key ++ "%Angle") = some (.string unit) ∧
          angleUnits unit = some s) ∧
      (∀ s, h.getAngleScale angleUnits key = some s →
        h.getAngle fmul fdiv angleUnits key val outputScale defaultScale
          = (true, fmul v (fdiv s outputScale))) ∧
      (h.getAngleScale angleUnits key = none → Double.eq defaultScale (.finite 0) = false →
        h.getAngle fmul fdiv angleUnits key val outputScale defaultScale
          = (true, fmul v (fdiv defaultScale outputScale))) ∧
      (h.getAngleScale angleUnits key = none → Double.eq defaultScale (.finite 0) = true →
        h.getAngle fmul fdiv angleUnits key val outputScale defaultScale
          = (true, fmul v (.finite 1)) ∧
        ((∀ x, fmul x (.finite 1) = x) →
          h.getAngle fmul fdiv angleUnits key val outputScale defaultScale = (true, v)))) ∧
    ((∀ s, h.getTimeScale timeUnits key = some s ↔
        ∃ unit, h.getValue (key ++ "%Time") = some (.string unit) ∧
          timeUnits unit = some s) ∧
      (∀ s, h.getTimeScale timeUnits key = some s →
        h.getTime fmul fdiv timeUnits key val outputScale defaultScale
          = (true, fmul v (fdiv s outputScale))) ∧
      (h.getTimeScale timeUnits key = none → Double.eq defaultScale (.finite 0) = false →
        h.getTime fmul fdiv timeUnits key val outputScale defaultScale
          = (true, fmul v (fdiv defaultScale outputScale))) ∧
      (h.getTimeScale timeUnits key = none → Double.eq defaultScale (.finite 0) = true →
        h.getTime fmul fdiv timeUnits key val outputScale defaultScale
          = (true, fmul v (.finite 1)) ∧
        ((∀ x, fmul x (.finite 1) = x) →
          h.getTime fmul fdiv timeUnits key val outputScale defaultScale = (true, v)))) := by
  have hcases : ∀ (r : Bool × Double) (scale : Option Double),
      r = (true, fmul v
          (match scale with
            | some s => fdiv s outputScale
            | none =>
              if Double.eq defaultScale (.finite 0) then .finite 1
              else fdiv defaultScale outputScale)) →
      (∀ s, scale = some s → r = (true, fmul v (fdiv s outputScale))) ∧
      (scale = none → Double.eq defaultScale (.finite 0) = false →
        r = (true, fmul v (fdiv defaultScale outputScale))) ∧
      (scale = none → Double.eq defaultScale (.finite 0) = true →
        r = (true, fmul v (.finite 1)) ∧ ((∀ x, fmul x (.finite 1) = x) → r = (true, v))) := by
    intro r scale hr
    refine ⟨?_, ?_, ?_⟩
    · intro s hs
      rw [hr, hs]
    · intro hs hd
      rw [hr, hs]
      simp [hd]
    · intro hs hd
      have : r = (true, fmul v (.finite 1)) := by
        rw [hr, hs]
        simp [hd]
      exact ⟨this, fun hone => by rw [this, hone]⟩
  refine ⟨⟨?_, ?_⟩, ⟨?_, ?_⟩, ⟨?_, ?_⟩⟩
  · exact fun s => unitScale_eq lengthUnits h (key ++ "%Length") s
  · exact hcases _ _
      (scaled_of_number fmul fdiv h key v val outputScale defaultScale _ hv)
  · exact fun s => unitScale_eq angleUnits h (key ++ "%Angle") s
  · exact hcases _ _
      (scaled_of_number fmul fdiv h key v val outputScale defaultScale _ hv)
  · exact fun s => unitScale_eq timeUnits h (key ++ "%Time") s
  · exact hcases _ _
      (scaled_of_number fmul fdiv h key v val outputScale defaultScale _ hv)

theorem mulExact_finite (a b : ℚ) :
    Double.mulExact (.finite a) (.finite b) = .finite (a * b) := rfl

theorem divExact_finite (a b : ℚ) (hb : b ≠ 0) :
    Double.divExact (.finite a) (.finite b) = .finite (a / b) := by
  simp [Double.divExact, hb]

theorem getLength_scales_witness :
    exHash.getValue "Period" = some (.number (.finite 4)) ∧
    exHash.getTimeScale exTimeUnits "Period" = some (.finite (1461 / 4)) ∧
    exHash.getLengthScale exLengthUnits "Period" = none ∧
    exHash.getTime Double.mulExact Double.divExact exTimeUnits "Period"
        .nan (.finite 1) (.finite 0) = (true, .finite 1461) ∧
    exHash.getLength Double.mulExact Double.divExact exLengthUnits "Period"
        .nan (.finite 2) (.finite 6) = (true, .finite 12) ∧
    exHash.getLength Double.mulExact Double.divExact exLengthUnits "Period"
        .nan (.finite 2) (.finite 0) = (true, .finite 4) ∧
    (∀ s, exHash.getTimeScale exTimeUnits "Period" = some s →
      exHash.getTime Double.mulExact Double.divExact exTimeUnits "Period"
          .nan (.finite 1) (.finite 0)
        = (true, Double.mulExact (.finite 4) (Double.divExact s (.finite 1)))) := by
  refine ⟨rfl, rfl, rfl, ?_, ?_, ?_,
    (getLength_scales Double.mulExact Double.divExact (fun _ => none) exLengthUnits
      exTimeUnits exHash "Period" (.finite 4) .nan (.finite 1) (.finite 0) rfl).2.2.2.1⟩
  · rw [show exHash.getTime Double.mulExact Double.divExact exTimeUnits "Period"
          .nan (.finite 1) (.finite 0)
        = (true, Double.mulExact (.finite 4)
            (Double.divExact (.finite (1461 / 4)) (.finite 1))) from rfl,
      divExact_finite _ _ one_ne_zero, mulExact_finite]
    norm_num
  · rw [show exHash.getLength Double.mulExact Double.divExact exLengthUnits "Period"
          .nan (.finite 2) (.finite 6)
        = (true, Double.mulExact (.finite 4)
            (Double.divExact (.finite 6) (.finite 2))) from rfl,
      divExact_finite _ _ two_ne_zero, mulExact_finite]
    norm_num
  · rw [show exHash.getLength Double.mulExact Double.divExact exLengthUnits "Period"
          .nan (.finite 2) (.finite 0)
        = (true, Double.mulExact (.finite 4) (.finite 1)) from rfl, mulExact_finite]
    norm_num

/-- C26: the overload of `getTime` for a float returns true exactly when the
overload for a double does, but its body calls `getLength`: it is the overload
of `getLength` for a float, and reads the unit under the key with the suffix
`%Length`.  On the hash of the examples, where the unit `y` is attached to
`Period` as a time unit, the overload for a double sets `val` to 1461, which
is what the documented overload for a float gives, and the overload for a
float of the code sets `val` to 4. -/
theorem getTime_float_reads_length_unit :
    (∀ (fmul fdiv : Double → Double → Double) (fround : Double → Double)
        (lengthUnits timeUnits : String → Option Double) (h : AssociativeArray)
        (key : String) (val outputScale defaultScale dval : Double),
      (h.getTimeFloat fmul fdiv fround lengthUnits key val outputScale defaultScale dval).1
          = (h.getTime fmul fdiv timeUnits key val outputScale defaultScale).1 ∧
      h.getTimeFloat fmul fdiv fround lengthUnits key val outputScale defaultScale dval
          = h.getLengthFloat fmul fdiv fround lengthUnits key val outputScale
              defaultScale dval) ∧
    exHash.getTime Double.mulExact Double.divExact exTimeUnits "Period"
        .nan (.finite 1) (.finite 0) = (true, .finite 1461) ∧
    exHash.getTimeFloatSpec Double.mulExact Double.divExact (fun d => d) exTimeUnits "Period"
        .nan (.finite 1) (.finite 0) .nan = (true, .finite 1461) ∧
    exHash.getTimeFloat Double.mulExact Double.divExact (fun d => d) exLengthUnits "Period"
        .nan (.finite 1) (.finite 0) .nan = (true, .finite 4) := by
  refine ⟨?_, ?_, ?_, ?_⟩
  · intro fmul fdiv fround lengthUnits timeUnits h key val outputScale defaultScale dval
    refine ⟨?_, rfl⟩
    unfold AssociativeArray.getTimeFloat
    rcases scaled_eq fmul fdiv h key dval outputScale defaultScale
      (h.getLengthScale lengthUnits key) with ⟨v, hv, hr⟩ | ⟨hv, hr⟩
    · rcases scaled_eq fmul fdiv h key val outputScale defaultScale
        (h.getTimeScale timeUnits key) with ⟨v', _, hr'⟩ | ⟨hv', _⟩
      · have h1 : h.getLength fmul fdiv lengthUnits key dval outputScale defaultScale
            = (true, _) := hr
        have h2 : h.getTime fmul fdiv timeUnits key val outputScale defaultScale
            = (true, _) := hr'
        rw [h1, h2]
      · exact absurd hv (hv' v)
    · rcases scaled_eq fmul fdiv h key val outputScale defaultScale
        (h.getTimeScale timeUnits key) with ⟨v', hv', _⟩ | ⟨_, hr'⟩
      · exact absurd hv' (hv v')
      · have h1 : h.getLength fmul fdiv lengthUnits key dval outputScale defaultScale
            = (false, dval) := hr
        have h2 : h.getTime fmul fdiv timeUnits key val outputScale defaultScale
            = (false, val) := hr'
        rw [h1, h2]
  · rw [show exHash.getTime Double.mulExact Double.divExact exTimeUnits "Period"
          .nan (.finite 1) (.finite 0)
        = (true, Double.mulExact (.finite 4)
            (Double.divExact (.finite (1461 / 4)) (.finite 1))) from rfl,
      divExact_finite _ _ one_ne_zero, mulExact_finite]
    norm_num
  · rw [show exHash.getTimeFloatSpec Double.mulExact Double.divExact (fun d => d)
          exTimeUnits "Period" .nan (.finite 1) (.finite 0) .nan
        = (true, Double.mulExact (.finite 4)
            (Double.divExact (.finite (1461 / 4)) (.finite 1))) from rfl,
      divExact_finite _ _ one_ne_zero, mulExact_finite]
    norm_num
  · rw [show exHash.getTimeFloat Double.mulExact Double.divExact (fun d => d)
          exLengthUnits "Period" .nan (.finite 1) (.finite 0) .nan
        = (true, Double.mulExact (.finite 4) (.finite 1)) from rfl, mulExact_finite]
    norm_num

/-! ## The cache of a caching orbit -/

theorem eq_of_not_ne {a b : Double} (h : ¬ Double.ne a b = true) : a = b := by
  have : Double.eq a b = true := by
    cases hab : Double.eq a b with
    | true => rfl
    | false => exact absurd (by simp [Double.ne, hab]) h
  exact (Double.eq_iff.mp this).1

theorem twin_twin (a : SignedDouble) : a.twin.twin = a := by
  cases a with
  | negZero => simp [SignedDouble.twin]
  | value d =>
    by_cases hd : d = .finite 0
    · subst hd; simp [SignedDouble.twin]
    · simp [SignedDouble.twin, hd]

/-- Two doubles that `!=` does not tell apart are the same double or the two
zeros. -/
theorem same_or_twin {a b : SignedDouble} (h : ¬ SignedDouble.ne a b = true) :
    b = a ∨ b = a.twin := by
  have heq : a.toDouble = b.toDouble := eq_of_not_ne h
  cases a with
  | negZero =>
    cases b with
    | negZero => exact Or.inl rfl
    | value d =>
      right
      simp only [SignedDouble.toDouble] at heq
      rw [← heq]
      rfl
  | value d =>
    cases b with
    | negZero =>
      right
      simp only [SignedDouble.toDouble] at heq
      simp [SignedDouble.twin, heq]
    | value d' =>
      left
      simp only [SignedDouble.toDouble] at heq
      rw [heq]

/-- One query gives the answer of the orbit without a cache, at the time of the
query or at the other zero, and keeps the valid slots right. -/
theorem query_transparent (computePosition computeVelocity : SignedDouble → Vector3d)
    (o : CachingOrbit) (q : OrbitQuery)
    (hinv : o.Coherent computePosition computeVelocity) :
    ((o.query computePosition computeVelocity q).1
        = q.uncached computePosition computeVelocity ∨
      (o.query computePosition computeVelocity q).1
        = q.twin.uncached computePosition computeVelocity) ∧
      (o.query computePosition computeVelocity q).2.Coherent
        computePosition computeVelocity := by
  obtain ⟨hp, hv⟩ := hinv
  have hslot : ∀ (f : SignedDouble → Vector3d) (x : Vector3d) (jd : SignedDouble),
      ¬ SignedDouble.ne jd o.lastTime = true →
      (x = f o.lastTime ∨ x = f o.lastTime.twin) → (x = f jd ∨ x = f jd.twin) := by
    intro f x jd hne hx
    rcases same_or_twin hne with hl | hl
    · rw [hl] at hx
      exact hx
    · rw [hl, twin_twin] at hx
      exact hx.symm
  have hback : ∀ (f : SignedDouble → Vector3d) (jd : SignedDouble),
      ¬ SignedDouble.ne jd o.lastTime = true →
      (f jd = f o.lastTime ∨ f jd = f o.lastTime.twin) := by
    intro f jd hne
    rcases same_or_twin hne with hl | hl
    · exact Or.inl (by rw [hl])
    · exact Or.inr (by rw [hl, twin_twin])
  cases q with
  | position jd =>
    simp only [CachingOrbit.query, CachingOrbit.positionAtTime, OrbitQuery.uncached,
      OrbitQuery.twin]
    split
    · exact ⟨Or.inl rfl, fun _ => Or.inl rfl, fun _ => Or.inl rfl⟩
    · rename_i hne
      split
      · rename_i hvalid
        exact ⟨hslot computePosition _ jd hne (hp hvalid), hp, hv⟩
      · exact ⟨Or.inl rfl, fun _ => hback computePosition jd hne, hv⟩
  | velocity jd =>
    simp only [CachingOrbit.query, CachingOrbit.velocityAtTime, OrbitQuery.uncached,
      OrbitQuery.twin]
    split
    · exact ⟨Or.inl rfl, fun _ => Or.inl rfl, fun _ => Or.inl rfl⟩
    · rename_i hne
      split
      · rename_i hvalid
        exact ⟨hslot computeVelocity _ jd hne (hv hvalid), hp, hv⟩
      · exact ⟨Or.inl rfl, hp, fun _ => hback computeVelocity jd hne⟩

/-- The answers of a run, each at the time of its query or at the other
zero. -/
theorem run_transparent (computePosition computeVelocity : SignedDouble → Vector3d)
    (o : CachingOrbit) (qs : List OrbitQuery)
    (hinv : o.Coherent computePosition computeVelocity) :
    List.Forall₂
        (fun ans q => ans = q.uncached computePosition computeVelocity ∨
          ans = q.twin.uncached computePosition computeVelocity)
        (CachingOrbit.run computePosition computeVelocity o qs).1 qs ∧
      (CachingOrbit.run computePosition computeVelocity o qs).2.Coherent
        computePosition computeVelocity := by
  induction qs generalizing o with
  | nil => exact ⟨List.Forall₂.nil, hinv⟩
  | cons q qs ih =>
    obtain ⟨hq, hinv'⟩ := query_transparent computePosition computeVelocity o q hinv
    obtain ⟨hrest, hfinal⟩ := ih (o.query computePosition computeVelocity q).2 hinv'
    exact ⟨List.Forall₂.cons hq hrest, hfinal⟩

/-- When each answer is the uncached one at the time of its query or at a time
with the same uncached answer, the answers are the uncached ones. -/
theorem answers_eq_of_forall₂ (computePosition computeVelocity : SignedDouble → Vector3d)
    (answers : List Vector3d) (qs : List OrbitQuery)
    (h : List.Forall₂
      (fun ans q => ans = q.uncached computePosition computeVelocity ∨
        ans = q.twin.uncached computePosition computeVelocity) answers qs)
    (hsame : ∀ q ∈ qs, q.twin.uncached computePosition computeVelocity
      = q.uncached computePosition computeVelocity) :
    answers = qs.map (OrbitQuery.uncached computePosition computeVelocity) := by
  induction qs generalizing answers with
  | nil =>
    cases h
    rfl
  | cons q qs ih =>
    obtain ⟨ans, rest, hq, hrest, rfl⟩ := List.forall₂_cons_right_iff.mp h
    have hq' : ans = q.uncached computePosition computeVelocity := by
      rcases hq with hq | hq
      · exact hq
      · rw [hq]; exact hsame q (List.mem_cons_self _ _)
    rw [List.map_cons, hq', ih rest hrest (fun q' hq'' => hsame q' (List.mem_cons_of_mem _ hq''))]

/-- C28, against the claim as worded: a position that reads the sign of the
time (`copysign(1.0, jd)` on the first axis) is 1 at `+0.0` and -1 at `-0.0`.
A query at `+0.0` followed by a query at `-0.0` finds the cached time equal
(`-0.0 != +0.0` is false) and answers 1 again, where the orbit without a cache
answers -1. -/
theorem cachingOrbit_zero_counterexample :
    SignedDouble.ne .negZero (.value (.finite 0)) = false ∧
    (CachingOrbit.run exSignPosition exVelocity exOrbit
        [.position (.value (.finite 0)), .position .negZero]).1
      = [(.value (.finite 1), .value (.finite 0), .value (.finite 0)),
          (.value (.finite 1), .value (.finite 0), .value (.finite 0))] ∧
    [OrbitQuery.position (.value (.finite 0)), .position .negZero].map
        (OrbitQuery.uncached exSignPosition exVelocity)
      = [(.value (.finite 1), .value (.finite 0), .value (.finite 0)),
          (.value (.finite (-1)), .value (.finite 0), .value (.finite 0))] ∧
    (CachingOrbit.run exSignPosition exVelocity exOrbit
        [.position (.value (.finite 0)), .position .negZero]).1
      ≠ [OrbitQuery.position (.value (.finite 0)), .position .negZero].map
          (OrbitQuery.uncached exSignPosition exVelocity) :=
  ⟨by decide, by decide, by decide, by decide⟩

/-- C28 (amended): for every sequence of `positionAtTime` and `velocityAtTime`
queries to a caching orbit whose valid slots hold computed values (as they do
when no slot is valid), each answer is what `computePosition` or
`computeVelocity` returns at the time of the query or, when that time is a
zero, at the other zero; the valid slots hold computed values afterwards.  The
answers are those of the orbit without a cache when `computePosition` and
`computeVelocity` return the same at `-0.0` and at `+0.0`, and also when no
query is made at a zero. -/
theorem cachingOrbit_transparent (computePosition computeVelocity : SignedDouble → Vector3d)
    (o : CachingOrbit) (qs : List OrbitQuery)
    (hinv : o.Coherent computePosition computeVelocity) :
    List.Forall₂
        (fun ans q => ans = q.uncached computePosition computeVelocity ∨
          ans = q.twin.uncached computePosition computeVelocity)
        (CachingOrbit.run computePosition computeVelocity o qs).1 qs ∧
      (CachingOrbit.run computePosition computeVelocity o qs).2.Coherent
        computePosition computeVelocity ∧
      ((computePosition .negZero = computePosition (.value (.finite 0)) ∧
          computeVelocity .negZero = computeVelocity (.value (.finite 0))) →
        (CachingOrbit.run computePosition computeVelocity o qs).1
          = qs.map (OrbitQuery.uncached computePosition computeVelocity)) ∧
      ((∀ q ∈ qs, q ≠ .position .negZero ∧ q ≠ .position (.value (.finite 0)) ∧
          q ≠ .velocity .negZero ∧ q ≠ .velocity (.value (.finite 0))) →
        (CachingOrbit.run computePosition computeVelocity o qs).1
          = qs.map (OrbitQuery.uncached computePosition computeVelocity)) := by
  obtain ⟨hall, hfinal⟩ := run_transparent computePosition computeVelocity o qs hinv
  refine ⟨hall, hfinal, ?_, ?_⟩
  · rintro ⟨hzp, hzv⟩
    apply answers_eq_of_forall₂ _ _ _ _ hall
    have htwin : ∀ (f : SignedDouble → Vector3d), f .negZero = f (.value (.finite 0)) →
        ∀ t : SignedDouble, f t.twin = f t := by
      intro f hf t
      cases t with
      | negZero => exact hf.symm
      | value d =>
        by_cases hd : d = .finite 0
        · subst hd
          simp only [SignedDouble.twin, if_true]
          exact hf
        · simp only [SignedDouble.twin, hd, if_false]
    intro q _
    cases q with
    | position jd => exact htwin computePosition hzp jd
    | velocity jd => exact htwin computeVelocity hzv jd
  · intro hnz
    apply answers_eq_of_forall₂ _ _ _ _ hall
    have htwin : ∀ t : SignedDouble, t ≠ .negZero → t ≠ .value (.finite 0) → t.twin = t := by
      intro t h1 h2
      cases t with
      | negZero => exact absurd rfl h1
      | value d =>
        have hd : d ≠ .finite 0 := fun h => h2 (by rw [h])
        simp only [SignedDouble.twin, hd, if_false]
    intro q hq
    obtain ⟨h1, h2, h3, h4⟩ := hnz q hq
    cases q with
    | position jd =>
      have : jd.twin = jd :=
        htwin jd (fun h => h1 (by rw [h])) (fun h => h2 (by rw [h]))
      simp only [OrbitQuery.twin, this]
    | velocity jd =>
      have : jd.twin = jd :=
        htwin jd (fun h => h3 (by rw [h])) (fun h => h4 (by rw [h]))
      simp only [OrbitQuery.twin, this]

theorem cachingOrbit_transparent_witness :
    exOrbit.Coherent exPosition exVelocity ∧
    (CachingOrbit.run exPosition exVelocity exOrbit
        [.position (.value (.finite 3)), .position (.value (.finite 3)),
          .velocity (.value (.finite 3)), .velocity .negZero, .position (.value .nan)]).1
      = [(.value (.finite 3), .value (.finite 1), .value (.finite 1)),
          (.value (.finite 3), .value (.finite 1), .value (.finite 1)),
          (.value (.finite 2), .value (.finite 3), .value (.finite 2)),
          (.value (.finite 2), .negZero, .value (.finite 2)),
          (.value .nan, .value (.finite 1), .value (.finite 1))] ∧
    (CachingOrbit.run exPosition exVelocity exOrbit
        [.position (.value (.finite 3)), .position (.value (.finite 3)),
          .velocity (.value (.finite 3)), .velocity (.value (.finite 7)),
          .position (.value .nan)]).1
      = [OrbitQuery.position (.value (.finite 3)), .position (.value (.finite 3)),
          .velocity (.value (.finite 3)), .velocity (.value (.finite 7)),
          .position (.value .nan)].map (OrbitQuery.uncached exPosition exVelocity) :=
  ⟨⟨fun h => (by cases h), fun h => (by cases h)⟩, by decide,
    (cachingOrbit_transparent exPosition exVelocity exOrbit
      [.position (.value (.finite 3)), .position (.value (.finite 3)),
        .velocity (.value (.finite 3)), .velocity (.value (.finite 7)),
        .position (.value .nan)]
      ⟨fun h => (by cases h), fun h => (by cases h)⟩).2.2.2 (by decide)⟩

/-! ## The special case of `findPhase` -/

/-- C34: the special case of `Timeline::findPhase` for one phase changes no
result: on a timeline with exactly one phase `findPhase t` returns that phase,
which is what the linear scan returns, for every `t` (a NaN included); on every
timeline `findPhase` and the linear scan agree; and on a non-empty timeline
the phase returned is a member of the timeline. -/
theorem findPhase_fastPath_exact (w : World n) (tl : TimelinePtr) (t : Double) :
    ((w.timelines tl).phases.length = 1 →
      Timeline.findPhase w tl t = (w.timelines tl).phases.head? ∧
      Timeline.findPhaseScan w tl t = (w.timelines tl).phases.head?) ∧
    Timeline.findPhase w tl t = Timeline.findPhaseScan w tl t ∧
    ((w.timelines tl).phases ≠ [] →
      ∃ p, Timeline.findPhase w tl t = some p ∧ p ∈ (w.timelines tl).phases) := by
  have hscan : Timeline.findPhase w tl t = Timeline.findPhaseScan w tl t :=
    findPhase_eq_scan w tl t
  refine ⟨?_, hscan, ?_⟩
  · intro hlen
    have hfast : Timeline.findPhase w tl t = (w.timelines tl).phases.head? := by
      unfold Timeline.findPhase
      simp only [hlen, if_true]
    exact ⟨hfast, by rw [← hscan, hfast]⟩
  · intro hne
    rw [findPhase_eq_scan]
    cases hfind : (w.timelines tl).phases.find?
        (fun phase => Double.lt t (w.phases phase).endTime) with
    | some p => exact ⟨p, rfl, List.mem_of_find?_eq_some hfind⟩
    | none =>
      refine ⟨(w.timelines tl).phases.getLast hne, ?_, List.getLast_mem hne⟩
      exact List.getLast?_eq_getLast _ hne

theorem findPhase_fastPath_exact_witness :
    (exWorld.timelines 1).phases.length = 1 ∧ (exWorld.timelines 1).phases ≠ [] ∧
    Timeline.findPhase exWorld 1 (.finite 45) = some 4 ∧
    Timeline.findPhase exWorld 1 (.finite 99) = some 4 ∧
    Timeline.findPhaseScan exWorld 1 (.finite 99) = some 4 ∧
    Timeline.findPhase exWorld 1 .nan = some 4 ∧
    Timeline.findPhaseScan exWorld 1 .nan = some 4 ∧
    Timeline.findPhase exWorld 0 (.finite 15) = some 2 ∧
    ((exWorld.timelines 1).phases.length = 1 →
      Timeline.findPhase exWorld 1 .nan = (exWorld.timelines 1).phases.head? ∧
      Timeline.findPhaseScan exWorld 1 .nan = (exWorld.timelines 1).phases.head?) ∧
    Timeline.findPhase exWorld 1 .nan = Timeline.findPhaseScan exWorld 1 .nan ∧
    ((exWorld.timelines 1).phases ≠ [] →
      ∃ p, Timeline.findPhase exWorld 1 .nan = some p ∧ p ∈ (exWorld.timelines 1).phases) :=
  ⟨by decide, by decide, by decide, by decide, by decide, by decide, by decide, by decide,
    findPhase_fastPath_exact exWorld 1 .nan⟩

/-! ## `addChild` followed by `removeChild` -/

/-- C33, against the claim as worded: the phase at address 5 of the first
hierarchy is referenced by nothing (its count is 0) and is not a child of
frame tree 1.  `addChild` followed by `removeChild` on tree 1 restores the
child list and the count, but the release in `removeChild` takes the count
from 1 to 0, so the phase is destroyed: more than a dirty flag differs. -/
theorem addChild_removeChild_counterexample :
    (exWorld.trees 1).children = [4] ∧
    ((exWorld.phases 5).refCount, (exWorld.phases 5).destroyed) = (0, false) ∧
    (FrameTree.addChild 3 exWorld 1 5).map
        (fun w1 => ((w1.trees 1).children, (w1.phases 5).refCount, (w1.phases 5).destroyed))
      = some ([4, 5], 1, false) ∧
    ((FrameTree.addChild 3 exWorld 1 5).bind (fun w1 => FrameTree.removeChild 3 w1 1 5)).map
        (fun w2 => ((w2.trees 1).children, (w2.phases 5).refCount, (w2.phases 5).destroyed))
      = some ([4], 0, true) :=
  ⟨by decide, by decide, by decide, by decide⟩

/-- C33 (amended): `addChild(phase)` followed by `removeChild(phase)` on the
same frame tree returns (with fuel above the number of frame trees) and leaves
the child list of the tree as the list with the phase appended and its first
occurrence erased: the list itself when the phase was not a child, a
permutation of the list in every case.  The reference count of the phase is
the one before the two calls; the phase is as before when its count was
positive, and is destroyed when its count was not, nothing else of it
changing; no other phase, no timeline, no body, no other child list, no parent
and no aggregate changes; the dirty flag of the tree is set and no flag is
cleared. -/
theorem addChild_removeChild_restores (fuel : Nat) (w : World n) (t : Fin n)
    (phase : PhasePtr) (hfuel : n < fuel) :
    ∃ w1 w2, FrameTree.addChild fuel w t phase = some w1 ∧
      FrameTree.removeChild fuel w1 t phase = some w2 ∧
      (w2.trees t).children = ((w.trees t).children ++ [phase]).erase phase ∧
      (phase ∉ (w.trees t).children → (w2.trees t).children = (w.trees t).children) ∧
      (w2.trees t).children.Perm (w.trees t).children ∧
      (w2.phases phase).refCount = (w.phases phase).refCount ∧
      (0 < (w.phases phase).refCount → w2.phases phase = w.phases phase) ∧
      w2.phases phase = { w.phases phase with
        destroyed := (w.phases phase).destroyed || decide ((w.phases phase).refCount ≤ 0) } ∧
      ((w.phases phase).refCount ≤ 0 → (w2.phases phase).destroyed = true) ∧
      (∀ q, q ≠ phase → w2.phases q = w.phases q) ∧
      w2.timelines = w.timelines ∧ w2.bodies = w.bodies ∧
      (∀ y, y ≠ t → (w2.trees y).children = (w.trees y).children) ∧
      (∀ y, (w2.trees y).bodyParent = (w.trees y).bodyParent ∧
        (w2.trees y).aggregates = (w.trees y).aggregates) ∧
      (w2.trees t).changed = true ∧
      (∀ y, (w.trees y).changed = true → (w2.trees y).changed = true) := by
  obtain ⟨w1, hw1⟩ := markChanged_returns fuel
    ((w.addRef phase).setChildren t (((w.addRef phase).trees t).children ++ [phase])) t
    (lt_of_le_of_lt (cleanCount_le _) hfuel)
  have hg1 := markChanged_grows _ _ _ _ hw1
  have hch1 : (w1.trees t).children = (w.trees t).children ++ [phase] := by
    rw [hg1.children t]
    simp [World.setChildren, World.addRef]
  have hmem : phase ∈ (w1.trees t).children := by
    rw [hch1]; simp
  obtain ⟨w2, hw2⟩ := markChanged_returns fuel
    ((w1.release phase).setChildren t ((w1.trees t).children.erase phase)) t
    (lt_of_le_of_lt (cleanCount_le _) hfuel)
  have hg2 := markChanged_grows _ _ _ _ hw2
  have hs2 := markChanged_sets _ _ _ _ hw2
  have hph1 : w1.phases = Function.update w.phases phase (w.phases phase).addRef := hg1.phases
  have hph2 : w2.phases = Function.update w1.phases phase (w1.phases phase).release :=
    hg2.phases
  have hch2 : (w2.trees t).children = ((w.trees t).children ++ [phase]).erase phase := by
    rw [hg2.children t, ← hch1]
    simp [World.setChildren, World.release]
  have hother : ∀ y, y ≠ t → w2.trees y = w2.trees y ∧
      (w2.trees y).children = (w.trees y).children := by
    intro y hy
    refine ⟨rfl, ?_⟩
    rw [hg2.children y]
    have : (((w1.release phase).setChildren t ((w1.trees t).children.erase phase)).trees y)
        = w1.trees y := by
      simp [World.setChildren, World.release, Function.update_noteq hy]
    rw [this, hg1.children y]
    simp [World.setChildren, World.addRef, Function.update_noteq hy]
  have htree : ∀ y, (w2.trees y).bodyParent = (w.trees y).bodyParent ∧
      (w2.trees y).aggregates = (w.trees y).aggregates ∧
      ((w.trees y).changed = true → (w2.trees y).changed = true) := by
    intro y
    have h2 : (((w1.release phase).setChildren t
        ((w1.trees t).children.erase phase)).trees y).bodyParent = (w1.trees y).bodyParent ∧
        (((w1.release phase).setChildren t
          ((w1.trees t).children.erase phase)).trees y).aggregates
          = (w1.trees y).aggregates ∧
        (((w1.release phase).setChildren t
          ((w1.trees t).children.erase phase)).trees y).changed = (w1.trees y).changed := by
      by_cases hy : y = t
      · subst hy; simp [World.setChildren, World.release, FrameTree.aggregates]
      · simp [World.setChildren, World.release, Function.update_noteq hy]
    have h1 : (((w.addRef phase).setChildren t
        (((w.addRef phase).trees t).children ++ [phase])).trees y).bodyParent
          = (w.trees y).bodyParent ∧
        (((w.addRef phase).setChildren t
          (((w.addRef phase).trees t).children ++ [phase])).trees y).aggregates
          = (w.trees y).aggregates ∧
        (((w.addRef phase).setChildren t
          (((w.addRef phase).trees t).children ++ [phase])).trees y).changed
          = (w.trees y).changed := by
      by_cases hy : y = t
      · subst hy; simp [World.setChildren, World.addRef, FrameTree.aggregates]
      · simp [World.setChildren, World.addRef, Function.update_noteq hy]
    refine ⟨?_, ?_, ?_⟩
    · rw [hg2.bodyParent y, h2.1, hg1.bodyParent y, h1.1]
    · rw [hg2.aggregates y, h2.2.1, hg1.aggregates y, h1.2.1]
    · intro hc
      apply hg2.changed y
      rw [h2.2.2]
      apply hg1.changed y
      rw [h1.2.2]
      exact hc
  have hrc : (w2.phases phase).refCount = (w.phases phase).refCount := by
    simp [hph2, hph1, TimelinePhase.release, TimelinePhase.addRef]
  have hrec : w2.phases phase = { w.phases phase with
      destroyed := (w.phases phase).destroyed || decide ((w.phases phase).refCount ≤ 0) } := by
    simp [hph2, hph1, TimelinePhase.release, TimelinePhase.addRef]
  have hdes : (w.phases phase).refCount ≤ 0 → (w2.phases phase).destroyed = true := by
    intro hle
    rw [hrec]
    simp [hle]
  refine ⟨w1, w2, hw1, ?_, hch2, ?_, ?_, hrc, ?_, hrec, hdes, ?_, ?_, ?_,
    fun y hy => (hother y hy).2, fun y => ⟨(htree y).1, (htree y).2.1⟩, hs2,
    fun y => (htree y).2.2⟩
  · rw [removeChild_of_mem fuel w1 t phase hmem]
    exact hw2
  · intro habs
    rw [hch2, List.erase_append_right _ habs]
    simp
  · rw [hch2]
    have h1 : ((w.trees t).children ++ [phase]).Perm
        (phase :: ((w.trees t).children ++ [phase]).erase phase) :=
      List.perm_cons_erase (by simp)
    have h2 : ((w.trees t).children ++ [phase]).Perm (phase :: (w.trees t).children) :=
      List.perm_append_singleton _ _
    exact (List.Perm.cons_inv (h1.symm.trans h2))
  · intro hpos
    have hnot : ¬ ((w.phases phase).refCount ≤ 0) := not_le.mpr hpos
    simp [hph2, hph1, TimelinePhase.release, TimelinePhase.addRef, hnot]
  · intro q hq
    simp [hph2, hph1, Function.update_noteq hq]
  · rw [hg2.timelines]
    show w1.timelines = w.timelines
    rw [hg1.timelines]
    rfl
  · rw [hg2.bodies]
    show w1.bodies = w.bodies
    rw [hg1.bodies]
    rfl

theorem addChild_removeChild_restores_witness :
    ((FrameTree.addChild 3 exWorld 0 4).bind (fun w1 => FrameTree.removeChild 3 w1 0 4)).map
        (fun w2 => ((w2.trees 0).children, (w2.phases 4).refCount, (w2.trees 0).changed))
      = some ([1, 2, 3], 2, true) ∧
    ((FrameTree.addChild 3 exWorld 0 1).bind (fun w1 => FrameTree.removeChild 3 w1 0 1)).map
        (fun w2 => ((w2.trees 0).children, (w2.phases 1).refCount, (w2.trees 0).changed))
      = some ([2, 3, 1], 2, true) ∧
    (exWorld.trees 0).children = [1, 2, 3] ∧
    ∃ w1 w2, FrameTree.addChild 3 exWorld 0 4 = some w1 ∧
      FrameTree.removeChild 3 w1 0 4 = some w2 ∧
      (w2.trees 0).children = ((exWorld.trees 0).children ++ [4]).erase 4 ∧
      (4 ∉ (exWorld.trees 0).children → (w2.trees 0).children = (exWorld.trees 0).children) ∧
      (w2.trees 0).children.Perm (exWorld.trees 0).children ∧
      (w2.phases 4).refCount = (exWorld.phases 4).refCount ∧
      (0 < (exWorld.phases 4).refCount → w2.phases 4 = exWorld.phases 4) ∧
      w2.phases 4 = { exWorld.phases 4 with
        destroyed := (exWorld.phases 4).destroyed ||
          decide ((exWorld.phases 4).refCount ≤ 0) } ∧
      ((exWorld.phases 4).refCount ≤ 0 → (w2.phases 4).destroyed = true) ∧
      (∀ q, q ≠ 4 → w2.phases q = exWorld.phases q) ∧
      w2.timelines = exWorld.timelines ∧ w2.bodies = exWorld.bodies ∧
      (∀ y, y ≠ 0 → (w2.trees y).children = (exWorld.trees y).children) ∧
      (∀ y, (w2.trees y).bodyParent = (exWorld.trees y).bodyParent ∧
        (w2.trees y).aggregates = (exWorld.trees y).aggregates) ∧
      (w2.trees 0).changed = true ∧
      (∀ y, (exWorld.trees y).changed = true → (w2.trees y).changed = true) :=
  ⟨by decide, by decide, by decide,
    addChild_removeChild_restores 3 exWorld 0 4 (by decide)⟩

/-! ## The simulation -/

theorem setPauseState_getTimeScale (s : Simulation) (state : Bool) :
    (s.setPauseState state).getTimeScale = s.getTimeScale := by
  unfold Simulation.setPauseState Simulation.getTimeScale
  cases hp : s.pauseState <;> cases state <;> simp [hp]

theorem setPauseState_pausedAtZero (s : Simulation) (state : Bool) (h : s.PausedAtZero) :
    (s.setPauseState state).PausedAtZero := by
  unfold Simulation.PausedAtZero at h ⊢
  unfold Simulation.setPauseState
  cases hp : s.pauseState <;> cases state <;> simp [hp] at h ⊢
  exact h

/-- C35: `getTimeScale()` returns the same value after `setPauseState(b)` as
before it, in every state and for every `b`, hence after every sequence of
such calls.  After `setPauseState(true)` the simulation is paused, and the
member `timeScale` is 0 when the call was made in a state that was not paused
or was paused with `timeScale` at 0; `setPauseState` and `setTimeScale` keep a
paused simulation at `timeScale` 0. -/
theorem setPauseState_keeps_timeScale (s : Simulation) :
    (∀ state, (s.setPauseState state).getTimeScale = s.getTimeScale) ∧
    (∀ states : List Bool,
      (states.foldl Simulation.setPauseState s).getTimeScale = s.getTimeScale) ∧
    (s.setPauseState true).getPauseState = true ∧
    (s.pauseState = false → (s.setPauseState true).timeScale = .finite 0) ∧
    (s.PausedAtZero →
      (s.setPauseState true).timeScale = .finite 0 ∧
      (∀ state, (s.setPauseState state).PausedAtZero) ∧
      (∀ x, (s.setTimeScale x).PausedAtZero) ∧
      ∀ states : List Bool, (states.foldl Simulation.setPauseState s).PausedAtZero) := by
  refine ⟨setPauseState_getTimeScale s, ?_, ?_, ?_, ?_⟩
  · intro states
    induction states generalizing s with
    | nil => rfl
    | cons b bs ih =>
      rw [List.foldl_cons, ih, setPauseState_getTimeScale]
  · unfold Simulation.setPauseState Simulation.getPauseState
    cases hp : s.pauseState <;> simp [hp]
  · intro hp
    unfold Simulation.setPauseState
    simp [hp]
  · intro hz
    refine ⟨?_, fun state => setPauseState_pausedAtZero s state hz, ?_, ?_⟩
    · have := setPauseState_pausedAtZero s true hz
      apply this
      unfold Simulation.setPauseState
      cases hp : s.pauseState <;> simp [hp]
    · intro x
      unfold Simulation.PausedAtZero at hz ⊢
      unfold Simulation.setTimeScale
      cases hp : s.pauseState <;> simp [hp] at hz ⊢
      exact hz
    · intro states
      induction states generalizing s with
      | nil => exact hz
      | cons b bs ih =>
        rw [List.foldl_cons]
        exact ih _ (setPauseState_pausedAtZero s b hz)

theorem setPauseState_keeps_timeScale_witness :
    exSimulation.pauseState = false ∧ exSimulation.PausedAtZero ∧
    exSimulation.getTimeScale = .finite 3 ∧
    (exSimulation.setPauseState true).timeScale = .finite 0 ∧
    (exSimulation.setPauseState true).getTimeScale = .finite 3 ∧
    ((exSimulation.setPauseState true).setPauseState true).getTimeScale = .finite 3 ∧
    ([true, true, false, true].foldl Simulation.setPauseState exSimulation).getTimeScale
      = .finite 3 ∧
    (∀ state, (exSimulation.setPauseState state).getTimeScale = exSimulation.getTimeScale) ∧
    (∀ states : List Bool,
      (states.foldl Simulation.setPauseState exSimulation).getTimeScale
        = exSimulation.getTimeScale) ∧
    (exSimulation.setPauseState true).getPauseState = true ∧
    (exSimulation.pauseState = false →
      (exSimulation.setPauseState true).timeScale = .finite 0) ∧
    (exSimulation.PausedAtZero →
      (exSimulation.setPauseState true).timeScale = .finite 0 ∧
      (∀ state, (exSimulation.setPauseState state).PausedAtZero) ∧
      (∀ x, (exSimulation.setTimeScale x).PausedAtZero) ∧
      ∀ states : List Bool,
        (states.foldl Simulation.setPauseState exSimulation).PausedAtZero) :=
  ⟨rfl, fun h => (by cases h), by decide, by decide, by decide, by decide, by decide,
    setPauseState_keeps_timeScale exSimulation⟩

theorem setActiveObserver_mem (s : Simulation) (o : ObserverPtr)
    (h : s.activeObserver ∈ s.observers) :
    (s.setActiveObserver o).activeObserver ∈ (s.setActiveObserver o).observers := by
  unfold Simulation.setActiveObserver
  split
  · rename_i hidx
    exact List.indexOf_lt_length.mp (lt_of_le_of_ne List.indexOf_le_length hidx)
  · exact h

/-- C36: after the constructor and any sequence of `addObserver` and
`setActiveObserver` calls the active observer is in the list of observers.
`setActiveObserver(o)` changes nothing when `o` is not in the list, and makes
`o` the active observer when it is; `addObserver` appends an observer and
leaves the active one as it was. -/
theorem activeObserver_mem_observers (fresh : ObserverPtr) (timeScale storedTimeScale : Double)
    (pauseState : Bool) (calls : List ObserverCall) :
    (calls.foldl Simulation.call
        (Simulation.new fresh timeScale storedTimeScale pauseState)).activeObserver
      ∈ (calls.foldl Simulation.call
        (Simulation.new fresh timeScale storedTimeScale pauseState)).observers ∧
    (∀ (s : Simulation) (o : ObserverPtr), o ∉ s.observers → s.setActiveObserver o = s) ∧
    (∀ (s : Simulation) (o : ObserverPtr), o ∈ s.observers →
      (s.setActiveObserver o).activeObserver = o ∧
      (s.setActiveObserver o).observers = s.observers) ∧
    (∀ (s : Simulation) (o : ObserverPtr),
      (s.addObserver o).2.activeObserver = s.activeObserver ∧
      (s.addObserver o).2.observers = s.observers ++ [o] ∧ (s.addObserver o).1 = o) := by
  refine ⟨?_, ?_, ?_, ?_⟩
  · have hinv : ∀ (calls : List ObserverCall) (s : Simulation),
        s.activeObserver ∈ s.observers →
        (calls.foldl Simulation.call s).activeObserver
          ∈ (calls.foldl Simulation.call s).observers := by
      intro calls
      induction calls with
      | nil => exact fun s hs => hs
      | cons c cs ih =>
        intro s hs
        rw [List.foldl_cons]
        apply ih
        cases c with
        | addObserver o =>
          show s.activeObserver ∈ s.observers ++ [o]
          exact List.mem_append_left _ hs
        | setActiveObserver o => exact setActiveObserver_mem s o hs
    apply hinv
    simp [Simulation.new]
  · intro s o ho
    unfold Simulation.setActiveObserver
    rw [if_neg]
    rw [not_not]
    exact List.indexOf_eq_length.mpr ho
  · intro s o ho
    unfold Simulation.setActiveObserver
    have : s.observers.indexOf o ≠ s.observers.length :=
      ne_of_lt (List.indexOf_lt_length.mpr ho)
    rw [if_pos this]
    exact ⟨rfl, rfl⟩
  · intro s o
    exact ⟨rfl, rfl, rfl⟩

theorem activeObserver_mem_observers_witness :
    ([ObserverCall.addObserver 8, .setActiveObserver 9, .setActiveObserver 8,
        .addObserver 9].foldl Simulation.call exSimulation).observers = [7, 8, 9] ∧
    ([ObserverCall.addObserver 8, .setActiveObserver 9].foldl Simulation.call
        exSimulation).activeObserver = 7 ∧
    ([ObserverCall.addObserver 8, .setActiveObserver 9, .setActiveObserver 8,
        .addObserver 9].foldl Simulation.call exSimulation).activeObserver = 8 ∧
    ([ObserverCall.addObserver 8, .setActiveObserver 9, .setActiveObserver 8,
        .addObserver 9].foldl Simulation.call
        (Simulation.new 7 (.finite 3) (.finite 1) false)).activeObserver
      ∈ ([ObserverCall.addObserver 8, .setActiveObserver 9, .setActiveObserver 8,
        .addObserver 9].foldl Simulation.call
        (Simulation.new 7 (.finite 3) (.finite 1) false)).observers :=
  ⟨by decide, by decide, by decide,
    (activeObserver_mem_observers 7 (.finite 3) (.finite 1) false
      [.addObserver 8, .setActiveObserver 9, .setActiveObserver 8, .addObserver 9]).1⟩

/-! ## Clearing from the root -/

/-- A run of `markUpdated` clears every tree that it reaches from its tree
through dirty trees. -/
theorem markUpdated_reach_clears (fuel : Nat) (w : World n) (t : Fin n) (w' : World n)
    (h : FrameTree.markUpdated fuel w t = some w') (y : Fin n) (hy : w.DirtyReach t y) :
    (w'.trees y).changed = false := by
  obtain ⟨ht, hpath⟩ := hy
  induction hpath with
  | refl => exact markUpdated_clears _ _ _ _ h
  | tail hprev hstep ih =>
    rename_i a b
    exact markUpdated_closed _ _ _ _ h a (dirtyReach_changed ⟨ht, hprev⟩) ih b hstep.1

/-- In an acyclic upward closed hierarchy whose links agree and whose only
tree of a star is `t`, every dirty tree is reached from `t` through dirty
trees. -/
theorem dirtyReach_of_upClosed (w : World n) (rank : Fin n → Nat) (t : Fin n)
    (hacyc : w.Acyclic rank) (hup : w.UpClosed) (hlinked : w.Linked)
    (hroot : ∀ y, (w.trees y).bodyParent = none → y = t) :
    ∀ y, (w.trees y).changed = true → w.DirtyReach t y := by
  have hbound : ∀ y, rank y ≤ Finset.univ.sup rank := fun y =>
    Finset.le_sup (Finset.mem_univ y)
  have hrank : ∀ y p, p ∈ w.parents y → rank y < rank p := by
    intro y p hp
    have hmem := hlinked.1 y p hp
    simp only [World.childTrees, List.mem_filterMap] at hmem
    obtain ⟨phase, hphase, hct⟩ := hmem
    exact hacyc p phase hphase y hct
  have hmain : ∀ k y, Finset.univ.sup rank - rank y < k → (w.trees y).changed = true →
      w.DirtyReach t y := by
    intro k
    induction k with
    | zero => intro y hk; exact absurd hk (Nat.not_lt_zero _)
    | succ k ih =>
      intro y hk hy
      rcases hup y hy with hnone | ⟨p, hp, hpc⟩
      · have := hroot y hnone
        subst this
        exact ⟨hy, Relation.ReflTransGen.refl⟩
      · have hlt := hrank y p hp
        have hb := hbound p
        obtain ⟨ht, hpath⟩ := ih p (by omega) hpc
        exact ⟨ht, Relation.ReflTransGen.tail hpath ⟨hlinked.1 y p hp, hy⟩⟩
  intro y hy
  exact hmain _ y (Nat.lt_succ_self _) hy

theorem childTrees_of_grows {w w' : World n} (h : FlagsGrow w w') (t : Fin n) :
    w'.childTrees t = w.childTrees t := by
  have hfun : w'.childTree = w.childTree := by
    funext phase; simp only [World.childTree, h.bodies, h.phases]
  simp only [World.childTrees, h.children t, hfun]

/-- Two worlds with the same phases, timelines, bodies and frame trees are the
same world. -/
theorem world_eq {a b : World n} (hp : a.phases = b.phases) (ht : a.timelines = b.timelines)
    (hb : a.bodies = b.bodies) (htr : a.trees = b.trees) : a = b := by
  cases a; cases b
  simp only at hp ht hb htr
  subst hp ht hb htr
  rfl

/-- Two frame trees with the same members are the same. -/
theorem frameTree_eq {a b : FrameTree} (h₁ : a.bodyParent = b.bodyParent)
    (h₂ : a.children = b.children) (h₃ : a.changed = b.changed)
    (h₄ : a.aggregates = b.aggregates) : a = b := by
  cases a; cases b
  simp only [FrameTree.aggregates, Prod.mk.injEq] at h₁ h₂ h₃ h₄
  obtain ⟨h₄, h₅, h₆, h₇⟩ := h₄
  subst h₁ h₂ h₃ h₄ h₅ h₆ h₇
  rfl

/-- C31, against the claim as worded: in the third hierarchy `removeChild` of
phase 23 from frame tree 2 gives an acyclic hierarchy with the single root 0
in which every dirty tree has a dirty parent tree, and in which tree 3 lies in
the subtree of the root (below tree 1, which lies below tree 0);
`markUpdated` on the root leaves tree 3 dirty. -/
theorem markUpdated_root_counterexample :
    (FrameTree.removeChild 5 exShared 2 23).map
        (fun w1 => (decide w1.UpClosed, decide (w1.Acyclic exSharedRank),
          decide (3 ∈ w1.childTrees 1), decide (1 ∈ w1.childTrees 0)))
      = some (true, true, true, true) ∧
    (FrameTree.removeChild 5 exShared 2 23).map
        (fun w1 => (decide (∀ y, (w1.trees y).bodyParent = none → y = 0), w1.parents 3,
          (w1.trees 2).changed, (w1.trees 2).children))
      = some (true, [1, 2], true, []) ∧
    ((FrameTree.removeChild 5 exShared 2 23).bind
        (fun w1 => FrameTree.markUpdated 5 w1 0)).map
      (fun w2 => ((w2.trees 0).changed, (w2.trees 1).changed, (w2.trees 2).changed,
        (w2.trees 3).changed))
      = some (false, false, false, true) :=
  ⟨by decide, by decide, by decide⟩

/-- C31 (amended): in an acyclic hierarchy in which every dirty frame tree is
the tree of a star or has a dirty parent tree, whose links agree (every tree is
a child tree of each of its parent trees, every tree of a body has a parent
tree) and in which `t` is the only tree of a star, `markUpdated` on `t`
returns and leaves no frame tree dirty; and `markChanged` on any tree followed
by `markUpdated` on `t` returns and leaves no frame tree dirty, giving back the
state before the two calls when no tree was dirty in it. -/
theorem markUpdated_root_clears (fuel : Nat) (rank : Fin n → Nat) (w : World n) (t : Fin n)
    (hacyc : w.Acyclic rank) (hup : w.UpClosed) (hlinked : w.Linked)
    (hroot : ∀ y, (w.trees y).bodyParent = none → y = t) (hfuel : n < fuel) :
    (∃ w', FrameTree.markUpdated fuel w t = some w' ∧
      ∀ y, (w'.trees y).changed = false) ∧
    ∀ x, ∃ w1 w2, FrameTree.markChanged fuel w x = some w1 ∧
      FrameTree.markUpdated fuel w1 t = some w2 ∧
      (∀ y, (w2.trees y).changed = false) ∧
      ((∀ y, (w.trees y).changed = false) → w2 = w) := by
  have hall : ∀ (a : World n), a.Acyclic rank → a.UpClosed → a.Linked →
      (∀ y, (a.trees y).bodyParent = none → y = t) →
      ∃ a', FrameTree.markUpdated fuel a t = some a' ∧
        ∀ y, (a'.trees y).changed = false := by
    intro a hac hu hl hr
    obtain ⟨a', ha'⟩ := markUpdated_returns fuel a t (lt_of_le_of_lt (dirtyCount_le a) hfuel)
    refine ⟨a', ha', ?_⟩
    intro y
    cases hy : (a.trees y).changed with
    | false => exact changed_false_of_shrinks (markUpdated_shrinks _ _ _ _ ha') hy
    | true =>
      exact markUpdated_reach_clears _ _ _ _ ha' y
        (dirtyReach_of_upClosed a rank t hac hu hl hr y hy)
  refine ⟨hall w hacyc hup hlinked hroot, ?_⟩
  intro x
  obtain ⟨w1, hw1⟩ := markChanged_returns fuel w x (lt_of_le_of_lt (cleanCount_le w) hfuel)
  have hg := markChanged_grows _ _ _ _ hw1
  have hchild : w1.childTree = w.childTree := by
    funext phase; simp only [World.childTree, hg.bodies, hg.phases]
  have hac1 : w1.Acyclic rank := by
    intro y phase hphase tree htree
    rw [hg.children y] at hphase
    rw [hchild] at htree
    exact hacyc y phase hphase tree htree
  have hup1 : w1.UpClosed := markChanged_upClosed fuel w x w1 hup hlinked.2 hw1
  have hl1 : w1.Linked := by
    refine ⟨?_, ?_⟩
    · intro y p hp
      rw [parents_of_grows hg] at hp
      rw [childTrees_of_grows hg]
      exact hlinked.1 y p hp
    · intro y hy
      rw [parents_of_grows hg]
      rw [hg.bodyParent y] at hy
      exact hlinked.2 y hy
  have hr1 : ∀ y, (w1.trees y).bodyParent = none → y = t := by
    intro y hy
    rw [hg.bodyParent y] at hy
    exact hroot y hy
  obtain ⟨w2, hw2, hclear⟩ := hall w1 hac1 hup1 hl1 hr1
  have hs := markUpdated_shrinks _ _ _ _ hw2
  refine ⟨w1, w2, hw1, hw2, hclear, ?_⟩
  intro hclean
  apply world_eq
  · rw [hs.phases, hg.phases]
  · rw [hs.timelines, hg.timelines]
  · rw [hs.bodies, hg.bodies]
  · funext y
    apply frameTree_eq
    · rw [hs.bodyParent y, hg.bodyParent y]
    · rw [hs.children y, hg.children y]
    · rw [hclear y, hclean y]
    · rw [hs.aggregates y, hg.aggregates y]

theorem markUpdated_root_clears_witness :
    exShared.Acyclic exSharedRank ∧ exShared.UpClosed ∧ exShared.Linked ∧
    (∀ y, (exShared.trees y).bodyParent = none → y = 0) ∧
    (exShared.trees 3).changed = true ∧
    (FrameTree.markUpdated 5 exShared 0).map
        (fun w' => ((w'.trees 0).changed, (w'.trees 1).changed, (w'.trees 2).changed,
          (w'.trees 3).changed)) = some (false, false, false, false) ∧
    (∃ w', FrameTree.markUpdated 5 exShared 0 = some w' ∧
      ∀ y, (w'.trees y).changed = false) ∧
    ∀ x, ∃ w1 w2, FrameTree.markChanged 5 exShared x = some w1 ∧
      FrameTree.markUpdated 5 w1 0 = some w2 ∧
      (∀ y, (w2.trees y).changed = false) ∧
      ((∀ y, (exShared.trees y).changed = false) → w2 = exShared) :=
  ⟨by decide, by decide, by decide, by decide, by decide, by decide,
    markUpdated_root_clears 5 exSharedRank exShared 0 (by decide) (by decide) (by decide)
      (by decide) (by decide)⟩

/-! ## The number of calls of `markChanged` -/

theorem parentCalls_append (w : World n) (l₁ l₂ : List (Fin n)) :
    w.parentCalls (l₁ ++ l₂) = w.parentCalls l₁ + w.parentCalls l₂ := by
  simp [World.parentCalls]

theorem parentCalls_of_grows {w w' : World n} (h : FlagsGrow w w') (l : List (Fin n)) :
    w'.parentCalls l = w.parentCalls l := by
  have hfun : (fun y => (w'.parents y).length) = (fun y => (w.parents y).length) := by
    funext y; rw [parents_of_grows h]
  simp only [World.parentCalls, hfun]

theorem parents_length (w : World n) (t : Fin n) (b : BodyPtr) (tl : TimelinePtr)
    (hb : (w.trees t).bodyParent = some b) (htl : (w.bodies b).timeline = some tl) :
    (w.parents t).length = (w.timelines tl).phases.length := by
  simp [World.parents, hb, htl]

/-- The count of the calls of a run is one more than the number of calls that
the trees of its record make on their parent trees. -/
theorem markChangedCalls_eq (fuel : Nat) (w : World n) (t : Fin n) :
    FrameTree.markChangedCalls fuel w t
      = (FrameTree.markChangedLog fuel w t).map (fun r => (r.1, 1 + w.parentCalls r.2)) := by
  induction fuel generalizing w t with
  | zero => rfl
  | succ fuel ih =>
    unfold FrameTree.markChangedCalls FrameTree.markChangedLog
    split
    · rfl
    · cases hb : (w.trees t).bodyParent with
      | none =>
        simp [World.parentCalls, World.parents, hb]
      | some b =>
        have hb0 : (w.setChanged t true).bodies = w.bodies := rfl
        have ht0 : (w.setChanged t true).timelines = w.timelines := rfl
        simp only [hb0, ht0]
        cases htl : (w.bodies b).timeline with
        | none =>
          simp [World.parentCalls, World.parents, hb, htl]
        | some tl =>
          simp only []
          have hlen := parents_length w t b tl hb htl
          have hloop : ∀ (l : List PhasePtr) (a : World n) (lg : List (Fin n)) (c k m : Nat),
              FlagsGrow w a → c + k = w.parentCalls lg + m →
              (l.foldlM
                (fun acc phase =>
                  (FrameTree.markChangedCalls fuel acc.1 (acc.1.phases phase).frameTree).map
                    (fun r => (r.1, acc.2 + r.2)))
                (a, c)).map (fun r => (r.1, r.2 + k))
              = (l.foldlM
                  (fun acc phase =>
                    (FrameTree.markChangedLog fuel acc.1 (acc.1.phases phase).frameTree).map
                      (fun r => (r.1, acc.2 ++ r.2)))
                  (a, lg)).map (fun r => (r.1, l.length + w.parentCalls r.2 + m)) := by
            intro l
            induction l with
            | nil =>
              intro a lg c k m _ hck
              simp only [List.foldlM_nil, Option.pure_def, Option.map_some', List.length_nil,
                Nat.zero_add, hck]
            | cons q qs ihl =>
              intro a lg c k m hg hck
              rw [List.foldlM_cons, List.foldlM_cons]
              simp only []
              rw [ih a (a.phases q).frameTree]
              cases hlog : FrameTree.markChangedLog fuel a (a.phases q).frameTree with
              | none => rfl
              | some r =>
                have hg' := (markChangedLog_spec fuel a _ r.1 r.2 hlog).1
                have hstep := ihl r.1 (lg ++ r.2) (c + (1 + w.parentCalls r.2)) k (m + 1)
                  (hg.trans hg') (by rw [parentCalls_append]; omega)
                simp only [Option.map_some', Option.some_bind, Option.bind_eq_bind]
                rw [parentCalls_of_grows hg r.2, hstep]
                have hfun : (fun r : World n × List (Fin n) =>
                      (r.1, qs.length + w.parentCalls r.2 + (m + 1)))
                    = (fun r => (r.1, (q :: qs).length + w.parentCalls r.2 + m)) := by
                  funext r
                  simp only [List.length_cons]
                  congr 1
                  omega
                rw [hfun]
          have h0 := hloop (w.timelines tl).phases (w.setChanged t true) [t] 1
            (w.timelines tl).phases.length 1 (setChanged_grows w t)
            (by simp [World.parentCalls, hlen]; omega)
          revert h0
          cases ((w.timelines tl).phases.foldlM
              (fun acc phase =>
                (FrameTree.markChangedCalls fuel acc.1 (acc.1.phases phase).frameTree).map
                  (fun r => (r.1, acc.2 + r.2)))
              (w.setChanged t true, 1)) with
          | none =>
            cases ((w.timelines tl).phases.foldlM
                (fun acc phase =>
                  (FrameTree.markChangedLog fuel acc.1 (acc.1.phases phase).frameTree).map
                    (fun r => (r.1, acc.2 ++ r.2)))
                (w.setChanged t true, [t])) with
            | none => intro _; rfl
            | some y => intro h0; simp at h0
          | some x =>
            cases ((w.timelines tl).phases.foldlM
                (fun acc phase =>
                  (FrameTree.markChangedLog fuel acc.1 (acc.1.phases phase).frameTree).map
                    (fun r => (r.1, acc.2 ++ r.2)))
                (w.setChanged t true, [t])) with
            | none => intro h0; simp at h0
            | some y =>
              intro h0
              simp only [Option.map_some', Option.some.injEq, Prod.mk.injEq] at h0
              obtain ⟨h1, h2⟩ := h0
              simp only [Option.map_some', Option.some.injEq]
              apply Prod.ext
              · exact h1
              · show x.2 = 1 + w.parentCalls y.2
                omega

/-- C32, against the claim as worded: in the hierarchy with the long timeline
(two frame trees) one call of `markChanged` on tree 1 sets each flag once, the
flags of tree 1 and of tree 0, and enters `FrameTree::markChanged` five times:
the first call, and one call on tree 0 for each of the four phases of the
timeline of the parent body. -/
theorem markChanged_calls_counterexample :
    (FrameTree.markChangedCalls 3 exLong 1).map (fun r => r.2) = some 5 ∧
    (FrameTree.markChangedLog 3 exLong 1).map (fun r => r.2) = some [1, 0] ∧
    exLong.parents 1 = [0, 0, 0, 0] ∧
    (FrameTree.markChanged 3 exLong 1).map
        (fun w' => ((w'.trees 0).changed, (w'.trees 1).changed)) = some (true, true) :=
  ⟨by decide, by decide, by decide, by decide⟩

/-- C32 (amended): `markChanged` returns on every hierarchy, whatever its
parent links, as soon as the fuel exceeds the number of frame trees; one call
sets the flag of each tree at most once (its record has no repetition, holds
the trees that went from clean to dirty and is no longer than the number of
trees), and enters `FrameTree::markChanged` once and then once for every phase
of the timeline of the parent body of every tree whose flag it sets.  That is
at most the number of frame trees plus one when no timeline of a parent body
has more than one phase. -/
theorem markChanged_terminates_bounded (fuel : Nat) (w : World n) (t : Fin n)
    (hfuel : n < fuel) :
    ∃ w' log calls, FrameTree.markChanged fuel w t = some w' ∧
      FrameTree.markChangedLog fuel w t = some (w', log) ∧
      FrameTree.markChangedCalls fuel w t = some (w', calls) ∧
      log.Nodup ∧ log.length ≤ n ∧
      (∀ y, y ∈ log ↔ ((w.trees y).changed = false ∧ (w'.trees y).changed = true)) ∧
      calls = 1 + w.parentCalls log ∧
      ((∀ y, (w.parents y).length ≤ 1) → calls ≤ n + 1) := by
  obtain ⟨w', hw'⟩ := markChanged_returns fuel w t (lt_of_le_of_lt (cleanCount_le w) hfuel)
  have hfst := markChangedLog_fst fuel w t
  cases hlog : FrameTree.markChangedLog fuel w t with
  | none => rw [hlog, hw'] at hfst; cases hfst
  | some r =>
    obtain ⟨w'', log⟩ := r
    rw [hlog, hw'] at hfst
    simp only [Option.map_some', Option.some.injEq] at hfst
    subst hfst
    obtain ⟨-, hnd, hmem⟩ := markChangedLog_spec fuel w t w'' log hlog
    have hlen : log.length ≤ n := by
      have := List.Nodup.length_le_card hnd
      simpa using this
    refine ⟨w'', log, 1 + w.parentCalls log, hw', rfl, ?_, hnd, hlen, hmem, rfl, ?_⟩
    · rw [markChangedCalls_eq, hlog]
      rfl
    · intro hone
      have hsum : w.parentCalls log ≤ log.length := by
        unfold World.parentCalls
        have : ∀ l : List (Fin n), (l.map (fun y => (w.parents y).length)).sum ≤ l.length := by
          intro l
          induction l with
          | nil => simp
          | cons y ys ihl =>
            simp only [List.map_cons, List.sum_cons, List.length_cons]
            have := hone y
            omega
        exact this log
      omega

theorem markChanged_terminates_bounded_witness :
    exCycle.parents 0 = [1] ∧ exCycle.parents 1 = [0] ∧
    (FrameTree.markChangedCalls 3 exCycle 0).map (fun r => r.2) = some 3 ∧
    (FrameTree.markChangedLog 3 exCycle 0).map (fun r => r.2) = some [0, 1] ∧
    ∃ w' log calls, FrameTree.markChanged 3 exCycle 0 = some w' ∧
      FrameTree.markChangedLog 3 exCycle 0 = some (w', log) ∧
      FrameTree.markChangedCalls 3 exCycle 0 = some (w', calls) ∧
      log.Nodup ∧ log.length ≤ 2 ∧
      (∀ y, y ∈ log ↔ ((exCycle.trees y).changed = false ∧ (w'.trees y).changed = true)) ∧
      calls = 1 + exCycle.parentCalls log ∧
      ((∀ y, (exCycle.parents y).length ≤ 1) → calls ≤ 2 + 1) :=
  ⟨by decide, by decide, by decide, by decide,
    markChanged_terminates_bounded 3 exCycle 0 (by decide)⟩

/-! ## Reading values from tokens -/

theorem nextToken_pushedBack (tk : Tokenizer) :
    tk.nextToken.2.tokenType = tk.nextToken.1 ∧ tk.nextToken.2.pushedBack = false := by
  unfold Tokenizer.nextToken
  split
  · exact ⟨rfl, rfl⟩
  · rename_i hpb
    split
    · exact ⟨rfl, by simpa using hpb⟩
    · exact ⟨rfl, by simpa using hpb⟩

theorem nextToken_avail_le (tk : Tokenizer) : tk.nextToken.2.avail ≤ tk.avail := by
  unfold Tokenizer.nextToken Tokenizer.avail
  split
  · simp
  · rename_i hpb
    have hpb' : tk.pushedBack = false := by simpa using hpb
    split
    · rename_i hin; simp [hin, hpb']
    · rename_i tok rest hin; simp [hin, hpb']

theorem nextToken_avail_lt (tk : Tokenizer) (h : tk.nextToken.1 ≠ .TokenEnd) :
    tk.nextToken.2.avail < tk.avail := by
  unfold Tokenizer.nextToken Tokenizer.avail at *
  split at h
  · rename_i hpb
    simp only [hpb, if_true]
    cases htt : tk.tokenType <;> simp_all
  · rename_i hpb
    have hpb' : tk.pushedBack = false := by simpa using hpb
    split at h
    · exact absurd rfl h
    · rename_i tok rest hin
      simp [hin, hpb']

theorem pushBack_avail (tk : Tokenizer) : tk.nextToken.2.pushBack.avail ≤ tk.avail := by
  by_cases hend : tk.nextToken.1 = .TokenEnd
  · have h1 := nextToken_avail_le tk
    have h2 := (nextToken_pushedBack tk).1
    unfold Tokenizer.pushBack Tokenizer.avail at *
    simp only [h2, hend]
    simp only [hend] at h2
    cases hpb : tk.nextToken.2.pushedBack <;> simp_all
  · have h1 := nextToken_avail_lt tk hend
    have h2 := (nextToken_pushedBack tk).2
    unfold Tokenizer.pushBack Tokenizer.avail at *
    simp only [h2] at h1
    cases htt : tk.nextToken.2.tokenType <;> simp_all <;> omega

theorem pushBack_nextToken (tk : Tokenizer) :
    tk.nextToken.2.pushBack.nextToken = tk.nextToken := by
  obtain ⟨h1, h2⟩ := nextToken_pushedBack tk
  have : tk.nextToken.2.pushBack.nextToken
      = (tk.nextToken.2.tokenType, { tk.nextToken.2 with pushedBack := false }) := by
    simp [Tokenizer.pushBack, Tokenizer.nextToken]
  rw [this, h1]
  apply Prod.ext
  · rfl
  · show ({ tk.nextToken.2 with pushedBack := false } : Tokenizer) = tk.nextToken.2
    cases hx : tk.nextToken.2 with
    | mk input tokenType pushedBack =>
      rw [hx] at h2
      simp only at h2
      subst h2
      rfl

theorem avail_le_length (tk : Tokenizer) : tk.avail ≤ tk.input.length + 1 := by
  unfold Tokenizer.avail
  cases tk.pushedBack <;> cases tk.tokenType <;> simp

/-- The loop of `readUnits` returns when the fuel exceeds the number of tokens
left before the token it is entered with. -/
theorem readUnitsLoop_returns (env : ParserEnv) (propertyName : String) :
    ∀ (fuel : Nat) (tk0 : Tokenizer) (hash : AssociativeArray), tk0.avail < fuel →
      ∃ r hash' tk', Parser.readUnitsLoop env propertyName fuel tk0.nextToken.2
          tk0.nextToken.1 hash = some (r, hash', tk') ∧
        tk'.avail ≤ tk0.avail ∧ (r = true → tk'.avail < tk0.avail) := by
  intro fuel
  induction fuel with
  | zero => intro tk0 hash h; exact absurd h (Nat.not_lt_zero _)
  | succ fuel ih =>
    intro tk0 hash h
    have hstop : ∀ (hash : AssociativeArray) (tk' : Tokenizer), tk'.avail ≤ tk0.avail →
        ∃ r hash' tk'', (some (false, hash, tk') : Option (Bool × AssociativeArray × Tokenizer))
            = some (r, hash', tk'') ∧
          tk''.avail ≤ tk0.avail ∧ (r = true → tk''.avail < tk0.avail) :=
      fun hash tk' hle => ⟨false, hash, tk', rfl, hle, fun hr => (by cases hr)⟩
    unfold Parser.readUnitsLoop
    cases htok : tk0.nextToken.1 with
    | TokenEndUnits =>
      exact ⟨true, hash, _, rfl, nextToken_avail_le tk0,
        fun _ => nextToken_avail_lt tk0 (by rw [htok]; intro hh; cases hh)⟩
    | TokenName unit =>
      have hlt := nextToken_avail_lt tk0 (by rw [htok]; intro hh; cases hh)
      have hrec : ∀ hash₁, ∃ r hash' tk', Parser.readUnitsLoop env propertyName fuel
            tk0.nextToken.2.nextToken.2 tk0.nextToken.2.nextToken.1 hash₁
            = some (r, hash', tk') ∧
          tk'.avail ≤ tk0.avail ∧ (r = true → tk'.avail < tk0.avail) := by
        intro hash₁
        obtain ⟨r, hash', tk', he, hle, -⟩ := ih tk0.nextToken.2 hash₁ (by omega)
        exact ⟨r, hash', tk', he, by omega, fun _ => by omega⟩
      simp only []
      split
      · exact hrec _
      · split
        · exact hrec _
        · split
          · exact hrec _
          · exact hstop hash _ (nextToken_avail_le tk0)
    | TokenString s => exact hstop hash _ (pushBack_avail tk0)
    | TokenNumber d => exact hstop hash _ (pushBack_avail tk0)
    | TokenBeginGroup => exact hstop hash _ (pushBack_avail tk0)
    | TokenEndGroup => exact hstop hash _ (pushBack_avail tk0)
    | TokenBeginArray => exact hstop hash _ (pushBack_avail tk0)
    | TokenEndArray => exact hstop hash _ (pushBack_avail tk0)
    | TokenBeginUnits => exact hstop hash _ (pushBack_avail tk0)
    | TokenOther => exact hstop hash _ (pushBack_avail tk0)
    | TokenEnd => exact hstop hash _ (pushBack_avail tk0)

/-- Method `readUnits` returns when the fuel is at least the number of tokens
left. -/
theorem readUnits_returns (env : ParserEnv) (fuel : Nat) (tk : Tokenizer)
    (propertyName : String) (hash : AssociativeArray) (h : tk.avail ≤ fuel) :
    ∃ r hash' tk', Parser.readUnits env fuel tk propertyName hash = some (r, hash', tk') ∧
      tk'.avail ≤ tk.avail ∧ (r = true → tk'.avail < tk.avail) := by
  have hstop : ∃ r hash' tk',
      (some (false, hash, tk.nextToken.2.pushBack) :
        Option (Bool × AssociativeArray × Tokenizer)) = some (r, hash', tk') ∧
      tk'.avail ≤ tk.avail ∧ (r = true → tk'.avail < tk.avail) :=
    ⟨false, hash, _, rfl, pushBack_avail tk, fun hr => (by cases hr)⟩
  unfold Parser.readUnits
  cases htok : tk.nextToken.1 with
  | TokenBeginUnits =>
    have hlt := nextToken_avail_lt tk (by rw [htok]; intro hh; cases hh)
    obtain ⟨r, hash', tk', he, hle, -⟩ :=
      readUnitsLoop_returns env propertyName fuel tk.nextToken.2 hash (by omega)
    exact ⟨r, hash', tk', he, by omega, fun _ => by omega⟩
  | TokenName s => exact hstop
  | TokenString s => exact hstop
  | TokenNumber d => exact hstop
  | TokenBeginGroup => exact hstop
  | TokenEndGroup => exact hstop
  | TokenBeginArray => exact hstop
  | TokenEndArray => exact hstop
  | TokenEndUnits => exact hstop
  | TokenOther => exact hstop
  | TokenEnd => exact hstop

/-- The loop of `readArray` returns when the fuel exceeds the number of tokens
left. -/
theorem readArrayLoop_returns (rv : Tokenizer → Option (Option Value × Tokenizer))
    (bound : Nat) (hrv : Parser.Reads rv bound) :
    ∀ (fuel : Nat) (tk : Tokenizer) (array : List Value), tk.avail < fuel → tk.avail < bound →
      ∃ array' tk', Parser.readArrayLoopWith rv fuel tk array = some (array', tk') ∧
        tk'.avail ≤ tk.avail := by
  intro fuel
  induction fuel with
  | zero => intro tk array h; exact absurd h (Nat.not_lt_zero _)
  | succ fuel ih =>
    intro tk array h hb
    obtain ⟨r, tk₁, hr, hle, hlt⟩ := hrv tk hb
    unfold Parser.readArrayLoopWith
    rw [hr]
    cases r with
    | none => exact ⟨array, tk₁, rfl, hle⟩
    | some v =>
      have hlt' := hlt rfl
      obtain ⟨array', tk', he, hle'⟩ := ih tk₁ (array ++ [v]) (by omega) (by omega)
      exact ⟨array', tk', he, by omega⟩

/-- Method `readArray` returns when `readValue` does on fewer tokens. -/
theorem readArrayWith_returns (rv : Tokenizer → Option (Option Value × Tokenizer))
    (bound fuel : Nat) (hrv : Parser.Reads rv bound) (tk : Tokenizer)
    (hb : tk.avail ≤ bound) (hf : tk.avail ≤ fuel) :
    ∃ r tk', Parser.readArrayWith rv fuel tk = some (r, tk') ∧ tk'.avail ≤ tk.avail ∧
      (r.isSome = true → tk'.avail < tk.avail) := by
  have hstop : ∃ r tk',
      (some (none, tk.nextToken.2.pushBack) : Option (Option (List Value) × Tokenizer))
        = some (r, tk') ∧ tk'.avail ≤ tk.avail ∧ (r.isSome = true → tk'.avail < tk.avail) :=
    ⟨none, _, rfl, pushBack_avail tk, fun hr => (by cases hr)⟩
  unfold Parser.readArrayWith
  cases htok : tk.nextToken.1 with
  | TokenBeginArray =>
    have hlt := nextToken_avail_lt tk (by rw [htok]; intro hh; cases hh)
    obtain ⟨array, tk₁, he, hle⟩ :=
      readArrayLoop_returns rv bound hrv fuel tk.nextToken.2 [] (by omega) (by omega)
    simp only [he]
    have hstop₁ : ∃ r tk',
        (some (none, tk₁.nextToken.2.pushBack) : Option (Option (List Value) × Tokenizer))
          = some (r, tk') ∧ tk'.avail ≤ tk.avail ∧
          (r.isSome = true → tk'.avail < tk.avail) :=
      ⟨none, _, rfl, le_trans (pushBack_avail tk₁) (by omega), fun hr => (by cases hr)⟩
    cases htok₁ : tk₁.nextToken.1 with
    | TokenEndArray =>
      have := nextToken_avail_le tk₁
      exact ⟨some array, _, rfl, by omega, fun _ => by omega⟩
    | TokenName s => exact hstop₁
    | TokenString s => exact hstop₁
    | TokenNumber d => exact hstop₁
    | TokenBeginGroup => exact hstop₁
    | TokenEndGroup => exact hstop₁
    | TokenBeginArray => exact hstop₁
    | TokenBeginUnits => exact hstop₁
    | TokenEndUnits => exact hstop₁
    | TokenOther => exact hstop₁
    | TokenEnd => exact hstop₁
  | TokenName s => exact hstop
  | TokenString s => exact hstop
  | TokenNumber d => exact hstop
  | TokenBeginGroup => exact hstop
  | TokenEndGroup => exact hstop
  | TokenEndArray => exact hstop
  | TokenBeginUnits => exact hstop
  | TokenEndUnits => exact hstop
  | TokenOther => exact hstop
  | TokenEnd => exact hstop

/-- The loop of `readHash` returns when the fuel exceeds the number of tokens
left before the token it is entered with. -/
theorem readHashLoop_returns (env : ParserEnv)
    (rv : Tokenizer → Option (Option Value × Tokenizer)) (bound unitsFuel : Nat)
    (hrv : Parser.Reads rv bound) :
    ∀ (fuel : Nat) (tk0 : Tokenizer) (hash : AssociativeArray), tk0.avail < fuel →
      tk0.avail ≤ bound → tk0.avail ≤ unitsFuel →
      ∃ r tk', Parser.readHashLoopWith env rv unitsFuel fuel tk0.nextToken.2
          tk0.nextToken.1 hash = some (r, tk') ∧
        tk'.avail ≤ tk0.avail ∧ (r.isSome = true → tk'.avail < tk0.avail) := by
  intro fuel
  induction fuel with
  | zero => intro tk0 hash h; exact absurd h (Nat.not_lt_zero _)
  | succ fuel ih =>
    intro tk0 hash h hb hu
    have hstop : ∃ r tk',
        (some (none, tk0.nextToken.2.pushBack) :
          Option (Option AssociativeArray × Tokenizer)) = some (r, tk') ∧
        tk'.avail ≤ tk0.avail ∧ (r.isSome = true → tk'.avail < tk0.avail) :=
      ⟨none, _, rfl, pushBack_avail tk0, fun hr => (by cases hr)⟩
    unfold Parser.readHashLoopWith
    cases htok : tk0.nextToken.1 with
    | TokenEndGroup =>
      exact ⟨some hash, _, rfl, nextToken_avail_le tk0,
        fun _ => nextToken_avail_lt tk0 (by rw [htok]; intro hh; cases hh)⟩
    | TokenName name =>
      have hlt := nextToken_avail_lt tk0 (by rw [htok]; intro hh; cases hh)
      have hpre : ∃ b hash₁ tk₂,
          (if env.usePostfixUnits then some (false, hash, tk0.nextToken.2)
            else Parser.readUnits env unitsFuel tk0.nextToken.2 name hash)
            = some (b, hash₁, tk₂) ∧ tk₂.avail ≤ tk0.nextToken.2.avail := by
        split
        · exact ⟨false, hash, _, rfl, le_refl _⟩
        · obtain ⟨b, hash₁, tk₂, he, hle, -⟩ :=
            readUnits_returns env unitsFuel tk0.nextToken.2 name hash (by omega)
          exact ⟨b, hash₁, tk₂, he, hle⟩
      obtain ⟨b, hash₁, tk₂, hpre, hle₂⟩ := hpre
      obtain ⟨r, tk₃, hr, hle₃, hlt₃⟩ := hrv tk₂ (by omega)
      simp only [hpre, hr]
      cases r with
      | none => exact ⟨none, tk₃, rfl, by omega, fun hr => (by cases hr)⟩
      | some value =>
        have hlt₃' := hlt₃ rfl
        have hpost : ∃ b' hash₂ tk₄,
            (if env.usePostfixUnits then
              Parser.readUnits env unitsFuel tk₃ name (hash₁.addValue name value)
              else some (false, hash₁.addValue name value, tk₃))
              = some (b', hash₂, tk₄) ∧ tk₄.avail ≤ tk₃.avail := by
          split
          · obtain ⟨b', hash₂, tk₄, he, hle, -⟩ :=
              readUnits_returns env unitsFuel tk₃ name (hash₁.addValue name value) (by omega)
            exact ⟨b', hash₂, tk₄, he, hle⟩
          · exact ⟨false, _, _, rfl, le_refl _⟩
        obtain ⟨b', hash₂, tk₄, hpost, hle₄⟩ := hpost
        simp only [hpost]
        obtain ⟨r', tk', he, hle', -⟩ := ih tk₄ hash₂ (by omega) (by omega) (by omega)
        exact ⟨r', tk', he, by omega, fun _ => by omega⟩
    | TokenString s => exact hstop
    | TokenNumber d => exact hstop
    | TokenBeginGroup => exact hstop
    | TokenBeginArray => exact hstop
    | TokenEndArray => exact hstop
    | TokenBeginUnits => exact hstop
    | TokenEndUnits => exact hstop
    | TokenOther => exact hstop
    | TokenEnd => exact hstop

/-- Method `readHash` returns when `readValue` does on fewer tokens. -/
theorem readHashWith_returns (env : ParserEnv)
    (rv : Tokenizer → Option (Option Value × Tokenizer))
    (bound fuel : Nat) (hrv : Parser.Reads rv bound) (tk : Tokenizer)
    (hb : tk.avail ≤ bound) (hf : tk.avail ≤ fuel) :
    ∃ r tk', Parser.readHashWith env rv fuel tk = some (r, tk') ∧ tk'.avail ≤ tk.avail ∧
      (r.isSome = true → tk'.avail < tk.avail) := by
  have hstop : ∃ r tk',
      (some (none, tk.nextToken.2.pushBack) : Option (Option AssociativeArray × Tokenizer))
        = some (r, tk') ∧ tk'.avail ≤ tk.avail ∧ (r.isSome = true → tk'.avail < tk.avail) :=
    ⟨none, _, rfl, pushBack_avail tk, fun hr => (by cases hr)⟩
  unfold Parser.readHashWith
  cases htok : tk.nextToken.1 with
  | TokenBeginGroup =>
    have hlt := nextToken_avail_lt tk (by rw [htok]; intro hh; cases hh)
    obtain ⟨r, tk', he, hle, -⟩ :=
      readHashLoop_returns env rv bound fuel hrv fuel tk.nextToken.2 ⟨fun _ => none⟩
        (by omega) (by omega) (by omega)
    exact ⟨r, tk', he, by omega, fun _ => by omega⟩
  | TokenName s => exact hstop
  | TokenString s => exact hstop
  | TokenNumber d => exact hstop
  | TokenEndGroup => exact hstop
  | TokenBeginArray => exact hstop
  | TokenEndArray => exact hstop
  | TokenBeginUnits => exact hstop
  | TokenEndUnits => exact hstop
  | TokenOther => exact hstop
  | TokenEnd => exact hstop

/-- Method `readValue` returns when the fuel exceeds the number of tokens
left, and a value that it gives has taken a token. -/
theorem readValue_reads (env : ParserEnv) :
    ∀ fuel : Nat, Parser.Reads (Parser.readValue env fuel) fuel := by
  intro fuel
  induction fuel with
  | zero => intro tk h; exact absurd h (Nat.not_lt_zero _)
  | succ fuel ih =>
    intro tk h
    have hstop : ∃ r tk',
        (some (none, tk.nextToken.2.pushBack) : Option (Option Value × Tokenizer))
          = some (r, tk') ∧ tk'.avail ≤ tk.avail ∧ (r.isSome = true → tk'.avail < tk.avail) :=
      ⟨none, _, rfl, pushBack_avail tk, fun hr => (by cases hr)⟩
    have htake : tk.nextToken.1 ≠ .TokenEnd → ∀ v : Value, ∃ r tk',
        (some (some v, tk.nextToken.2) : Option (Option Value × Tokenizer))
          = some (r, tk') ∧ tk'.avail ≤ tk.avail ∧ (r.isSome = true → tk'.avail < tk.avail) :=
      fun hne v => ⟨some v, _, rfl, nextToken_avail_le tk, fun _ => nextToken_avail_lt tk hne⟩
    unfold Parser.readValue
    cases htok : tk.nextToken.1 with
    | TokenNumber d => exact htake (by rw [htok]; intro hh; cases hh) _
    | TokenString s => exact htake (by rw [htok]; intro hh; cases hh) _
    | TokenName s =>
      simp only []
      split
      · exact htake (by rw [htok]; intro hh; cases hh) _
      · split
        · exact htake (by rw [htok]; intro hh; cases hh) _
        · exact hstop
    | TokenBeginArray =>
      have hsame : Parser.readArrayWith (Parser.readValue env fuel) fuel
          tk.nextToken.2.pushBack
          = Parser.readArrayWith (Parser.readValue env fuel) fuel tk := by
        unfold Parser.readArrayWith
        rw [pushBack_nextToken]
      obtain ⟨r, tk', he, hle, hlt⟩ :=
        readArrayWith_returns (Parser.readValue env fuel) fuel fuel ih tk (by omega) (by omega)
      simp only [hsame, he]
      cases r with
      | none => exact ⟨none, tk', rfl, hle, fun hr => (by cases hr)⟩
      | some array => exact ⟨some (.array array), tk', rfl, hle, fun _ => hlt rfl⟩
    | TokenBeginGroup =>
      have hsame : Parser.readHashWith env (Parser.readValue env fuel) fuel
          tk.nextToken.2.pushBack
          = Parser.readHashWith env (Parser.readValue env fuel) fuel tk := by
        unfold Parser.readHashWith
        rw [pushBack_nextToken]
      obtain ⟨r, tk', he, hle, hlt⟩ :=
        readHashWith_returns env (Parser.readValue env fuel) fuel fuel ih tk
          (by omega) (by omega)
      simp only [hsame, he]
      cases r with
      | none => exact ⟨none, tk', rfl, hle, fun hr => (by cases hr)⟩
      | some hash => exact ⟨some (.hash hash.assoc), tk', rfl, hle, fun _ => hlt rfl⟩
    | TokenEndGroup => exact hstop
    | TokenEndArray => exact hstop
    | TokenBeginUnits => exact hstop
    | TokenEndUnits => exact hstop
    | TokenOther => exact hstop
    | TokenEnd => exact hstop

/-- C37: on a tokenizer over a finite token sequence, with fuel above the number
of tokens left (which is at most the length of the input plus one),
`readValue`, `readArray`, `readHash` and `readUnits` return; none of them gives
tokens back to the input, and each takes at least one token when it reads a
value, an array, a hash or a units section.  When the next token is the end
token, the four of them return `nullptr` or `false`, the loop of `readArray`
stops and `readArray` returns `nullptr` after it, and the loops of `readHash`
and `readUnits` return `nullptr` and `false`. -/
theorem parser_reads_terminate (env : ParserEnv) (fuel : Nat) (tk : Tokenizer)
    (hfuel : tk.avail < fuel) :
    tk.avail ≤ tk.input.length + 1 ∧
    (∃ r tk', Parser.readValue env fuel tk = some (r, tk') ∧ tk'.avail ≤ tk.avail ∧
      (r.isSome = true → tk'.avail < tk.avail)) ∧
    (∃ r tk', Parser.readArray env fuel tk = some (r, tk') ∧ tk'.avail ≤ tk.avail ∧
      (r.isSome = true → tk'.avail < tk.avail)) ∧
    (∃ r tk', Parser.readHash env fuel tk = some (r, tk') ∧ tk'.avail ≤ tk.avail ∧
      (r.isSome = true → tk'.avail < tk.avail)) ∧
    (∀ propertyName hash, ∃ r hash' tk',
      Parser.readUnits env fuel tk propertyName hash = some (r, hash', tk') ∧
      tk'.avail ≤ tk.avail ∧ (r = true → tk'.avail < tk.avail)) ∧
    (tk.nextToken.1 = .TokenEnd →
      Parser.readValue env fuel tk = some (none, tk.nextToken.2.pushBack) ∧
      Parser.readArray env fuel tk = some (none, tk.nextToken.2.pushBack) ∧
      Parser.readHash env fuel tk = some (none, tk.nextToken.2.pushBack) ∧
      (∀ propertyName hash,
        Parser.readUnits env fuel tk propertyName hash
          = some (false, hash, tk.nextToken.2.pushBack)) ∧
      (∀ array, Parser.readArrayLoopWith (Parser.readValue env fuel) fuel tk array
        = some (array, tk.nextToken.2.pushBack)) ∧
      (∀ rv unitsFuel hash,
        Parser.readHashLoopWith env rv unitsFuel fuel tk.nextToken.2 .TokenEnd hash
          = some (none, tk.nextToken.2.pushBack)) ∧
      (∀ propertyName hash,
        Parser.readUnitsLoop env propertyName fuel tk.nextToken.2 .TokenEnd hash
          = some (false, hash, tk.nextToken.2.pushBack))) ∧
    (∀ rv array tk₁, tk.nextToken.1 = .TokenBeginArray →
      Parser.readArrayLoopWith rv fuel tk.nextToken.2 [] = some (array, tk₁) →
      tk₁.nextToken.1 = .TokenEnd →
      Parser.readArrayWith rv fuel tk = some (none, tk₁.nextToken.2.pushBack)) := by
  refine ⟨avail_le_length tk, readValue_reads env fuel tk hfuel, ?_, ?_, ?_, ?_, ?_⟩
  · exact readArrayWith_returns _ fuel fuel (readValue_reads env fuel) tk
      (le_of_lt hfuel) (le_of_lt hfuel)
  · exact readHashWith_returns env _ fuel fuel (readValue_reads env fuel) tk
      (le_of_lt hfuel) (le_of_lt hfuel)
  · intro propertyName hash
    exact readUnits_returns env fuel tk propertyName hash (le_of_lt hfuel)
  · intro hend
    cases fuel with
    | zero => exact absurd hfuel (Nat.not_lt_zero _)
    | succ fuel =>
      have hval : Parser.readValue env (fuel + 1) tk = some (none, tk.nextToken.2.pushBack) := by
        unfold Parser.readValue
        rw [hend]
      refine ⟨hval, ?_, ?_, ?_, ?_, ?_, ?_⟩
      · unfold Parser.readArray Parser.readArrayWith
        rw [hend]
      · unfold Parser.readHash Parser.readHashWith
        rw [hend]
      · intro propertyName hash
        unfold Parser.readUnits
        rw [hend]
      · intro array
        unfold Parser.readArrayLoopWith
        rw [hval]
      · intro rv unitsFuel hash
        unfold Parser.readHashLoopWith
        rfl
      · intro propertyName hash
        unfold Parser.readUnitsLoop
        rfl
  · intro rv array tk₁ hbegin hloop hend
    unfold Parser.readArrayWith
    rw [hbegin]
    simp only [hloop]
    rw [hend]

theorem parser_reads_terminate_witness :
    (exTokenizer exTokens).avail = 12 ∧
    (Parser.readValue exEnv 13 (exTokenizer exTokens)).map
        (fun r => (r.1.isSome, r.2.avail)) = some (true, 0) ∧
    (Parser.readValue exEnv 13 (exTokenizer exTokens)).map
        (fun r => match r.1 with
          | some (.hash h) =>
            ((AssociativeArray.mk h).getNumber "Period" .nan,
              (AssociativeArray.mk h).getString "Period%Time" "",
              ((AssociativeArray.mk h).getValue "Moons").isSome)
          | _ => ((false, .nan), (false, ""), false))
      = some ((true, .finite 4), (true, "y"), true) ∧
    (Parser.readValue exEnv 13 (exTokenizer exTokens.dropLast)).map
        (fun r => (r.1.isSome, r.2.avail)) = some (false, 0) ∧
    (∃ r tk', Parser.readValue exEnv 13 (exTokenizer exTokens) = some (r, tk') ∧
      tk'.avail ≤ (exTokenizer exTokens).avail ∧
      (r.isSome = true → tk'.avail < (exTokenizer exTokens).avail)) :=
  ⟨by decide, by decide, by decide, by decide,
    (parser_reads_terminate exEnv 13 (exTokenizer exTokens) (by decide)).2.1⟩

end Celestia
